import Mathlib

/-!
# gambit.golf preview renderer: embedding and verified properties

A shallow embedding of the parts of `src/render_image.go` and `src/data.go`
that decide layout and scorecard formatting, followed by theorems about them.

Conventions of the embedding

* Go `int` values are mathematical integers (`Int`), and the results of the
  arithmetic of the program are reduced into the 64-bit range with
  `wrapInt64`: in the golf metadata of `grabData`, fed by tags and JSON
  numbers, and in the layout arithmetic of `drawParagraphs`, whose font size
  and height are parameters.
* Go `/` on integers truncates toward zero: `Int.tdiv`.
* Go strings are `String`; `len([]rune(s))` is `String.length`.
* `float64` arithmetic is embedded over the interface `FloatOps`; `f64Ops` is
  its implementation by IEEE 754 binary64 (`F64`), every operation rounded to
  nearest, ties to even, with `math.Pow` of the standard library a parameter
  (`MathEnv`).
* Drawing on a canvas is recorded as a list of draw calls.
* Functions of this repository that are not part of the embedded files
  (`isMediaURL`, `drawMediaAt`, text shaping and wrapping) are parameters,
  collected in `Env`.
-/

namespace Gambit

/-! ## Go integers -/

/-- Smallest value of a Go `int` (64 bit). -/
def minInt64 : Int := -9223372036854775808

/-- Largest value of a Go `int` (64 bit). -/
def maxInt64 : Int := 9223372036854775807

/-- Two's complement reduction of an integer into the range of a Go `int`. -/
def wrapInt64 (x : Int) : Int :=
  (x + 9223372036854775808) % 18446744073709551616 - 9223372036854775808

/-- Membership in the range of a Go `int`. -/
def inInt64 (x : Int) : Prop := minInt64 ≤ x ∧ x ≤ maxInt64

instance (x : Int) : Decidable (inInt64 x) := by
  unfold inInt64; exact inferInstance

/-- Go `a - b` on `int`. -/
def subInt64 (a b : Int) : Int := wrapInt64 (a - b)

/-- Go `a + b` on `int`. -/
def addInt64 (a b : Int) : Int := wrapInt64 (a + b)

/-- Go `a * b` on `int`. -/
def mulInt64 (a b : Int) : Int := wrapInt64 (a * b)

/-- The verb `%d` of `fmt.Sprintf` on an `int`: decimal digits, with a
leading minus sign for a negative number. -/
def fmtD (n : Int) : String :=
  if n < 0 then "-" ++ Nat.repr n.natAbs else Nat.repr n.natAbs

/-! ## Data model (`src/data.go`) -/

/-- Go struct `HoleScore`. -/
structure HoleScore where
  Hole : Int
  Score : Int
  Par : Int
  Strokes : Int
  deriving DecidableEq, Repr

/-- Go struct `Kind1501Metadata`. -/
structure Kind1501Metadata where
  CourseName : String
  CourseRef : String
  Date : String
  TeeSet : String
  TotalScore : Int
  Par : Int
  ScoreToPar : Int
  HoleScores : List HoleScore
  Players : List String
  Notes : String
  HolePars : List Int
  TotalPar : Int
  HoleCount : Int
  deriving DecidableEq, Repr

/-- The zero value `&Kind1501Metadata{}`. -/
def Kind1501Metadata.zero : Kind1501Metadata :=
  { CourseName := "", CourseRef := "", Date := "", TeeSet := "", TotalScore := 0,
    Par := 0, ScoreToPar := 0, HoleScores := [], Players := [], Notes := "",
    HolePars := [], TotalPar := 0, HoleCount := 0 }

/-! ## Structured card renderer (`drawGolfScorecardImage`) -/

/-- Go `color.RGBA`. -/
structure RGBA where
  R : Nat
  G : Nat
  B : Nat
  A : Nat
  deriving DecidableEq, Repr

/-- What `drawGolfScorecardImage` draws that depends on its arguments: each
text with the colour set when it is drawn. -/
structure GolfCard where
  titleText : String
  courseName : String
  combinedScoreText : String
  scoreColor : RGBA
  playerText : String
  dateText : String
  parInfoText : Option String
  brandText : String
  deriving DecidableEq, Repr

/-- `parText` of `drawGolfScorecardImage` (lines 445-452). -/
def parText (scoreToPar : Int) : String :=
  if scoreToPar > 0 then "+" ++ fmtD scoreToPar
  else if scoreToPar < 0 then fmtD scoreToPar
  else "E"

/-- The colour set before the combined score is drawn (lines 458-464). -/
def scoreColor (scoreToPar : Int) : RGBA :=
  if scoreToPar < 0 then ⟨76, 175, 80, 255⟩
  else if scoreToPar > 0 then ⟨244, 67, 54, 255⟩
  else ⟨30, 136, 229, 255⟩

/-- `drawGolfScorecardImage`: `shortName` is `metadata.ShortName()` and
`formattedDate` is `date.Format("Jan 02, 2006")`. -/
def drawGolfScorecardImage (golfData : Kind1501Metadata) (shortName formattedDate : String) :
    GolfCard :=
  let courseName := if golfData.CourseName = "" then "Golf Course" else golfData.CourseName
  let combinedScoreText := fmtD golfData.TotalScore ++ " (" ++ parText golfData.ScoreToPar ++ ")"
  let dateText := "Date: " ++ formattedDate
  let dateText := if golfData.Date ≠ "" then "Date: " ++ golfData.Date else dateText
  { titleText := "Golf Scorecard"
    courseName := courseName
    combinedScoreText := combinedScoreText
    scoreColor := scoreColor golfData.ScoreToPar
    playerText := "Player: " ++ shortName
    dateText := dateText
    parInfoText := if golfData.Par > 0 then some ("Par: " ++ fmtD golfData.Par) else none
    brandText := "gambit.golf" }

/-- Scorecard metadata with the given total and score to par, all else zero. -/
def cardOf (total scoreToPar : Int) : Kind1501Metadata :=
  { Kind1501Metadata.zero with TotalScore := total, ScoreToPar := scoreToPar }

/-! ## Style profile (`drawImage`, lines 148-167) -/

/-- Modelled from the spec: the type `Style` and its constants are declared
outside the embedded files. Section 3 of the specification names the variants
Default, Telegram, Twitter and Facebook; every other value takes no branch of
the `switch` in `drawImage`. -/
inductive Style where
  | Default
  | Telegram
  | Twitter
  | Facebook
  | Unrecognised (tag : Nat)
  deriving DecidableEq, Repr

/-- The local constants of `drawImage` after its `switch style`. `barScale`
is kept in hundredths (`1.0` is 100, `0.55` is 55). -/
structure Geometry where
  fontSize : Int
  width : Int
  height : Int
  paddingLeft : Int
  gradientRectHeight : Int
  barHeight : Int
  barScaleHundredths : Int
  deriving DecidableEq, Repr

/-- Lines 148-167 of `drawImage`. The product `float64(barHeight) * barScale`
is 38.5 up to one rounding error, so its conversion to `int` is the truncated
exact product. -/
def styleGeometry (style : Style) : Geometry :=
  let g : Geometry :=
    { fontSize := 25, width := 700, height := 525, paddingLeft := 25,
      gradientRectHeight := 140, barHeight := 70, barScaleHundredths := 100 }
  match style with
  | Style.Telegram => { g with paddingLeft := g.paddingLeft + 10, width := g.width - 10 }
  | Style.Twitter => { g with height := Int.tdiv (g.width * 268) 512 }
  | Style.Facebook =>
    { g with height := Int.tdiv (g.width * 355) 680, paddingLeft := 180,
             barScaleHundredths := 55, barHeight := Int.tdiv (g.barHeight * 55) 100,
             fontSize := 18 }
  | _ => g

/-! ## Adaptive sizing heuristic (`drawImage`, lines 174-191) -/

/-- The `float64` operations used by the sizing heuristic. The heuristic is
embedded over this interface; `f64Ops` implements it with IEEE 754 binary64.
`lit n d` is the constant written `n/d` in decimal in the source, `pow` is
`math.Pow`, `ofInt` is the conversion `float64(n)` and `toInt` the conversion
`int(f)`. -/
structure FloatOps where
  F : Type
  ofInt : Int → F
  lit : Nat → Nat → F
  add : F → F → F
  sub : F → F → F
  mul : F → F → F
  div : F → F → F
  pow : F → F → F
  toInt : F → Int

/-- The counting loop of lines 181-186: `(nchars, blankLines)`. -/
def countChars : List String → Int × Int → Int × Int
  | [], acc => acc
  | par :: rest, (nchars, blankLines) =>
    countChars rest (nchars + (par.length : Int), if par = "" then blankLines + 1 else blankLines)

/-- Line 187: `largeness`. -/
def largeness (ops : FloatOps) (nchars np blankLines : Int) : ops.F :=
  ops.add
    (ops.add (ops.pow (ops.ofInt nchars) (ops.lit 60 100))
             (ops.pow (ops.ofInt (np - blankLines)) (ops.lit 1 1)))
    (ops.pow (ops.ofInt blankLines) (ops.lit 7 10))

/-- Line 188: `zoom`, as a function of the height that enters the formula. -/
def zoomOf (ops : FloatOps) (height blankLines : Int) : ops.F :=
  ops.pow
    (ops.sub (ops.div (ops.ofInt height) (ops.lit 366 1))
             (ops.div (ops.ofInt (blankLines + 1)) (ops.lit 10 1)))
    (ops.lit 12 10)

/-- Line 189: `addedSize = int(200.0 / largeness * zoom)`. -/
def addedSize (ops : FloatOps) (height nchars np blankLines : Int) : Int :=
  ops.toInt (ops.mul (ops.div (ops.lit 200 1) (largeness ops nchars np blankLines))
                     (zoomOf ops height blankLines))

/-- Modelled from the spec: `containsMedia` is defined outside the embedded
files; section 4.2 reads "the content contains any media reference". -/
def containsMedia (isMediaURL : String → Bool) (paragraphs : List String) : Bool :=
  paragraphs.any isMediaURL

/-- Lines 175-191 of `drawImage`: the font size handed to `drawParagraphs`. -/
def textFontSize (ops : FloatOps) (isMediaURL : String → Bool) (style : Style)
    (paragraphs : List String) : Int :=
  let g := styleGeometry style
  let np : Int := paragraphs.length
  if !containsMedia isMediaURL paragraphs ∧ np < 6 then
    let counts := countChars paragraphs (0, 0)
    let added := addedSize ops g.height counts.1 np counts.2
    ops.toInt (ops.ofInt (g.fontSize + added))
  else g.fontSize

/-! ### A reference implementation of the float interface

Fixed-point decimals with twelve fractional digits, every operation rounded
toward zero. It is used to evaluate the heuristic at concrete inputs, and its
power `fxPow` is the basis of the reference power `refPow`. -/

/-- Units per one: `10^12`. -/
def fxScale : Nat := 1000000000000

/-- Largest `r < 2^bits` above the start with `r^k ≤ n`, found bit by bit. -/
def irootBits (k n : Nat) : Nat → Nat → Nat
  | 0, r => r
  | b + 1, r => if (r + 2 ^ b) ^ k ≤ n then irootBits k n b (r + 2 ^ b) else irootBits k n b r

/-- Integer part of the `k`-th root of `n`, for roots below `2^64`. -/
def iroot (k n : Nat) : Nat := irootBits k n 64 0

/-- Fixed-point `x^y` for `x > 0`: with `y = p/q` in lowest terms, the integer
`q`-th root of `x^p` at scale; `0` for `x ≤ 0`. -/
def fxPow (x y : Int) : Int :=
  if x ≤ 0 ∨ y < 0 then 0
  else
    let g := Nat.gcd y.toNat fxScale
    let p := y.toNat / g
    let q := fxScale / g
    (iroot q (x.toNat ^ p * fxScale ^ q / fxScale ^ p) : Nat)

/-- The reference float implementation. -/
def fxOps : FloatOps where
  F := Int
  ofInt := fun n => n * fxScale
  lit := fun n d => Int.tdiv ((n : Int) * fxScale) d
  add := fun a b => a + b
  sub := fun a b => a - b
  mul := fun a b => Int.tdiv (a * b) fxScale
  div := fun a b => Int.tdiv (a * fxScale) b
  pow := fxPow
  toInt := fun a => Int.tdiv a fxScale

/-! ## Paragraph layout (`drawParagraphs`) -/

/-- The collaborators of `drawParagraphs` that live outside the embedded
files. `drawMediaAt par yPos` is the returned `next` (`-1` when nothing was
drawn); `wrap par fontSize width` is the result of shaping and wrapping the
paragraph: the wrapped lines, each a list of shaped runs, a run being
represented by the text it covers; `charsWritten` is the first result of
`drawShapedBlockAt`. -/
structure Env where
  isMediaURL : String → Bool
  drawMediaAt : String → Int → Int
  wrap : String → Int → Int → List (List String)
  charsWritten : String → Int

/-- One call that draws on the text image. For a text run the record holds
the arguments `out`, `totalCharsWritten` and `yPos` of `drawShapedBlockAt`
and the value of `lineNumber` at the call. -/
inductive DrawCall where
  | text (out : String) (totalCharsWritten : Int) (yPos : Int) (lineNumber : Int)
  | media (paragraph : String) (yPos : Int)
  deriving DecidableEq, Repr

/-- The mutable locals of `drawParagraphs` and the calls made so far. -/
structure LayoutState where
  lineNumber : Int
  yPos : Int
  drawn : List DrawCall
  deriving DecidableEq, Repr

/-- The line height `fontSize*12/10`, in the arithmetic of Go `int`. -/
def lineHeight (fontSize : Int) : Int := Int.tdiv (mulInt64 fontSize 12) 10

/-- The quantity `fontSize*lineNumber*12/10` compared with `height` on line
338, in the arithmetic of Go `int`. -/
def checkPos (fontSize lineNumber : Int) : Int :=
  Int.tdiv (mulInt64 (mulInt64 fontSize lineNumber) 12) 10

/-- The inner loop of lines 319-343 over the runs of one wrapped line. The
result is the state, `totalCharsWritten`, and whether the function returned
with overflow. -/
def drawOuts (env : Env) (fontSize height : Int) :
    List String → LayoutState → Int → LayoutState × Int × Bool
  | [], st, total => (st, total, false)
  | out :: rest, st, total =>
    let st1 := { st with drawn := st.drawn ++ [DrawCall.text out total st.yPos st.lineNumber] }
    let total1 := addInt64 total (env.charsWritten out)
    if checkPos fontSize st.lineNumber > height then (st1, total1, true)
    else
      drawOuts env fontSize height rest
        { st1 with lineNumber := addInt64 st.lineNumber 1,
                   yPos := addInt64 st.yPos (lineHeight fontSize) }
        total1

/-- The loop of lines 318-344 over the wrapped lines of one paragraph. -/
def drawLines (env : Env) (fontSize height : Int) :
    List (List String) → LayoutState → Int → LayoutState × Int × Bool
  | [], st, total => (st, total, false)
  | line :: rest, st, total =>
    match drawOuts env fontSize height line st total with
    | (st1, total1, true) => (st1, total1, true)
    | (st1, total1, false) => drawLines env fontSize height rest st1 total1

/-- Lines 309-344: the text path for one paragraph. -/
def drawText (env : Env) (fontSize width height : Int) (paragraph : String)
    (st : LayoutState) : LayoutState × Bool :=
  let r := drawLines env fontSize height (env.wrap paragraph fontSize width) st 0
  (r.1, r.2.2)

/-- The body of the loop of `drawParagraphs` for the paragraph at index `i`,
`rest` being the paragraphs after it. The boolean tells that the function
returned with overflow. -/
def processParagraph (env : Env) (fontSize width height : Int) (i : Nat)
    (paragraph : String) (rest : List String) (st : LayoutState) : LayoutState × Bool :=
  if paragraph = "" then
    if (match rest with
        | next :: _ => env.isMediaURL next
        | [] => false) then (st, false)
    else ({ st with lineNumber := addInt64 st.lineNumber 1,
                    yPos := addInt64 st.yPos (lineHeight fontSize) }, false)
  else if env.isMediaURL paragraph then
    let st0 := if i = 0 then { st with yPos := 0 } else st
    let next := env.drawMediaAt paragraph st0.yPos
    if next ≠ -1 then
      ({ st0 with yPos := next, drawn := st0.drawn ++ [DrawCall.media paragraph st0.yPos] }, false)
    else drawText env fontSize width height paragraph st0
  else drawText env fontSize width height paragraph st

/-- The loop `for i := 0; i < len(paragraphs); i++` from index `i` on. -/
def paragraphLoop (env : Env) (fontSize width height : Int) :
    Nat → List String → LayoutState → LayoutState × Bool
  | _, [], st => (st, false)
  | i, paragraph :: rest, st =>
    match processParagraph env fontSize width height i paragraph rest st with
    | (st1, true) => (st1, true)
    | (st1, false) => paragraphLoop env fontSize width height (i + 1) rest st1

/-- The state at loop entry (lines 277-278): `lineNumber := 1` and
`yPos := fontSize * lineNumber * 12 / 10`. -/
def initialState (fontSize : Int) : LayoutState :=
  { lineNumber := 1, yPos := Int.tdiv (mulInt64 (mulInt64 fontSize 1) 12) 10, drawn := [] }

/-- `drawParagraphs`: the final state (its `drawn` is what is on the image)
and the overflow flag. -/
def drawParagraphs (env : Env) (paragraphs : List String) (fontSize width height : Int) :
    LayoutState × Bool :=
  paragraphLoop env fontSize width height 0 paragraphs (initialState fontSize)

/-- What `drawImage` hands to `drawParagraphs` for the main text, and what
comes back. -/
structure TextCall where
  fontSize : Int
  width : Int
  height : Int
  result : LayoutState × Bool

/-- Lines 148-193 of `drawImage`. -/
def drawImage (ops : FloatOps) (env : Env) (paragraphs : List String) (style : Style) :
    TextCall :=
  let g := styleGeometry style
  let fs := textFontSize ops env.isMediaURL style paragraphs
  { fontSize := fs
    width := g.width - g.paddingLeft * 2
    height := g.height - 20 - g.barHeight
    result := drawParagraphs env paragraphs fs (g.width - g.paddingLeft * 2)
                (g.height - 20 - g.barHeight) }

/-- Total rune count of the paragraphs. -/
def totalRunes (paragraphs : List String) : Int :=
  (paragraphs.map (fun par => (par.length : Int))).sum

/-- Number of empty paragraphs. -/
def blankCount (paragraphs : List String) : Int :=
  ((paragraphs.filter (fun par => par = "")).length : Int)

/-- The effective font size as section 4.2 of the specification words it,
`textRegionHeight` being the height that enters `zoom`. -/
def specFontSize (ops : FloatOps) (baseFontSize textRegionHeight nchars paragraphCount
    blankLines : Int) : Int :=
  baseFontSize +
    ops.toInt (ops.mul (ops.div (ops.lit 200 1) (largeness ops nchars paragraphCount blankLines))
      (ops.pow
        (ops.sub (ops.div (ops.ofInt textRegionHeight) (ops.lit 366 1))
                 (ops.div (ops.ofInt (blankLines + 1)) (ops.lit 10 1)))
        (ops.lit 12 10)))

/-- The call is a media draw, or a text draw whose line number passes the
test of line 338. -/
def DrawCall.passes (fontSize height : Int) : DrawCall → Prop
  | DrawCall.text _ _ _ lineNumber => checkPos fontSize lineNumber ≤ height
  | DrawCall.media _ _ => True

/-- The call is a text draw whose line number fails the test of line 338. -/
def DrawCall.fails (fontSize height : Int) : DrawCall → Bool
  | DrawCall.text _ _ _ lineNumber => decide (checkPos fontSize lineNumber > height)
  | DrawCall.media _ _ => false

/-- The calls of a list up to and including the first one that fails the test
of line 338. -/
def throughFirstFail (fontSize height : Int) : List DrawCall → List DrawCall
  | [] => []
  | c :: rest =>
    if c.fails fontSize height then [c] else c :: throughFirstFail fontSize height rest

/-- The runs that the calls of a list drew as text, in order. -/
def textOuts : List DrawCall → List String
  | [] => []
  | DrawCall.text out _ _ _ :: rest => out :: textOuts rest
  | DrawCall.media _ _ :: rest => textOuts rest

/-- Every run of every wrapped line of every paragraph that is not blank, in
order. -/
def allRuns (env : Env) (fontSize width : Int) : List String → List String
  | [] => []
  | paragraph :: rest =>
    (if paragraph = "" then [] else (env.wrap paragraph fontSize width).flatten)
      ++ allRuns env fontSize width rest

/-- The number of lines a paragraph sequence can take: one for a blank
paragraph, and one for every run of every wrapped line of another
paragraph. -/
def lineBudget (env : Env) (fontSize width : Int) : List String → Nat
  | [] => 0
  | paragraph :: rest =>
    (if paragraph = "" then 1 else (env.wrap paragraph fontSize width).flatten.length)
      + lineBudget env fontSize width rest

/-- An invariant `I` of the layout state, indexed by the number of lines
taken so far, with the condition `O` that holds when `drawParagraphs` returns
with overflow: `I` is kept by every state change of the loop over paragraphs
that satisfy `allowed` while fewer than `K` lines are taken, and a run drawn
with a failing test leads to `O`. -/
structure LoopRule (env : Env) (fontSize height : Int) (allowed : String → Prop) (K : Nat)
    (I : Nat → LayoutState → Prop) (O : LayoutState → Prop) : Prop where
  blank : allowed "" → ∀ k st, k < K → I k st →
    I (k + 1) { st with lineNumber := addInt64 st.lineNumber 1,
                        yPos := addInt64 st.yPos (lineHeight fontSize) }
  reset : ∀ par, allowed par → env.isMediaURL par = true → ∀ k st, I k st →
    I k { st with yPos := 0 }
  media : ∀ par, allowed par → env.isMediaURL par = true → ∀ k st, I k st →
    env.drawMediaAt par st.yPos ≠ -1 →
    I k { st with yPos := env.drawMediaAt par st.yPos,
                  drawn := st.drawn ++ [DrawCall.media par st.yPos] }
  pass : ∀ k st out total, k < K → I k st → ¬ checkPos fontSize st.lineNumber > height →
    I (k + 1) { lineNumber := addInt64 st.lineNumber 1,
                yPos := addInt64 st.yPos (lineHeight fontSize),
                drawn := st.drawn ++ [DrawCall.text out total st.yPos st.lineNumber] }
  fail : ∀ k st out total, k < K → I k st → checkPos fontSize st.lineNumber > height →
    O { st with drawn := st.drawn ++ [DrawCall.text out total st.yPos st.lineNumber] }

/-- Every call made so far passes the test of line 338. -/
def Settled (fontSize height : Int) (st : LayoutState) : Prop :=
  ∀ c ∈ st.drawn, DrawCall.passes fontSize height c

/-- The last call is a text run whose line number fails the test of line 338,
and every call before it passes. -/
def EndsPastCheck (fontSize height : Int) (st : LayoutState) : Prop :=
  ∃ pre out total y n, st.drawn = pre ++ [DrawCall.text out total y n]
    ∧ (∀ c ∈ pre, DrawCall.passes fontSize height c) ∧ checkPos fontSize n > height

/-- The vertical position a call draws at. -/
def DrawCall.yPos : DrawCall → Int
  | DrawCall.text _ _ y _ => y
  | DrawCall.media _ y => y

/-- Every text run was drawn on the grid of line heights, with a line number
between 1 and `K`. -/
def DrawnOnGrid (fontSize : Int) (K : Nat) (st : LayoutState) : Prop :=
  ∀ out total y n, DrawCall.text out total y n ∈ st.drawn →
    1 ≤ n ∧ n ≤ (K : Int) ∧ y = n * lineHeight fontSize

/-- After `k` lines the cursor is on line `k + 1` of the grid of line
heights, and so was every text run when it was drawn. -/
def OnGrid (fontSize : Int) (K k : Nat) (st : LayoutState) : Prop :=
  st.lineNumber = (k : Int) + 1 ∧ st.yPos = st.lineNumber * lineHeight fontSize
    ∧ DrawnOnGrid fontSize K st

/-- Every text run was drawn at most one line height below `height`. -/
def DrawnWithin (fontSize height : Int) (st : LayoutState) : Prop :=
  ∀ out total y n, DrawCall.text out total y n ∈ st.drawn → y ≤ height + lineHeight fontSize

/-- After `k` lines the cursor is on line `k + 1` of the grid, the line before
the current one passed the test of line 338, and every text run was drawn at
most one line height below `height`. -/
def Checked (fontSize height : Int) (k : Nat) (st : LayoutState) : Prop :=
  st.lineNumber = (k : Int) + 1 ∧ st.yPos = st.lineNumber * lineHeight fontSize
    ∧ (st.lineNumber = 1 ∨ checkPos fontSize (st.lineNumber - 1) ≤ height)
    ∧ DrawnWithin fontSize height st

/-- The cursor is at `yPos` 0 and every text run was drawn there: the layout
at font size 0. -/
def AtZero (st : LayoutState) : Prop :=
  st.yPos = 0 ∧ ∀ out total y n, DrawCall.text out total y n ∈ st.drawn → y = 0

/-- The calls made so far begin with the calls `base`. -/
def Extends (base : List DrawCall) (st : LayoutState) : Prop :=
  ∃ more, st.drawn = base ++ more

/-- The outcome `rc` of a run with the test of line 338 is the outcome `ru` of
the run without it, cut after the first call that fails the test: the calls
are those of `ru` up to and including that call, overflow is returned exactly
when there is one, and without one the two final states agree. -/
def CutOf (fontSize height : Int) (rc : LayoutState × Bool) (ru : LayoutState) : Prop :=
  rc.1.drawn = throughFirstFail fontSize height ru.drawn
    ∧ rc.2 = ru.drawn.any (fun c => c.fails fontSize height)
    ∧ (rc.2 = false → rc.1 = ru)

/-- A sample environment: a paragraph is media when it starts with `http`, a
drawn picture is 600 pixels high unless the address ends in `!` (then the
fetch fails), and every paragraph wraps into one line of one run. -/
def sampleEnv : Env where
  isMediaURL := fun s => decide (s.toList.take 4 = ['h', 't', 't', 'p'])
  drawMediaAt := fun s y => if s.toList.getLast? = some '!' then -1 else y + 600
  wrap := fun s _ _ => [[s]]
  charsWritten := fun s => s.length

/-! ## Golf round metadata (`grabData`, case 1501, 1502) -/

/-- A decoded JSON value, as `encoding/json` stores it in an `interface{}`.
A number is a `float64`, written here as `mantissa * 2^exponent`. An object
is the decoded map, listed key by key. -/
inductive Json where
  | null
  | bool (b : Bool)
  | num (mantissa : Int) (exponent : Int)
  | str (s : String)
  | arr (items : List Json)
  | obj (fields : List (String × Json))

/-- The conversion `int(f)` of a `float64`: the value truncated toward zero.
For a value outside the range of `int` the result is fixed by the platform;
this is the one of amd64. -/
def intOfFloat (mantissa exponent : Int) : Int :=
  let v := if 0 ≤ exponent then mantissa * 2 ^ exponent.toNat
           else Int.tdiv mantissa (2 ^ (-exponent).toNat)
  if minInt64 ≤ v ∧ v ≤ maxInt64 then v else minInt64

/-- The type assertion `v.(string)` on a looked-up map entry. -/
def asString : Option Json → Option String
  | some (Json.str s) => some s
  | _ => none

/-- The type assertion `v.(float64)` followed by `int(...)`. -/
def asInt : Option Json → Option Int
  | some (Json.num m e) => some (intOfFloat m e)
  | _ => none

/-- The type assertion `v.(map[string]interface{})`. -/
def asObject : Option Json → Option (List (String × Json))
  | some (Json.obj fields) => some fields
  | _ => none

/-- The type assertion `v.([]interface{})`. -/
def asArray : Option Json → Option (List Json)
  | some (Json.arr items) => some items
  | _ => none

/-- A nostr event, as far as `grabData` and `buildRoundPageData` read it. -/
structure Event where
  Kind : Int
  Content : String
  Tags : List (List String)
  ID : String := ""
  PubKey : String := ""

/-- `Tags.Find(key)` of go-nostr: the first tag with at least two elements
whose first element is `key`. -/
def tagsFind (key : String) : List (List String) → Option (List String)
  | [] => none
  | tag :: rest => if 2 ≤ tag.length ∧ tag.head? = some key then some tag else tagsFind key rest

/-- The element `tag[1]` of a tag that has one. -/
def tagValue (tag : List String) : String := tag.getD 1 ""

/-- Value of a non-empty string of decimal digits. -/
def digitsValue : List Char → Nat → Option Nat
  | [], acc => some acc
  | c :: cs, acc => if c.isDigit then digitsValue cs (acc * 10 + (c.toNat - 48)) else none

/-- `strconv.Atoi`: an optional sign and decimal digits, within the range of
`int`; `none` stands for a non-nil error. -/
def atoi (s : String) : Option Int :=
  let cs := s.toList
  let signed : Bool × List Char :=
    match cs with
    | '+' :: r => (false, r)
    | '-' :: r => (true, r)
    | _ => (false, cs)
  if signed.2 = [] then none
  else
    match digitsValue signed.2 0 with
    | none => none
    | some n =>
      let v : Int := if signed.1 then -(n : Int) else (n : Int)
      if minInt64 ≤ v ∧ v ≤ maxInt64 then some v else none

/-- Pieces of a character list between occurrences of `sep`. -/
def splitChars (sep : Char) : List Char → List Char → List (List Char)
  | [], cur => [cur.reverse]
  | c :: cs, cur =>
    if c = sep then cur.reverse :: splitChars sep cs [] else splitChars sep cs (c :: cur)

/-- `strings.Split(s, ":")`. -/
def splitColon (s : String) : List String :=
  (splitChars ':' s.toList []).map String.mk

/-- `make([]int, n)`: a run-time fault for a negative length or one beyond
what the allocator accepts (`2^45` eight-byte elements); a length that the
allocator accepts is taken to be served. -/
def makeInts (n : Int) : Option (List Int) :=
  if n < 0 ∨ 35184372088832 < n then none else some (List.replicate n.toNat 0)

/-- The loop of lines 233-248 over the decoded `holes`: `(HolePars, TotalPar)`. -/
def holesLoop (holeCount : Int) : List Json → List Int × Int → List Int × Int
  | [], acc => acc
  | h :: rest, (holePars, totalPar) =>
    match h with
    | Json.obj hm =>
      let num := (asInt (hm.lookup "hole_number")).getD 0
      let par := (asInt (hm.lookup "par")).getD 0
      if 1 ≤ num ∧ num ≤ holeCount then
        holesLoop holeCount rest (holePars.set (num - 1).toNat par, addInt64 totalPar par)
      else holesLoop holeCount rest (holePars, totalPar)
    | _ => holesLoop holeCount rest (holePars, totalPar)

/-- Lines 218-250: the fields read from `course_snapshot`; `none` when the
slice allocation faults. -/
def readSnapshot (snapshot : List (String × Json)) (g : Kind1501Metadata) :
    Option Kind1501Metadata :=
  let g := match asString (snapshot.lookup "course_name") with
    | some name => { g with CourseName := name }
    | none => g
  let g := match asString (snapshot.lookup "tee_set") with
    | some tee => { g with TeeSet := tee }
    | none => g
  let g := match asInt (snapshot.lookup "hole_count") with
    | some holeCount => { g with HoleCount := holeCount }
    | none => g
  match asArray (snapshot.lookup "holes") with
  | some holes =>
    let g : Kind1501Metadata :=
      if g.HoleCount = 0 then { g with HoleCount := Int.ofNat holes.length } else g
    match makeInts g.HoleCount with
    | none => none
    | some zeros =>
      let r := holesLoop g.HoleCount holes (zeros, g.TotalPar)
      some { g with HolePars := r.1, TotalPar := r.2 }
  | none => some g

/-- Lines 215-255: the fields read from the JSON content. `unmarshal` is
`json.Unmarshal` into a `map[string]interface{}`, `none` for an error. -/
def readContent (unmarshal : String → Option (List (String × Json))) (content : String)
    (g : Kind1501Metadata) : Option Kind1501Metadata :=
  if content ≠ "" then
    match unmarshal content with
    | some contentData =>
      let g1 := match asObject (contentData.lookup "course_snapshot") with
        | some snapshot => readSnapshot snapshot g
        | none => some g
      match g1 with
      | none => none
      | some g =>
        match asString (contentData.lookup "notes") with
        | some notes => some { g with Notes := notes }
        | none => some g
    | none => some g
  else some g

/-- Lines 288-301: the hole scores read from the `score` tags. -/
def scoreTags : List (List String) → List HoleScore
  | [] => []
  | tag :: rest =>
    if 3 ≤ tag.length ∧ tag.head? = some "score" then
      match atoi (tag.getD 1 ""), atoi (tag.getD 2 "") with
      | some hole, some score =>
        { Hole := hole, Score := score, Par := 0, Strokes := score } :: scoreTags rest
      | _, _ => scoreTags rest
    else scoreTags rest

/-- Lines 313-318: the players read from the `p` tags. -/
def playerTags : List (List String) → List String
  | [] => []
  | tag :: rest =>
    if 2 ≤ tag.length ∧ tag.head? = some "p" then tagValue tag :: playerTags rest
    else playerTags rest

/-- Lines 257-302: the fields read from the tags. -/
def readTagFields (tags : List (List String)) (g : Kind1501Metadata) : Kind1501Metadata :=
  let g := match tagsFind "course" tags with
    | some courseTag =>
      let g := { g with CourseRef := tagValue courseTag }
      if g.CourseName = "" then
        let parts := splitColon (tagValue courseTag)
        if 3 ≤ parts.length then { g with CourseName := parts.getD 2 "" } else g
      else g
    | none => g
  let g := match tagsFind "date" tags with
    | some dateTag => { g with Date := tagValue dateTag }
    | none => g
  let g := match tagsFind "tee" tags with
    | some teeTag => { g with TeeSet := tagValue teeTag }
    | none => g
  let g := match tagsFind "total" tags with
    | some totalTag =>
      match atoi (tagValue totalTag) with
      | some total => { g with TotalScore := total }
      | none => g
    | none => g
  { g with HoleScores := scoreTags tags }

/-- Lines 304-310: par and score to par. -/
def parAndScoreToPar (g : Kind1501Metadata) : Kind1501Metadata :=
  let g := if g.TotalPar > 0 then { g with Par := g.TotalPar } else { g with Par := 72 }
  { g with ScoreToPar := subInt64 g.TotalScore g.Par }

/-- Lines 257-321: everything after the JSON content has been read. -/
def readTags (tags : List (List String)) (g : Kind1501Metadata) : Kind1501Metadata :=
  { parAndScoreToPar (readTagFields tags g) with Players := playerTags tags }

/-- The `case 1501, 1502` of `grabData` (lines 207-321): the metadata built
for the event, `none` when the construction faults. -/
def golfMetadata (unmarshal : String → Option (List (String × Json))) (event : Event) :
    Option Kind1501Metadata :=
  (readContent unmarshal event.Content Kind1501Metadata.zero).map (readTags event.Tags)

/-- The field `Kind1501Metadata` of the result of `grabData`: outer `none`
for a run-time fault, inner `none` (the nil pointer) for an event of another
kind. -/
def grabData (unmarshal : String → Option (List (String × Json))) (event : Event) :
    Option (Option Kind1501Metadata) :=
  if event.Kind = 1501 ∨ event.Kind = 1502 then (golfMetadata unmarshal event).map some
  else some none

/-- A sample decoder: the content `snap` decodes to a two-hole course
snapshot, pars 4 and 5; everything else is not JSON. -/
def sampleUnmarshal (content : String) : Option (List (String × Json)) :=
  if content = "snap" then
    some [("course_snapshot", Json.obj
      [("course_name", Json.str "Links"), ("hole_count", Json.num 2 0),
       ("holes", Json.arr
         [Json.obj [("hole_number", Json.num 1 0), ("par", Json.num 4 0)],
          Json.obj [("hole_number", Json.num 2 0), ("par", Json.num 5 0)]])])]
  else none

/-- A sample round: no content, the given `total` tag. -/
def sampleRound (total : String) : Event :=
  { Kind := 1501, Content := "", Tags := [["total", total], ["p", "alice"]] }

/-! ## Request path (`renderImage`, lines 49-53) -/

/-- `strings.HasSuffix`. -/
def hasSuffix (s suffix : String) : Bool := suffix.data.isSuffixOf s.data

/-- `strings.TrimSuffix`: `s` without the trailing `suffix`, or `s` itself
when it does not end in `suffix`. -/
def trimSuffix (s suffix : String) : String :=
  if hasSuffix s suffix then String.mk (s.data.take (s.data.length - suffix.data.length)) else s

/-- The loop of lines 50-53 of `renderImage` over the three extensions. -/
def trimExtensions (code : String) : String :=
  [".png", ".jpg", ".jpeg"].foldl trimSuffix code

/-- A decoder for one content: `twice` decodes to a course snapshot whose
`holes` array lists hole 1 two times, with par 4 and then par 5. -/
def repeatedHoleUnmarshal (content : String) : Option (List (String × Json)) :=
  if content = "twice" then
    some [("course_snapshot", Json.obj
      [("holes", Json.arr
         [Json.obj [("hole_number", Json.num 1 0), ("par", Json.num 4 0)],
          Json.obj [("hole_number", Json.num 1 0), ("par", Json.num 5 0)]])])]
  else none

/-! ## Round page (`src/golf_data.go`) -/

/-- Go struct `PlayerData`. -/
structure PlayerData where
  PubkeyHex : String
  DisplayName : String
  Picture : String
  Role : String
  Npub : String
  deriving DecidableEq, Repr

/-- Go struct `PlayerScoreData`. -/
structure PlayerScoreData where
  Player : PlayerData
  HoleScores : List Int
  Total : Int
  ScoreToPar : Int
  IsFinal : Bool
  EventId : String
  deriving DecidableEq, Repr

/-- The assignment `s[i] = v` to a slice element: `none` is the run-time fault
for an index out of range. -/
def setAt (s : List Int) (i v : Int) : Option (List Int) :=
  if 0 ≤ i ∧ i < (s.length : Int) then some (s.set i.toNat v) else none

/-- The loop of lines 162-175 of `parseScoreEvent` over the tags:
`(psd.HoleScores, psd.Total)`, `none` for a run-time fault. -/
def scoreTagLoop (holeCount : Int) :
    List (List String) → List Int × Int → Option (List Int × Int)
  | [], acc => some acc
  | tag :: rest, (scores, total) =>
    if 3 ≤ tag.length ∧ tag.head? = some "score" then
      match atoi (tag.getD 1 "") with
      | none => scoreTagLoop holeCount rest (scores, total)
      | some hole =>
        if hole < 1 ∨ hole > holeCount then scoreTagLoop holeCount rest (scores, total)
        else
          match atoi (tag.getD 2 "") with
          | none => scoreTagLoop holeCount rest (scores, total)
          | some score =>
            match setAt scores (hole - 1) score with
            | none => none
            | some scores1 => scoreTagLoop holeCount rest (scores1, addInt64 total score)
    else scoreTagLoop holeCount rest (scores, total)

/-- The `holeCount` of `parseScoreEvent` (lines 156-159). -/
def scoreHoleCount (holePars : List Int) : Int :=
  if holePars.length = 0 then 18 else (holePars.length : Int)

/-- `parseScoreEvent`; `none` for a run-time fault. `Tags.GetFirst` with the
prefix `["total", ""]` finds the first tag of at least two elements whose
first element is `total`, which is `tagsFind`. -/
def parseScoreEvent (evt : Event) (player : PlayerData)
    (holePars : List Int) (totalPar : Int) : Option PlayerScoreData :=
  let holeCount := scoreHoleCount holePars
  match scoreTagLoop holeCount evt.Tags (List.replicate holeCount.toNat 0, 0) with
  | none => none
  | some (scores, total) =>
    let total := match tagsFind "total" evt.Tags with
      | some totalTag =>
        if 2 ≤ totalTag.length then
          match atoi (tagValue totalTag) with
          | some t => t
          | none => total
        else total
      | none => total
    some { Player := player
           HoleScores := scores
           Total := total
           ScoreToPar := if totalPar > 0 ∧ total > 0 then subInt64 total totalPar else 0
           IsFinal := false
           EventId := evt.ID }

/-- A score tag that `parseScoreEvent` records: it has at least three
elements, the first is `score`, the hole parses and lies in `1..holeCount`,
and the score parses. The value is `(hole, score)`. -/
def scoreTagEntry (holeCount : Int) (tag : List String) : Option (Int × Int) :=
  if 3 ≤ tag.length ∧ tag.head? = some "score" then
    match atoi (tag.getD 1 ""), atoi (tag.getD 2 "") with
    | some hole, some score => if 1 ≤ hole ∧ hole ≤ holeCount then some (hole, score) else none
    | _, _ => none
  else none

/-- The score of the last well-formed score tag for hole `h`, if there is one. -/
def lastScoreFor (holeCount : Int) (tags : List (List String)) (h : Int) : Option Int :=
  (((tags.filterMap (scoreTagEntry holeCount)).filter (fun e => e.1 = h)).getLast?).map Prod.snd

/-- A player for the examples. -/
def samplePlayer : PlayerData :=
  { PubkeyHex := "alice", DisplayName := "Alice", Picture := "", Role := "player", Npub := "" }

/-- Score tags for the examples: hole 1 twice, a hole out of range, a score
that does not parse, and hole 3. -/
def sampleScoreTags : List (List String) :=
  [["score", "1", "4"], ["score", "9", "5"], ["score", "2", "x"], ["score", "1", "6"],
   ["score", "3", "3"], ["total", "80"]]

/-- A final record for the examples, by the author `alice`. -/
def sampleRecord : Event :=
  { Kind := 1502, Content := "", Tags := sampleScoreTags, ID := "ev1", PubKey := "alice" }

/-- Go struct `RoundPageData`. -/
structure RoundPageData where
  CourseName : String
  TeeSet : String
  Date : String
  HoleCount : Int
  HolePars : List Int
  TotalPar : Int
  Notes : String
  Players : List PlayerData
  PlayerScores : List PlayerScoreData
  State : String
  PlayersTotal : Int
  PlayersFinished : Int
  deriving DecidableEq, Repr

/-- The fields of `sdk.ProfileMetadata` that `fetchPlayerProfiles` reads. -/
structure ProfileMetadata where
  Name : String
  DisplayName : String
  Picture : String

/-- What `buildRoundPageData` gets from the network and from other packages:
`fetchScores id` is the pair `(records, livecards)` that the relay returns
for the initiation event `id`, `encodePublicKey` is `nip19.EncodePublicKey`,
`fetchProfileMetadata` is `sys.FetchProfileMetadata`, and `shortenString` is
the helper of that name. -/
structure RoundEnv where
  fetchScores : String → List Event × List Event
  encodePublicKey : String → String
  fetchProfileMetadata : String → ProfileMetadata
  shortenString : String → Int → Int → String

/-- The assignment `m[k] = v` on a Go map with string keys, the map being
listed entry by entry with distinct keys. -/
def mapSet {V : Type} : List (String × V) → String → V → List (String × V)
  | [], k, v => [(k, v)]
  | (k', v') :: rest, k, v => if k' = k then (k, v) :: rest else (k', v') :: mapSet rest k v

/-- The lookup `v, ok := m[k]`. -/
def mapGet {V : Type} : List (String × V) → String → Option V
  | [], _ => none
  | (k', v') :: rest, k => if k' = k then some v' else mapGet rest k

/-- The zero value `PlayerData{}`. -/
def PlayerData.zero : PlayerData :=
  { PubkeyHex := "", DisplayName := "", Picture := "", Role := "", Npub := "" }

/-- The body of the loop of `fetchPlayerProfiles` (lines 240-256): the
profile stored for `pk`. -/
def playerProfile (env : RoundEnv) (pk : String) : PlayerData :=
  let npub := env.encodePublicKey pk
  let md := env.fetchProfileMetadata pk
  { PubkeyHex := pk
    Npub := npub
    DisplayName :=
      if md.Name ≠ "" then md.Name
      else if md.DisplayName ≠ "" then md.DisplayName
      else env.shortenString npub 8 4
    Picture := md.Picture
    Role := "" }

/-- `fetchPlayerProfiles`. -/
def fetchPlayerProfiles (env : RoundEnv) (pubkeys : List String) : List (String × PlayerData) :=
  pubkeys.foldl (fun profiles pk => mapSet profiles pk (playerProfile env pk)) []

/-- The loop of lines 72-82 of `buildRoundPageData` over the tags:
`(playerPubkeys, playerRoles)`. -/
def playerTagLoop :
    List (List String) → List String × List (String × String) →
      List String × List (String × String)
  | [], acc => acc
  | tag :: rest, (playerPubkeys, playerRoles) =>
    if 2 ≤ tag.length ∧ tag.head? = some "p" then
      let pk := tag.getD 1 ""
      let role := if 4 ≤ tag.length then tag.getD 3 "" else "player"
      playerTagLoop rest (playerPubkeys ++ [pk], mapSet playerRoles pk role)
    else playerTagLoop rest (playerPubkeys, playerRoles)

/-- The maps `finalByAuthor` and `liveByAuthor` (lines 104-111). -/
def byAuthor (events : List Event) : List (String × Event) :=
  events.foldl (fun m evt => mapSet m evt.PubKey evt) []

/-- The loop of lines 113-134 of `buildRoundPageData` over `playerPubkeys`:
`(rpd.PlayerScores, rpd.PlayersFinished)`, `none` for a run-time fault. -/
def playerScoreLoop (profiles : List (String × PlayerData))
    (playerRoles : List (String × String)) (finalByAuthor liveByAuthor : List (String × Event))
    (holePars : List Int) (totalPar : Int) :
    List String → List PlayerScoreData × Int → Option (List PlayerScoreData × Int)
  | [], acc => some acc
  | pk :: rest, (playerScores, playersFinished) =>
    let role := (mapGet playerRoles pk).getD ""
    if role = "bot" then
      playerScoreLoop profiles playerRoles finalByAuthor liveByAuthor holePars totalPar rest
        (playerScores, playersFinished)
    else
      let pd := { (mapGet profiles pk).getD PlayerData.zero with Role := role }
      match mapGet finalByAuthor pk with
      | some finalEvt =>
        match parseScoreEvent finalEvt pd holePars totalPar with
        | none => none
        | some psd =>
          playerScoreLoop profiles playerRoles finalByAuthor liveByAuthor holePars totalPar rest
            (playerScores ++ [{ psd with IsFinal := true }], playersFinished + 1)
      | none =>
        match mapGet liveByAuthor pk with
        | some liveEvt =>
          match parseScoreEvent liveEvt pd holePars totalPar with
          | none => none
          | some psd =>
            playerScoreLoop profiles playerRoles finalByAuthor liveByAuthor holePars totalPar
              rest (playerScores ++ [{ psd with IsFinal := false }], playersFinished)
        | none =>
          playerScoreLoop profiles playerRoles finalByAuthor liveByAuthor holePars totalPar rest
            (playerScores, playersFinished)

/-- `buildRoundPageData`; `none` for a run-time fault. -/
def buildRoundPageData (env : RoundEnv) (event : Event) (metadata : Kind1501Metadata) :
    Option RoundPageData :=
  let tagged := playerTagLoop event.Tags ([], [])
  let playerPubkeys := tagged.1
  let playerRoles := tagged.2
  let playersTotal : Int := ((playerRoles.filter (fun entry => entry.2 = "player")).length : Int)
  let fetched := env.fetchScores event.ID
  let records := fetched.1
  let livecards := fetched.2
  let profiles := fetchPlayerProfiles env playerPubkeys
  let players := playerPubkeys.map (fun pk =>
    { (mapGet profiles pk).getD PlayerData.zero with Role := (mapGet playerRoles pk).getD "" })
  match playerScoreLoop profiles playerRoles (byAuthor records) (byAuthor livecards)
      metadata.HolePars metadata.TotalPar playerPubkeys ([], 0) with
  | none => none
  | some (playerScores, playersFinished) =>
    some { CourseName := metadata.CourseName
           TeeSet := metadata.TeeSet
           Date := metadata.Date
           HoleCount := metadata.HoleCount
           HolePars := metadata.HolePars
           TotalPar := metadata.TotalPar
           Notes := metadata.Notes
           Players := players
           PlayerScores := playerScores
           State :=
             if playersFinished = playersTotal ∧ playersTotal > 0 then "final"
             else if playersFinished > 0 ∨ livecards.length > 0 then "live"
             else "waiting"
           PlayersTotal := playersTotal
           PlayersFinished := playersFinished }

/-- The player public keys of the p-tags of an event, in order. -/
def taggedPubkeys (event : Event) : List String := (playerTagLoop event.Tags ([], [])).1

/-- The role resolved for a public key: the value of `playerRoles[pk]`. -/
def resolvedRole (event : Event) (pk : String) : String :=
  (mapGet (playerTagLoop event.Tags ([], [])).2 pk).getD ""

/-- A round for the examples: players `alice` and `bob`, the bot `robo`. -/
def sampleInitiation : Event :=
  { Kind := 1501, Content := "", ID := "round1", PubKey := "host",
    Tags := [["p", "alice"], ["p", "robo", "", "bot"], ["p", "bob", "", "player"]] }

/-- A live scorecard for the examples, by the given author. -/
def sampleLive (author : String) : Event :=
  { Kind := 31501, Content := "", Tags := [["score", "1", "5"]], ID := "live-" ++ author,
    PubKey := author }

/-- A sample network: `alice` has a final record and a live scorecard, `bob`
a live scorecard only, and the bot `robo` a final record. -/
def sampleRoundEnv : RoundEnv where
  fetchScores := fun _ =>
    ([sampleRecord, { sampleRecord with ID := "ev2", PubKey := "robo" }],
     [sampleLive "alice", sampleLive "bob"])
  encodePublicKey := fun pk => "npub-" ++ pk
  fetchProfileMetadata := fun pk => { Name := pk, DisplayName := "", Picture := "" }
  shortenString := fun s _ _ => s

/-- Metadata of a three-hole round for the examples. -/
def sampleMetadata : Kind1501Metadata :=
  { Kind1501Metadata.zero with HolePars := [4, 4, 3], TotalPar := 11, HoleCount := 3 }

/-- What holds of every entry of `PlayerScores`: its player is p-tagged,
carries the resolved role, which is not `bot`; a final entry comes from a
fetched record of that author, and a live entry from a fetched live scorecard
of an author without a record. -/
def EntryOk (records livecards : List Event) (playerPubkeys : List String)
    (playerRoles : List (String × String)) (psd : PlayerScoreData) : Prop :=
  psd.Player.PubkeyHex ∈ playerPubkeys
    ∧ psd.Player.Role = (mapGet playerRoles psd.Player.PubkeyHex).getD ""
    ∧ psd.Player.Role ≠ "bot"
    ∧ (psd.IsFinal = true →
        ∃ rec ∈ records, rec.PubKey = psd.Player.PubkeyHex ∧ psd.EventId = rec.ID)
    ∧ (psd.IsFinal = false →
        (∀ rec ∈ records, rec.PubKey ≠ psd.Player.PubkeyHex)
          ∧ ∃ lc ∈ livecards, lc.PubKey = psd.Player.PubkeyHex ∧ psd.EventId = lc.ID)

/-- The states in which the loop of `drawParagraphs` begins an iteration, in
order: the cursor at the start of every paragraph that is reached. -/
def paragraphStarts (env : Env) (fontSize width height : Int) :
    Nat → List String → LayoutState → List LayoutState
  | _, [], _ => []
  | i, paragraph :: rest, st =>
    st :: (match processParagraph env fontSize width height i paragraph rest st with
      | (_, true) => []
      | (st1, false) => paragraphStarts env fontSize width height (i + 1) rest st1)

/-- A round for the examples in which the player `alice` is listed in two
p-tags. -/
def repeatedTagInitiation : Event :=
  { Kind := 1501, Content := "", ID := "round2", PubKey := "host",
    Tags := [["p", "alice"], ["p", "alice"]] }

/-- A round for the examples whose only p-tag carries the role `marker`. -/
def markerInitiation : Event :=
  { Kind := 1501, Content := "", ID := "round3", PubKey := "host",
    Tags := [["p", "alice", "", "marker"]] }

/-- A decoder for one content: `minus` decodes to a course snapshot with
`hole_count` -1 and an empty `holes` array. -/
def negativeCountUnmarshal (content : String) : Option (List (String × Json)) :=
  if content = "minus" then
    some [("course_snapshot", Json.obj
      [("hole_count", Json.num (-1) 0), ("holes", Json.arr [])])]
  else none

/-! ## Relay hints (`grabData`, lines 124-134) -/

/-- The loop of lines 126-134 of `grabData`: `(relaysForNip19, c)`, where
`isVirtualRelay` is `sdk.IsVirtualRelay`. The counter `c` is compared with 2
and never assigned. -/
def relayLoop (isVirtualRelay : String → Bool) :
    List String → List String × Int → List String × Int
  | [], acc => acc
  | relayUrl :: rest, (relaysForNip19, c) =>
    if isVirtualRelay relayUrl then relayLoop isVirtualRelay rest (relaysForNip19, c)
    else
      if c = 2 then (relaysForNip19 ++ [relayUrl], c)
      else relayLoop isVirtualRelay rest (relaysForNip19 ++ [relayUrl], c)

/-- The relay hints `relaysForNip19` of `grabData` (lines 124-134). -/
def relaysForNip19 (isVirtualRelay : String → Bool) (relays : List String) : List String :=
  (relayLoop isVirtualRelay relays ([], 0)).1

/-! ## Content normalisation (`renderImage`, lines 100-115) -/

/-- `strings.Replace(content, "\r\n", "\n", -1)`. -/
def replaceCRLF : List Char → List Char
  | [] => []
  | [c] => [c]
  | c :: d :: rest =>
    if c = '\r' ∧ d = '\n' then '\n' :: replaceCRLF rest else c :: replaceCRLF (d :: rest)

/-- `multiNewlineRe.ReplaceAllString(content, "\n\n")` for the expression
`\n\n+`: every maximal run of two or more newlines becomes two newlines. `run`
is the number of newlines of the current run already written. -/
def collapseNewlines : Nat → List Char → List Char
  | _, [] => []
  | run, c :: rest =>
    if c = '\n' then
      if run < 2 then c :: collapseNewlines (run + 1) rest else collapseNewlines run rest
    else c :: collapseNewlines 0 rest

/-- `strings.Replace(content, "\t", "  ", -1)`. -/
def replaceTabs : List Char → List Char
  | [] => []
  | c :: rest => if c = '\t' then ' ' :: ' ' :: replaceTabs rest else c :: replaceTabs rest

/-- `strings.Replace(content, "\r", "", -1)`. -/
def deleteCR (content : List Char) : List Char := content.filter (fun c => c ≠ '\r')

/-- Lines 101-104 of `renderImage`: the four normalisation steps. -/
def normalizeContent (content : String) : String :=
  String.mk (deleteCR (replaceTabs (collapseNewlines 0 (replaceCRLF content.toList))))

/-- `strings.Split(content, "\n")`. -/
def splitLines (content : String) : List String :=
  (splitChars '\n' content.toList []).map String.mk

/-- The base of the power in `zoom` (line 188):
`float64(height)/366.0 - float64(blankLines+1)/10`. -/
def zoomBase (ops : FloatOps) (height blankLines : Int) : ops.F :=
  ops.sub (ops.div (ops.ofInt height) (ops.lit 366 1))
          (ops.div (ops.ofInt (blankLines + 1)) (ops.lit 10 1))

/-! ## IEEE 754 binary64 (`float64`) -/

/-- A `float64`. A finite value is a sign and a magnitude counted in units of
`2^-1074`, the smallest positive `float64`: `fin neg n` is `(-1)^neg * n *
2^-1074`. The finite `float64` values are those with at most 53 significant
bits in `n` and `n < 2^2098`. -/
inductive F64 where
  | nan
  | inf (neg : Bool)
  | fin (neg : Bool) (n : Nat)
  deriving DecidableEq, Repr

/-- The number of units `2^-1074` in 1. -/
def f64Unit : Nat := 2 ^ 1074

/-- The number of units `2^-1074` in `2^1024`, the first power of two beyond
the finite `float64` values. -/
def f64Top : Nat := 2 ^ 2098

/-- Largest `t < 2^bits` above the start with `2^t ≤ n`, found bit by bit. -/
def lgBits (n : Nat) : Nat → Nat → Nat
  | 0, r => r
  | b + 1, r => if 2 ^ (r + 2 ^ b) ≤ n then lgBits n b (r + 2 ^ b) else lgBits n b r

/-- Position of the leading bit of `n`: the largest `t` with `2^t ≤ n`, for
`1 ≤ n < 2^4096`; 0 for `n = 0`. -/
def lg (n : Nat) : Nat := lgBits n 12 0

/-- The integer nearest to `a/d`, a tie going to the even one. -/
def rne (a d : Nat) : Nat :=
  if 2 * (a % d) < d then a / d
  else if d < 2 * (a % d) then a / d + 1
  else if (a / d) % 2 = 0 then a / d else a / d + 1

/-- Rounding to nearest, ties to even, of `a/b` units to 53 significant bits,
the exponent unbounded above: below `2^53` units (the subnormal numbers and
the first binade) the result is a whole number of units. -/
def roundUnits (a b : Nat) : Nat :=
  rne a (b * 2 ^ (lg (a / b) - 52)) * 2 ^ (lg (a / b) - 52)

/-- The `float64` nearest to `(-1)^neg * a/b` units, ties to even; infinite
when the rounded magnitude reaches `2^1024`. -/
def roundNE (neg : Bool) (a b : Nat) : F64 :=
  if roundUnits a b < f64Top then F64.fin neg (roundUnits a b) else F64.inf neg

/-- `-x`. -/
def F64.neg : F64 → F64
  | F64.nan => F64.nan
  | F64.inf s => F64.inf (!s)
  | F64.fin s n => F64.fin (!s) n

/-- `x + y`. -/
def F64.add : F64 → F64 → F64
  | F64.nan, _ => F64.nan
  | _, F64.nan => F64.nan
  | F64.inf s, F64.inf t => if s = t then F64.inf s else F64.nan
  | F64.inf s, F64.fin _ _ => F64.inf s
  | F64.fin _ _, F64.inf t => F64.inf t
  | F64.fin s a, F64.fin t b =>
    if s = t then roundNE s (a + b) 1
    else if a = b then F64.fin false 0
    else if b < a then roundNE s (a - b) 1
    else roundNE t (b - a) 1

/-- `x - y`. -/
def F64.sub (x y : F64) : F64 := F64.add x (F64.neg y)

/-- `x * y`. -/
def F64.mul : F64 → F64 → F64
  | F64.nan, _ => F64.nan
  | _, F64.nan => F64.nan
  | F64.inf s, F64.inf t => F64.inf (s != t)
  | F64.inf s, F64.fin t b => if b = 0 then F64.nan else F64.inf (s != t)
  | F64.fin s a, F64.inf t => if a = 0 then F64.nan else F64.inf (s != t)
  | F64.fin s a, F64.fin t b => roundNE (s != t) (a * b) f64Unit

/-- `x / y`. -/
def F64.div : F64 → F64 → F64
  | F64.nan, _ => F64.nan
  | _, F64.nan => F64.nan
  | F64.inf _, F64.inf _ => F64.nan
  | F64.inf s, F64.fin t _ => F64.inf (s != t)
  | F64.fin s _, F64.inf t => F64.fin (s != t) 0
  | F64.fin s a, F64.fin t b =>
    if b = 0 then (if a = 0 then F64.nan else F64.inf (s != t))
    else roundNE (s != t) (a * f64Unit) b

/-- The conversion `float64(k)` of an `int`. -/
def F64.ofInt (k : Int) : F64 := roundNE (decide (k < 0)) (k.natAbs * f64Unit) 1

/-- The `float64` constant written as the decimal fraction `n/d`. -/
def F64.lit (n d : Nat) : F64 := if d = 0 then F64.nan else roundNE false (n * f64Unit) d

/-- `x <= y`. -/
def F64.le : F64 → F64 → Bool
  | F64.nan, _ => false
  | _, F64.nan => false
  | F64.inf s, F64.inf t => s || !t
  | F64.inf s, F64.fin _ _ => s
  | F64.fin _ _, F64.inf t => !t
  | F64.fin s a, F64.fin t b =>
    decide ((if s then -(a : Int) else (a : Int)) ≤ (if t then -(b : Int) else (b : Int)))

/-- `x < y`. -/
def F64.lt : F64 → F64 → Bool
  | F64.nan, _ => false
  | _, F64.nan => false
  | F64.inf s, F64.inf t => s && !t
  | F64.inf s, F64.fin _ _ => s
  | F64.fin _ _, F64.inf t => !t
  | F64.fin s a, F64.fin t b =>
    decide ((if s then -(a : Int) else (a : Int)) < (if t then -(b : Int) else (b : Int)))

/-- The conversion `int(x)` of a `float64`: the fraction is discarded. The
language leaves the result open when the value is not in the range of `int`;
it is then `unrepresentable x`. -/
def F64.toInt (unrepresentable : F64 → Int) : F64 → Int
  | F64.fin s n =>
    if inInt64 (if s then -((n / f64Unit : Nat) : Int) else ((n / f64Unit : Nat) : Int)) then
      (if s then -((n / f64Unit : Nat) : Int) else ((n / f64Unit : Nat) : Int))
    else unrepresentable (F64.fin s n)
  | x => unrepresentable x

/-- Magnitude of a `float64` in units of `2^-1074`, an infinity and every
magnitude from `2^1024` on counting as `2^1024`. -/
def F64.sat : F64 → Nat
  | F64.nan => 0
  | F64.inf _ => f64Top
  | F64.fin _ n => min n f64Top

/-- The magnitude of a finite value is below `2^1024`. -/
def F64.inRange : F64 → Prop
  | F64.fin _ n => n < f64Top
  | _ => True

/-- The value is `+0`, `-0`, positive or `+Inf`: `0 <= x`. -/
def F64.NonNeg (x : F64) : Prop := F64.le (F64.fin false 0) x = true

instance (x : F64) : Decidable x.NonNeg := by
  unfold F64.NonNeg; exact inferInstance

/-- What the Go runtime and the standard library supply to the sizing
heuristic: `math.Pow`, and the result of the conversion `int(x)` for an `x`
outside the range of `int`, which the language leaves to the implementation. -/
structure MathEnv where
  pow : F64 → F64 → F64
  intOfUnrepresentable : F64 → Int

/-- The `float64` arithmetic of Go as an implementation of the interface of
the sizing heuristic. -/
def f64Ops (m : MathEnv) : FloatOps where
  F := F64
  ofInt := F64.ofInt
  lit := F64.lit
  add := F64.add
  sub := F64.sub
  mul := F64.mul
  div := F64.div
  pow := m.pow
  toInt := F64.toInt m.intOfUnrepresentable

/-- What the theorems on the sizing heuristic use of `math.Pow`, at the
arguments the heuristic passes to it.

* `pow_one`: `Pow(x, 1) = x` for any `x`, a special case of the function.
* `pow_nonNeg`: for a base that is not negative and a positive constant
  exponent the result is not negative (and not NaN).
* `pow_ge_one`: `float64(n)^0.7 ≥ 1` for an integer `n ≥ 1` (exactly 1 at
  `n = 1`, at least 1.62 in exact arithmetic from `n = 2` on).
* `pow_le_four`: `z^1.2 ≤ 4` for `0 ≤ z ≤ 2` (at most 2.3 in exact
  arithmetic).
* `pow_mono`: `float64(a)^0.6 ≤ float64(b)^0.6` for integers
  `0 ≤ a ≤ b ≤ 2^32`, where consecutive values differ by a relative
  `1.4e-10` at least.
* `pow_large`: `float64(n)^0.6 ≥ 1024` for an integer `n ≥ 2^32` (at least
  602248 in exact arithmetic). -/
structure PowLaws (pow : F64 → F64 → F64) : Prop where
  pow_one : ∀ x, pow x (F64.lit 1 1) = x
  pow_nonNeg : ∀ x (n d : Nat), 0 < n → 0 < d → x.NonNeg → (pow x (F64.lit n d)).NonNeg
  pow_ge_one : ∀ n : Int, 1 ≤ n →
    F64.le (F64.ofInt 1) (pow (F64.ofInt n) (F64.lit 7 10)) = true
  pow_le_four : ∀ z, z.NonNeg → F64.le z (F64.ofInt 2) = true →
    F64.le (pow z (F64.lit 12 10)) (F64.ofInt 4) = true
  pow_mono : ∀ a b : Int, 0 ≤ a → a ≤ b → b ≤ 4294967296 →
    F64.le (pow (F64.ofInt a) (F64.lit 60 100)) (pow (F64.ofInt b) (F64.lit 60 100)) = true
  pow_large : ∀ n : Int, 4294967296 ≤ n →
    F64.le (F64.ofInt 1024) (pow (F64.ofInt n) (F64.lit 60 100)) = true

/-- A magnitude in units of `2^-1074` as a fixed-point decimal, truncated. -/
def toFx (n : Nat) : Int := ((n * fxScale / f64Unit : Nat) : Int)

/-- A magnitude in units of `2^-1074` as a fixed-point decimal, rounded to
the nearest one. -/
def toFxNearest (n : Nat) : Int := (((2 * n * fxScale + f64Unit) / (2 * f64Unit) : Nat) : Int)

/-- The `float64` nearest to a fixed-point decimal that is not negative. -/
def ofFx (v : Int) : F64 := roundNE false (v.toNat * f64Unit) fxScale

/-- A reference implementation of `math.Pow` on the arguments the sizing
heuristic passes to it: the base itself at exponent 1; for a finite base and a
finite exponent that are not negative the fixed-point power `fxPow`, the
exponent read to twelve decimals; `+Inf` when one of them is `+Inf`. -/
def refPow (x y : F64) : F64 :=
  if y = F64.lit 1 1 then x
  else if x.NonNeg ∧ y.NonNeg then
    (match x, y with
     | F64.fin _ n, F64.fin _ e => ofFx (fxPow (toFx n) (toFxNearest e))
     | _, _ => F64.inf false)
  else F64.nan

/-- A reference for what the runtime supplies: `refPow`, and the smallest
`int` for a conversion out of range, as on amd64. -/
def refMath : MathEnv where
  pow := refPow
  intOfUnrepresentable := fun _ => minInt64

/-! # Theorems -/

/-! ## Structured card -/

/-- C1: the combined primary string of `drawGolfScorecardImage` is the decimal
total, a space, and in parentheses the score to par written `+N` when
positive, with its minus sign when negative, and `E` when zero; total 72 at
par, 70 two under and 75 three over give `72 (E)`, `70 (-2)` and `75 (+3)`. -/
theorem combinedScoreText_format (golfData : Kind1501Metadata)
    (shortName formattedDate : String) :
    (drawGolfScorecardImage golfData shortName formattedDate).combinedScoreText
        = fmtD golfData.TotalScore ++ " (" ++
            (if golfData.ScoreToPar > 0 then "+" ++ fmtD golfData.ScoreToPar
             else if golfData.ScoreToPar < 0 then fmtD golfData.ScoreToPar
             else "E") ++ ")"
      ∧ (golfData.ScoreToPar < 0 →
          fmtD golfData.ScoreToPar = "-" ++ Nat.repr golfData.ScoreToPar.natAbs)
      ∧ (golfData.ScoreToPar = 0 →
          (drawGolfScorecardImage golfData shortName formattedDate).combinedScoreText
            = fmtD golfData.TotalScore ++ " (E)")
      ∧ (drawGolfScorecardImage (cardOf 72 0) shortName formattedDate).combinedScoreText
          = "72 (E)"
      ∧ (drawGolfScorecardImage (cardOf 70 (-2)) shortName formattedDate).combinedScoreText
          = "70 (-2)"
      ∧ (drawGolfScorecardImage (cardOf 75 3) shortName formattedDate).combinedScoreText
          = "75 (+3)" := by
  refine ⟨rfl, ?_, ?_, by rfl, by rfl, by rfl⟩
  · intro h
    simp [fmtD, h]
  · intro h
    simp [drawGolfScorecardImage, parText, h, String.append_assoc]

/-- C2: the colour of the primary value depends on the sign of the score to
par alone: green (76,175,80) below par, red (244,67,54) above par, blue
(30,136,229) at par, and exactly one of the three cases holds. -/
theorem scoreColor_by_sign (golfData : Kind1501Metadata) (shortName formattedDate : String) :
    (golfData.ScoreToPar < 0 →
        (drawGolfScorecardImage golfData shortName formattedDate).scoreColor
          = ⟨76, 175, 80, 255⟩)
      ∧ (golfData.ScoreToPar > 0 →
        (drawGolfScorecardImage golfData shortName formattedDate).scoreColor
          = ⟨244, 67, 54, 255⟩)
      ∧ (golfData.ScoreToPar = 0 →
        (drawGolfScorecardImage golfData shortName formattedDate).scoreColor
          = ⟨30, 136, 229, 255⟩)
      ∧ ((golfData.ScoreToPar < 0 ∧ ¬ golfData.ScoreToPar > 0 ∧ ¬ golfData.ScoreToPar = 0)
          ∨ (¬ golfData.ScoreToPar < 0 ∧ golfData.ScoreToPar > 0 ∧ ¬ golfData.ScoreToPar = 0)
          ∨ (¬ golfData.ScoreToPar < 0 ∧ ¬ golfData.ScoreToPar > 0 ∧ golfData.ScoreToPar = 0))
      ∧ (∀ (other : Kind1501Metadata) (name date : String),
          Int.sign other.ScoreToPar = Int.sign golfData.ScoreToPar →
          (drawGolfScorecardImage other name date).scoreColor
            = (drawGolfScorecardImage golfData shortName formattedDate).scoreColor) := by
  refine ⟨?_, ?_, ?_, ?_, ?_⟩
  · intro h
    simp [drawGolfScorecardImage, scoreColor, h]
  · intro h
    have h' : ¬ golfData.ScoreToPar < 0 := by omega
    simp [drawGolfScorecardImage, scoreColor, h, h']
  · intro h
    simp [drawGolfScorecardImage, scoreColor, h]
  · omega
  · intro other name date hs
    have key : ∀ a b : Int, Int.sign a = Int.sign b → scoreColor a = scoreColor b := by
      intro a b hab
      rcases lt_trichotomy b 0 with hb | hb | hb
      · have ha : a < 0 := by
          rw [Int.sign_eq_neg_one_of_neg hb] at hab
          exact Int.sign_eq_neg_one_iff_neg.mp hab
        simp [scoreColor, ha, hb]
      · subst hb
        have ha : a = 0 := by
          simpa using hab
        subst ha
        rfl
      · have ha : 0 < a := by
          rw [Int.sign_eq_one_of_pos hb] at hab
          exact Int.sign_eq_one_iff_pos.mp hab
        have ha' : ¬ a < 0 := by omega
        have hb' : ¬ b < 0 := by omega
        simp [scoreColor, ha, hb, ha', hb']
    exact key _ _ hs

/-! ## Golf round metadata -/

theorem wrapInt64_of_inInt64 (x : Int) (h : inInt64 x) : wrapInt64 x = x := by
  unfold inInt64 minInt64 maxInt64 at h
  unfold wrapInt64
  omega

theorem parAndScoreToPar_spec (g : Kind1501Metadata) :
    (parAndScoreToPar g).TotalPar = g.TotalPar
      ∧ (parAndScoreToPar g).TotalScore = g.TotalScore
      ∧ (parAndScoreToPar g).Par = (if g.TotalPar > 0 then g.TotalPar else 72)
      ∧ (parAndScoreToPar g).ScoreToPar
          = subInt64 g.TotalScore (if g.TotalPar > 0 then g.TotalPar else 72) := by
  unfold parAndScoreToPar
  by_cases h : g.TotalPar > 0 <;> simp [h]

/-- C3: the metadata `grabData` builds for a kind 1501/1502 event has
`Par = TotalPar` when `TotalPar > 0` and `Par = 72` otherwise, and
`ScoreToPar` is the Go difference `TotalScore - Par`, which is the exact
integer difference whenever that fits an `int`; with par 72 a total of 70
gives -2, 75 gives 3 and 72 gives 0. -/
theorem grabData_par_scoreToPar (unmarshal : String → Option (List (String × Json)))
    (event : Event) (md : Kind1501Metadata)
    (h : grabData unmarshal event = some (some md)) :
    (event.Kind = 1501 ∨ event.Kind = 1502)
      ∧ md.Par = (if md.TotalPar > 0 then md.TotalPar else 72)
      ∧ md.ScoreToPar = subInt64 md.TotalScore md.Par
      ∧ (inInt64 (md.TotalScore - md.Par) → md.ScoreToPar = md.TotalScore - md.Par)
      ∧ (md.Par = 72 → md.TotalScore = 70 → md.ScoreToPar = -2)
      ∧ (md.Par = 72 → md.TotalScore = 75 → md.ScoreToPar = 3)
      ∧ (md.Par = 72 → md.TotalScore = 72 → md.ScoreToPar = 0) := by
  unfold grabData at h
  by_cases hk : event.Kind = 1501 ∨ event.Kind = 1502
  · rw [if_pos hk] at h
    unfold golfMetadata at h
    cases hc : readContent unmarshal event.Content Kind1501Metadata.zero with
    | none => simp [hc] at h
    | some g0 =>
      simp only [hc, Option.map_some', Option.some.injEq] at h
      obtain ⟨h1, h2, h3, h4⟩ := parAndScoreToPar_spec (readTagFields event.Tags g0)
      have hTP : md.TotalPar = (readTagFields event.Tags g0).TotalPar := by
        rw [← h]; exact h1
      have hTS : md.TotalScore = (readTagFields event.Tags g0).TotalScore := by
        rw [← h]; exact h2
      have hP : md.Par = (if md.TotalPar > 0 then md.TotalPar else 72) := by
        rw [hTP, ← h]; exact h3
      have hS : md.ScoreToPar = subInt64 md.TotalScore md.Par := by
        rw [hP, hTP, hTS, ← h]; exact h4
      refine ⟨hk, hP, hS, ?_, ?_, ?_, ?_⟩
      · intro hr
        rw [hS]
        exact wrapInt64_of_inInt64 _ hr
      · intro hp ht
        rw [hS, hp, ht]; rfl
      · intro hp ht
        rw [hS, hp, ht]; rfl
      · intro hp ht
        rw [hS, hp, ht]; rfl
  · rw [if_neg hk] at h
    simp at h

/-- Witness for C3: a round with the tag `total` 70 and no course snapshot
gets par 72 and score to par -2. -/
theorem grabData_par_scoreToPar_witness :
    (sampleRound "70").Kind = 1501
      ∧ ∃ md, grabData sampleUnmarshal (sampleRound "70") = some (some md)
          ∧ md.TotalScore = 70 ∧ md.Par = 72 ∧ md.ScoreToPar = -2 :=
  ⟨rfl, (readTags (sampleRound "70").Tags Kind1501Metadata.zero), by rfl,
    by rfl, by rfl,
    by
      have h := grabData_par_scoreToPar sampleUnmarshal (sampleRound "70")
        (readTags (sampleRound "70").Tags Kind1501Metadata.zero) (by rfl)
      exact h.2.2.2.2.1 (by rfl) (by rfl)⟩

/-! ## Adaptive sizing -/

theorem countChars_eq (paragraphs : List String) (nchars blankLines : Int) :
    countChars paragraphs (nchars, blankLines)
      = (nchars + totalRunes paragraphs, blankLines + blankCount paragraphs) := by
  induction paragraphs generalizing nchars blankLines with
  | nil => simp [countChars, totalRunes, blankCount]
  | cons par rest ih =>
    rw [countChars, ih]
    by_cases hp : par = ""
    · subst hp
      simp [totalRunes, blankCount]
      omega
    · simp [totalRunes, blankCount, hp]
      omega

theorem styleGeometry_fontSize (style : Style) :
    (styleGeometry style).fontSize = (if style = Style.Facebook then 18 else 25) := by
  cases style <;> simp [styleGeometry]

/-- C4: when the paragraphs contain a media reference or there are six or
more of them, `drawImage` hands the style's base font size to
`drawParagraphs` unchanged: 18 for Facebook, 25 otherwise. -/
theorem drawImage_fontSize_base (ops : FloatOps) (env : Env) (paragraphs : List String)
    (style : Style)
    (h : containsMedia env.isMediaURL paragraphs = true ∨ 6 ≤ paragraphs.length) :
    (drawImage ops env paragraphs style).fontSize = (styleGeometry style).fontSize
      ∧ (styleGeometry style).fontSize = (if style = Style.Facebook then 18 else 25)
      ∧ (drawImage ops env paragraphs style).result
          = drawParagraphs env paragraphs (styleGeometry style).fontSize
              (drawImage ops env paragraphs style).width
              (drawImage ops env paragraphs style).height := by
  have hfs : textFontSize ops env.isMediaURL style paragraphs = (styleGeometry style).fontSize := by
    unfold textFontSize
    rcases h with h | h
    · simp [h]
    · have : ¬ ((paragraphs.length : Int) < 6) := by omega
      simp [this]
  refine ⟨hfs, styleGeometry_fontSize style, ?_⟩
  simp only [drawImage, hfs]

/-- Witness for C4: one media paragraph in the Facebook style is drawn at
size 18, and six text paragraphs in the default style at size 25. -/
theorem drawImage_fontSize_base_witness :
    (drawImage fxOps sampleEnv ["http://pic"] Style.Facebook).fontSize = 18
      ∧ (drawImage fxOps sampleEnv ["a", "b", "c", "d", "e", "f"] Style.Default).fontSize = 25 :=
  ⟨((drawImage_fontSize_base fxOps sampleEnv ["http://pic"] Style.Facebook
        (Or.inl (by decide))).1).trans (by rfl),
   ((drawImage_fontSize_base fxOps sampleEnv ["a", "b", "c", "d", "e", "f"] Style.Default
        (Or.inr (by decide))).1).trans (by rfl)⟩

/-- C5 fails as stated: for the single paragraph `a` in the default style the
text region is 435 high and the claimed formula gives size 135, while
`drawImage` computes `zoom` from the canvas height 525 and uses size 166. -/
theorem drawImage_fontSize_not_textRegion :
    containsMedia sampleEnv.isMediaURL ["a"] = false
      ∧ (drawImage fxOps sampleEnv ["a"] Style.Default).height = 435
      ∧ (drawImage fxOps sampleEnv ["a"] Style.Default).fontSize = 166
      ∧ specFontSize fxOps (styleGeometry Style.Default).fontSize
          (drawImage fxOps sampleEnv ["a"] Style.Default).height
          (totalRunes ["a"]) 1 (blankCount ["a"]) = 135
      ∧ (drawImage fxOps sampleEnv ["a"] Style.Default).fontSize
          ≠ specFontSize fxOps (styleGeometry Style.Default).fontSize
              (drawImage fxOps sampleEnv ["a"] Style.Default).height
              (totalRunes ["a"]) 1 (blankCount ["a"]) := by
  refine ⟨by decide, by rfl, by rfl, by rfl, ?_⟩
  have h1 : (drawImage fxOps sampleEnv ["a"] Style.Default).fontSize = 166 := by rfl
  have h2 : specFontSize fxOps (styleGeometry Style.Default).fontSize
          (drawImage fxOps sampleEnv ["a"] Style.Default).height
          (totalRunes ["a"]) 1 (blankCount ["a"]) = 135 := by rfl
  rw [h1, h2]
  decide

/-- C5 as amended: for a text-only list of fewer than six paragraphs the font
size is `int(float64(base + addedSize))`, where `base + addedSize` is the
specification's formula evaluated with the canvas height of the style in
place of the text-region height, `nchars` the total rune count and
`blankLines` the number of empty paragraphs; it is that sum itself when the
sum survives the conversion to `float64` and back, and two such lists with the
same rune count, length and blank count get the same size. -/
theorem drawImage_fontSize_adaptive (ops : FloatOps) (env : Env) (paragraphs : List String)
    (style : Style)
    (hmedia : containsMedia env.isMediaURL paragraphs = false)
    (hlen : paragraphs.length < 6) :
    (drawImage ops env paragraphs style).fontSize
        = ops.toInt (ops.ofInt
            (specFontSize ops (styleGeometry style).fontSize (styleGeometry style).height
              (totalRunes paragraphs) paragraphs.length (blankCount paragraphs)))
      ∧ (ops.toInt (ops.ofInt
            (specFontSize ops (styleGeometry style).fontSize (styleGeometry style).height
              (totalRunes paragraphs) paragraphs.length (blankCount paragraphs)))
          = specFontSize ops (styleGeometry style).fontSize (styleGeometry style).height
              (totalRunes paragraphs) paragraphs.length (blankCount paragraphs) →
        (drawImage ops env paragraphs style).fontSize
          = specFontSize ops (styleGeometry style).fontSize (styleGeometry style).height
              (totalRunes paragraphs) paragraphs.length (blankCount paragraphs))
      ∧ (∀ other : List String, containsMedia env.isMediaURL other = false →
          other.length = paragraphs.length → totalRunes other = totalRunes paragraphs →
          blankCount other = blankCount paragraphs →
          (drawImage ops env other style).fontSize
            = (drawImage ops env paragraphs style).fontSize) := by
  have key : ∀ ps : List String, containsMedia env.isMediaURL ps = false → ps.length < 6 →
      (drawImage ops env ps style).fontSize
        = ops.toInt (ops.ofInt
            (specFontSize ops (styleGeometry style).fontSize (styleGeometry style).height
              (totalRunes ps) ps.length (blankCount ps))) := by
    intro ps hm hl
    have hl' : ((ps.length : Int) < 6) := by omega
    simp only [drawImage, textFontSize, hm, hl', countChars_eq, specFontSize, addedSize, zoomOf]
    simp
  refine ⟨key paragraphs hmedia hlen, ?_, ?_⟩
  · intro hrt
    rw [key paragraphs hmedia hlen, hrt]
  · intro other hm hl hr hb
    rw [key paragraphs hmedia hlen, key other hm (by omega), hl, hr, hb]

/-- Witness for C5 as amended: the paragraph `a` in the default style. -/
theorem drawImage_fontSize_adaptive_witness :
    containsMedia sampleEnv.isMediaURL ["a"] = false ∧ ["a"].length < 6
      ∧ (drawImage fxOps sampleEnv ["a"] Style.Default).fontSize
          = specFontSize fxOps 25 525 1 1 0
      ∧ specFontSize fxOps 25 525 1 1 0 = 166 :=
  ⟨by decide, by decide,
   (drawImage_fontSize_adaptive fxOps sampleEnv ["a"] Style.Default (by decide)
      (by decide)).2.1 (by rfl),
   by rfl⟩

/-! ## Go integers: the range where nothing wraps -/

theorem wrapInt64_range (x : Int) : inInt64 (wrapInt64 x) := by
  unfold inInt64 minInt64 maxInt64 wrapInt64
  omega

theorem tdiv_ten_le (x : Int) (h : x ≤ maxInt64) : Int.tdiv x 10 ≤ maxInt64 := by
  unfold maxInt64 at *
  by_cases hx : 0 ≤ x
  · rw [Int.tdiv_eq_ediv hx (by norm_num)]
    omega
  · have h1 : Int.tdiv x 10 = -(Int.tdiv (-x) 10) := by rw [Int.neg_tdiv, neg_neg]
    have h2 : 0 ≤ Int.tdiv (-x) 10 := Int.tdiv_nonneg (by omega) (by norm_num)
    omega

theorem checkPos_le_maxInt64 (fontSize n : Int) : checkPos fontSize n ≤ maxInt64 :=
  tdiv_ten_le _ (wrapInt64_range _).2

theorem lineHeight_exact (fontSize : Int) (h0 : 0 ≤ fontSize) (h : fontSize * 12 ≤ maxInt64) :
    lineHeight fontSize = Int.tdiv (fontSize * 12) 10 := by
  unfold lineHeight mulInt64
  rw [wrapInt64_of_inInt64 _ ⟨by unfold minInt64; omega, h⟩]

theorem checkPos_exact (fontSize n : Int) (h0 : 0 ≤ fontSize) (hn : 0 ≤ n)
    (h : fontSize * n * 12 ≤ maxInt64) :
    checkPos fontSize n = Int.tdiv (fontSize * n * 12) 10 := by
  have hp : 0 ≤ fontSize * n := mul_nonneg h0 hn
  unfold checkPos mulInt64
  rw [wrapInt64_of_inInt64 (fontSize * n) ⟨by unfold minInt64; omega, by omega⟩,
    wrapInt64_of_inInt64 _ ⟨by unfold minInt64; omega, h⟩]

theorem fit_mul (fontSize n : Int) (K : Nat) (h0 : 0 ≤ fontSize) (hn : n ≤ (K : Int) + 1)
    (hfit : fontSize * 12 * ((K : Int) + 1) ≤ maxInt64) : fontSize * n * 12 ≤ maxInt64 := by
  have h1 : fontSize * n ≤ fontSize * ((K : Int) + 1) := mul_le_mul_of_nonneg_left hn h0
  nlinarith

theorem tdiv_mul_le (fontSize m : Int) (hf : 0 ≤ fontSize) (hm : 0 ≤ m) :
    m * Int.tdiv (fontSize * 12) 10 ≤ Int.tdiv (fontSize * m * 12) 10 := by
  have h1 : 0 ≤ fontSize * 12 := by positivity
  have h2 : 0 ≤ fontSize * m * 12 := by positivity
  rw [Int.tdiv_eq_ediv h1 (by norm_num), Int.tdiv_eq_ediv h2 (by norm_num)]
  apply Int.le_ediv_of_mul_le (by norm_num)
  have h3 : fontSize * 12 / 10 * 10 ≤ fontSize * 12 := Int.ediv_mul_le _ (by norm_num)
  nlinarith [mul_le_mul_of_nonneg_left h3 hm]

theorem tdiv_eq_of_dvd (fontSize n : Int) (h5 : 5 ∣ fontSize) :
    Int.tdiv (fontSize * n * 12) 10 = n * Int.tdiv (fontSize * 12) 10 := by
  obtain ⟨k, rfl⟩ := h5
  have h1 : 5 * k * n * 12 = (n * (6 * k)) * 10 := by ring
  have h2 : 5 * k * 12 = (6 * k) * 10 := by ring
  rw [h1, h2, Int.mul_tdiv_cancel _ (by norm_num), Int.mul_tdiv_cancel _ (by norm_num)]

/-- Within the range where nothing wraps, the line height and the tested
quantity are the exact quotients and the grid point `n` lies at or above
`n` line heights. -/
theorem grid_point (fontSize n : Int) (K : Nat) (hf : 0 ≤ fontSize)
    (hfit : fontSize * 12 * ((K : Int) + 1) ≤ maxInt64) (h0 : 0 ≤ n) (hn : n ≤ (K : Int) + 1) :
    lineHeight fontSize = Int.tdiv (fontSize * 12) 10
      ∧ checkPos fontSize n = Int.tdiv (fontSize * n * 12) 10
      ∧ 0 ≤ n * lineHeight fontSize
      ∧ n * lineHeight fontSize ≤ checkPos fontSize n
      ∧ checkPos fontSize n ≤ maxInt64
      ∧ (5 ∣ fontSize → checkPos fontSize n = n * lineHeight fontSize) := by
  have hK : (0 : Int) ≤ (K : Int) := Int.ofNat_nonneg K
  have h12 : fontSize * 12 ≤ maxInt64 := by
    have := fit_mul fontSize 1 K hf (by omega) hfit
    simpa using this
  have hL := lineHeight_exact fontSize hf h12
  have hC := checkPos_exact fontSize n hf h0 (fit_mul fontSize n K hf hn hfit)
  have hle := tdiv_mul_le fontSize n hf h0
  have hnn : 0 ≤ Int.tdiv (fontSize * 12) 10 := Int.tdiv_nonneg (by positivity) (by norm_num)
  refine ⟨hL, hC, ?_, ?_, checkPos_le_maxInt64 _ _, ?_⟩
  · rw [hL]; exact mul_nonneg h0 hnn
  · rw [hL, hC]; exact hle
  · intro h5
    rw [hL, hC]
    exact tdiv_eq_of_dvd fontSize n h5

theorem lineHeight_zero : lineHeight 0 = 0 := by decide

theorem checkPos_zero (n : Int) : checkPos 0 n = 0 := by
  unfold checkPos mulInt64
  rw [zero_mul]
  decide

/-! ## Paragraph layout: a proof rule for the loop -/

theorem drawOuts_rule {env : Env} {fontSize height : Int} {allowed : String → Prop} {K : Nat}
    {I : Nat → LayoutState → Prop} {O : LayoutState → Prop}
    (rule : LoopRule env fontSize height allowed K I O) :
    ∀ (outs : List String) (st : LayoutState) (total : Int) (k : Nat),
      k + outs.length ≤ K → I k st →
      ((drawOuts env fontSize height outs st total).2.2 = false →
          I (k + outs.length) (drawOuts env fontSize height outs st total).1)
        ∧ ((drawOuts env fontSize height outs st total).2.2 = true →
          O (drawOuts env fontSize height outs st total).1) := by
  intro outs
  induction outs with
  | nil =>
    intro st total k _ hI
    simp [drawOuts, hI]
  | cons out rest ih =>
    intro st total k hk hI
    have hk' : k < K := by
      simp only [List.length_cons] at hk
      omega
    by_cases hc : checkPos fontSize st.lineNumber > height
    · have hO := rule.fail k st out total hk' hI hc
      simp only [drawOuts, hc, if_true]
      exact ⟨fun hf => by simp at hf, fun _ => hO⟩
    · have hI' := rule.pass k st out total hk' hI hc
      simp only [drawOuts, hc, if_false]
      have h := ih _ (addInt64 total (env.charsWritten out)) (k + 1)
        (by simp only [List.length_cons] at hk; omega) hI'
      have he : k + (out :: rest).length = k + 1 + rest.length := by
        simp only [List.length_cons]; omega
      rw [he]
      exact h

theorem drawLines_rule {env : Env} {fontSize height : Int} {allowed : String → Prop} {K : Nat}
    {I : Nat → LayoutState → Prop} {O : LayoutState → Prop}
    (rule : LoopRule env fontSize height allowed K I O) :
    ∀ (lines : List (List String)) (st : LayoutState) (total : Int) (k : Nat),
      k + lines.flatten.length ≤ K → I k st →
      ((drawLines env fontSize height lines st total).2.2 = false →
          I (k + lines.flatten.length) (drawLines env fontSize height lines st total).1)
        ∧ ((drawLines env fontSize height lines st total).2.2 = true →
          O (drawLines env fontSize height lines st total).1) := by
  intro lines
  induction lines with
  | nil =>
    intro st total k _ hI
    simp [drawLines, hI]
  | cons line rest ih =>
    intro st total k hk hI
    have hlen : (line :: rest).flatten.length = line.length + rest.flatten.length := by
      simp [List.flatten_cons]
    rw [hlen] at hk ⊢
    have h1 := drawOuts_rule rule line st total k (by omega) hI
    rcases hr : drawOuts env fontSize height line st total with ⟨st1, total1, b⟩
    rw [hr] at h1
    cases b with
    | true =>
      simp only [drawLines, hr]
      exact ⟨fun hf => by simp at hf, fun _ => h1.2 rfl⟩
    | false =>
      simp only [drawLines, hr]
      have h := ih st1 total1 (k + line.length) (by omega) (h1.1 rfl)
      rw [← Nat.add_assoc]
      exact h

theorem drawText_rule {env : Env} {fontSize height : Int} {allowed : String → Prop} {K : Nat}
    {I : Nat → LayoutState → Prop} {O : LayoutState → Prop}
    (rule : LoopRule env fontSize height allowed K I O)
    (width : Int) (paragraph : String) (st : LayoutState) (k : Nat)
    (hk : k + (env.wrap paragraph fontSize width).flatten.length ≤ K) (hI : I k st) :
    ((drawText env fontSize width height paragraph st).2 = false →
        I (k + (env.wrap paragraph fontSize width).flatten.length)
          (drawText env fontSize width height paragraph st).1)
      ∧ ((drawText env fontSize width height paragraph st).2 = true →
        O (drawText env fontSize width height paragraph st).1) :=
  drawLines_rule rule (env.wrap paragraph fontSize width) st 0 k hk hI

theorem processParagraph_rule {env : Env} {fontSize height : Int} {allowed : String → Prop}
    {K : Nat} {I : Nat → LayoutState → Prop} {O : LayoutState → Prop}
    (rule : LoopRule env fontSize height allowed K I O)
    (width : Int) (i : Nat) (paragraph : String) (rest : List String) (st : LayoutState)
    (k : Nat) (ha : allowed paragraph)
    (hk : k + lineBudget env fontSize width [paragraph] ≤ K) (hI : I k st) :
    ((processParagraph env fontSize width height i paragraph rest st).2 = false →
        ∃ k', k' ≤ k + lineBudget env fontSize width [paragraph]
          ∧ I k' (processParagraph env fontSize width height i paragraph rest st).1)
      ∧ ((processParagraph env fontSize width height i paragraph rest st).2 = true →
        O (processParagraph env fontSize width height i paragraph rest st).1) := by
  unfold processParagraph
  by_cases hb : paragraph = ""
  · subst hb
    simp only [lineBudget, if_true] at hk ⊢
    split
    · exact ⟨fun _ => ⟨k, by omega, hI⟩, fun hf => by simp at hf⟩
    · exact ⟨fun _ => ⟨k + 1, by omega, rule.blank ha k st (by omega) hI⟩,
        fun hf => by simp at hf⟩
  · simp only [lineBudget, hb, if_false, Nat.add_zero] at hk ⊢
    by_cases hm : env.isMediaURL paragraph = true
    · simp only [hm, if_true]
      have hI0 : I k (if i = 0 then { st with yPos := 0 } else st) := by
        by_cases hi : i = 0
        · simp only [hi, if_true]
          exact rule.reset paragraph ha hm k st hI
        · simp only [hi, if_false]
          exact hI
      by_cases hn : env.drawMediaAt paragraph (if i = 0 then { st with yPos := 0 } else st).yPos
          ≠ -1
      · simp only [hn, if_true, ne_eq, not_false_eq_true]
        exact ⟨fun _ => ⟨k, by omega, rule.media paragraph ha hm k _ hI0 hn⟩,
          fun hf => by simp at hf⟩
      · simp only [hn, if_false, ne_eq, not_true_eq_false]
        have h := drawText_rule rule width paragraph _ k hk hI0
        exact ⟨fun hf => ⟨_, le_refl _, h.1 hf⟩, h.2⟩
    · simp only [hm, if_false]
      have h := drawText_rule rule width paragraph st k hk hI
      exact ⟨fun hf => ⟨_, le_refl _, h.1 hf⟩, h.2⟩

theorem lineBudget_single (env : Env) (fontSize width : Int) (par : String)
    (rest : List String) :
    lineBudget env fontSize width (par :: rest)
      = lineBudget env fontSize width [par] + lineBudget env fontSize width rest := by
  simp [lineBudget]

theorem paragraphLoop_rule {env : Env} {fontSize height : Int} {allowed : String → Prop}
    {K : Nat} {I : Nat → LayoutState → Prop} {O : LayoutState → Prop}
    (rule : LoopRule env fontSize height allowed K I O) (width : Int) :
    ∀ (paragraphs : List String) (i : Nat) (st : LayoutState) (k : Nat),
      (∀ par ∈ paragraphs, allowed par) →
      k + lineBudget env fontSize width paragraphs ≤ K → I k st →
      ((paragraphLoop env fontSize width height i paragraphs st).2 = false →
          ∃ k', k' ≤ k + lineBudget env fontSize width paragraphs
            ∧ I k' (paragraphLoop env fontSize width height i paragraphs st).1)
        ∧ ((paragraphLoop env fontSize width height i paragraphs st).2 = true →
          O (paragraphLoop env fontSize width height i paragraphs st).1) := by
  intro paragraphs
  induction paragraphs with
  | nil =>
    intro i st k _ _ hI
    simp only [paragraphLoop]
    exact ⟨fun _ => ⟨k, by omega, hI⟩, fun hf => by simp at hf⟩
  | cons par rest ih =>
    intro i st k ha hk hI
    rw [lineBudget_single] at hk ⊢
    have h1 := processParagraph_rule rule width i par rest st k (ha par (by simp))
      (by omega) hI
    rcases hr : processParagraph env fontSize width height i par rest st with ⟨st1, b⟩
    rw [hr] at h1
    cases b with
    | true =>
      simp only [paragraphLoop, hr]
      exact ⟨fun hf => by simp at hf, fun _ => h1.2 rfl⟩
    | false =>
      simp only [paragraphLoop, hr]
      obtain ⟨k1, hk1, hI1⟩ := h1.1 rfl
      have h := ih (i + 1) st1 k1 (fun q hq => ha q (by simp [hq])) (by omega) hI1
      refine ⟨fun hf => ?_, h.2⟩
      obtain ⟨k2, hk2, hI2⟩ := h.1 hf
      exact ⟨k2, by omega, hI2⟩

theorem paragraphStarts_rule {env : Env} {fontSize height : Int} {allowed : String → Prop}
    {K : Nat} {I : Nat → LayoutState → Prop} {O : LayoutState → Prop}
    (rule : LoopRule env fontSize height allowed K I O) (width : Int) :
    ∀ (paragraphs : List String) (i : Nat) (st : LayoutState) (k : Nat),
      (∀ par ∈ paragraphs, allowed par) →
      k + lineBudget env fontSize width paragraphs ≤ K → I k st →
      ∀ s ∈ paragraphStarts env fontSize width height i paragraphs st,
        ∃ k', k' ≤ k + lineBudget env fontSize width paragraphs ∧ I k' s := by
  intro paragraphs
  induction paragraphs with
  | nil =>
    intro i st k _ _ _ s hs
    simp [paragraphStarts] at hs
  | cons par rest ih =>
    intro i st k ha hk hI s hs
    rw [lineBudget_single] at hk ⊢
    have h1 := processParagraph_rule rule width i par rest st k (ha par (by simp))
      (by omega) hI
    rcases hr : processParagraph env fontSize width height i par rest st with ⟨st1, b⟩
    rw [hr] at h1
    cases b with
    | true =>
      simp only [paragraphStarts, hr, List.mem_singleton] at hs
      rw [hs]
      exact ⟨k, by omega, hI⟩
    | false =>
      simp only [paragraphStarts, hr, List.mem_cons] at hs
      rcases hs with hs | hs
      · rw [hs]
        exact ⟨k, by omega, hI⟩
      · obtain ⟨k1, hk1, hI1⟩ := h1.1 rfl
        obtain ⟨k2, hk2, hI2⟩ :=
          ih (i + 1) st1 k1 (fun q hq => ha q (by simp [hq])) (by omega) hI1 s hs
        exact ⟨k2, by omega, hI2⟩

/-! ## Paragraph layout: invariants -/

theorem settled_rule (env : Env) (fontSize height : Int) (K : Nat) :
    LoopRule env fontSize height (fun _ => True) K (fun _ => Settled fontSize height)
      (EndsPastCheck fontSize height) where
  blank := fun _ _ st _ hI => hI
  reset := fun _ _ _ _ st hI => hI
  media := by
    intro par _ _ _ st hI _ c hc
    simp only [List.mem_append, List.mem_singleton] at hc
    rcases hc with hc | hc
    · exact hI c hc
    · subst hc
      trivial
  pass := by
    intro _ st out total _ hI hc c hmem
    simp only [List.mem_append, List.mem_singleton] at hmem
    rcases hmem with hmem | hmem
    · exact hI c hmem
    · subst hmem
      show checkPos fontSize st.lineNumber ≤ height
      omega
  fail := by
    intro _ st out total _ hI hc
    exact ⟨st.drawn, out, total, st.yPos, st.lineNumber, rfl, hI, hc⟩

theorem drawParagraphs_outcome (env : Env) (paragraphs : List String)
    (fontSize width height : Int) :
    ((drawParagraphs env paragraphs fontSize width height).2 = false →
        Settled fontSize height (drawParagraphs env paragraphs fontSize width height).1)
      ∧ ((drawParagraphs env paragraphs fontSize width height).2 = true →
        EndsPastCheck fontSize height (drawParagraphs env paragraphs fontSize width height).1) := by
  have h := paragraphLoop_rule
    (settled_rule env fontSize height (lineBudget env fontSize width paragraphs)) width
    paragraphs 0 (initialState fontSize) 0 (fun _ _ => trivial) (by omega)
    (by intro c hc; simp [initialState] at hc)
  exact ⟨fun hf => (h.1 hf).choose_spec.2, h.2⟩

theorem extends_rule (env : Env) (fontSize height : Int) (K : Nat) (base : List DrawCall) :
    LoopRule env fontSize height (fun _ => True) K (fun _ => Extends base) (Extends base) where
  blank := fun _ _ st _ hI => hI
  reset := fun _ _ _ _ st hI => hI
  media := by
    rintro par _ _ _ st ⟨more, hm⟩ _
    exact ⟨more ++ [DrawCall.media par st.yPos], by simp [hm]⟩
  pass := by
    rintro _ st out total _ ⟨more, hm⟩ _
    exact ⟨more ++ [DrawCall.text out total st.yPos st.lineNumber], by simp [hm]⟩
  fail := by
    rintro _ st out total _ ⟨more, hm⟩ _
    exact ⟨more ++ [DrawCall.text out total st.yPos st.lineNumber], by simp [hm]⟩

/-- Moving the cursor down one line inside the range where nothing wraps. -/
theorem advance_exact (fontSize : Int) (K k : Nat) (hf : 1 ≤ fontSize)
    (hfit : fontSize * 12 * ((K : Int) + 1) ≤ maxInt64) (hk : k < K) :
    addInt64 ((k : Int) + 1) 1 = ((k + 1 : Nat) : Int) + 1
      ∧ addInt64 (((k : Int) + 1) * lineHeight fontSize) (lineHeight fontSize)
          = (((k + 1 : Nat) : Int) + 1) * lineHeight fontSize := by
  have hk0 : (0 : Int) ≤ (k : Int) := Int.ofNat_nonneg k
  have hkK : (k : Int) + 1 ≤ (K : Int) := by exact_mod_cast hk
  have hg := grid_point fontSize ((k : Int) + 1 + 1) K (by omega) hfit (by omega) (by omega)
  obtain ⟨_, _, h0, hle, hmax, _⟩ := hg
  have hK1 : (K : Int) + 1 ≤ fontSize * 12 * ((K : Int) + 1) := by nlinarith
  constructor
  · unfold addInt64
    rw [wrapInt64_of_inInt64 _ ⟨by unfold minInt64; omega, by omega⟩]
    push_cast
    ring
  · unfold addInt64
    have he : ((k : Int) + 1) * lineHeight fontSize + lineHeight fontSize
        = ((k : Int) + 1 + 1) * lineHeight fontSize := by ring
    rw [he, wrapInt64_of_inInt64 _ ⟨by unfold minInt64; omega, by omega⟩]
    push_cast
    ring

theorem grid_rule (env : Env) (fontSize height : Int) (K : Nat) (hf : 1 ≤ fontSize)
    (hfit : fontSize * 12 * ((K : Int) + 1) ≤ maxInt64) :
    LoopRule env fontSize height (fun par => env.isMediaURL par = false) K
      (OnGrid fontSize K) (DrawnOnGrid fontSize K) where
  blank := by
    intro _ k st hk hI
    obtain ⟨h1, h2, h3⟩ := hI
    obtain ⟨ha, hb⟩ := advance_exact fontSize K k hf hfit hk
    refine ⟨?_, ?_, h3⟩
    · show addInt64 st.lineNumber 1 = _
      rw [h1]; exact ha
    · show addInt64 st.yPos (lineHeight fontSize) = addInt64 st.lineNumber 1 * lineHeight fontSize
      rw [h2, h1, ha]; exact hb
  reset := by
    intro par ha hm
    rw [ha] at hm
    exact absurd hm (by simp)
  media := by
    intro par ha hm
    rw [ha] at hm
    exact absurd hm (by simp)
  pass := by
    intro k st out total hk hI _
    obtain ⟨h1, h2, h3⟩ := hI
    obtain ⟨ha, hb⟩ := advance_exact fontSize K k hf hfit hk
    refine ⟨?_, ?_, ?_⟩
    · show addInt64 st.lineNumber 1 = _
      rw [h1]; exact ha
    · show addInt64 st.yPos (lineHeight fontSize) = addInt64 st.lineNumber 1 * lineHeight fontSize
      rw [h2, h1, ha]; exact hb
    · intro o t y n hmem
      simp only [List.mem_append, List.mem_singleton] at hmem
      rcases hmem with hmem | hmem
      · exact h3 o t y n hmem
      · injection hmem with _ _ hy hn
        subst hy; subst hn
        clear ha hb
        have hkK : (k : Int) + 1 ≤ (K : Int) := by exact_mod_cast hk
        have hk0 : (0 : Int) ≤ (k : Int) := Int.ofNat_nonneg k
        exact ⟨by omega, by omega, h2⟩
  fail := by
    intro k st out total hk hI _ o t y n hmem
    obtain ⟨h1, h2, h3⟩ := hI
    simp only [List.mem_append, List.mem_singleton] at hmem
    rcases hmem with hmem | hmem
    · exact h3 o t y n hmem
    · injection hmem with _ _ hy hn
      subst hy; subst hn
      have hkK : (k : Int) + 1 ≤ (K : Int) := by exact_mod_cast hk
      have hk0 : (0 : Int) ≤ (k : Int) := Int.ofNat_nonneg k
      exact ⟨by omega, by omega, h2⟩

theorem zero_rule (env : Env) (height : Int) (K : Nat) :
    LoopRule env 0 height (fun par => env.isMediaURL par = false) K
      (fun _ => AtZero) AtZero where
  blank := by
    intro _ _ st _ hI
    refine ⟨?_, hI.2⟩
    show addInt64 st.yPos (lineHeight 0) = 0
    rw [hI.1, lineHeight_zero]
    decide
  reset := by
    intro par ha hm
    rw [ha] at hm
    exact absurd hm (by simp)
  media := by
    intro par ha hm
    rw [ha] at hm
    exact absurd hm (by simp)
  pass := by
    intro _ st out total _ hI _
    refine ⟨?_, ?_⟩
    · show addInt64 st.yPos (lineHeight 0) = 0
      rw [hI.1, lineHeight_zero]
      decide
    · intro o t y n hmem
      simp only [List.mem_append, List.mem_singleton] at hmem
      rcases hmem with hmem | hmem
      · exact hI.2 o t y n hmem
      · injection hmem with _ _ hy hn
        subst hy
        exact hI.1
  fail := by
    intro _ st out total _ hI _
    refine ⟨hI.1, ?_⟩
    intro o t y n hmem
    simp only [List.mem_append, List.mem_singleton] at hmem
    rcases hmem with hmem | hmem
    · exact hI.2 o t y n hmem
    · injection hmem with _ _ hy hn
      subst hy
      exact hI.1

theorem initialState_lineHeight (fontSize : Int) :
    (initialState fontSize).yPos = checkPos fontSize 1 := rfl

theorem initialState_onGrid (fontSize : Int) (K : Nat) (hf : 0 ≤ fontSize)
    (hfit : fontSize * 12 * ((K : Int) + 1) ≤ maxInt64) :
    OnGrid fontSize K 0 (initialState fontSize) := by
  have hK : (0 : Int) ≤ (K : Int) := Int.ofNat_nonneg K
  obtain ⟨hL, hC, _⟩ := grid_point fontSize 1 K hf hfit (by omega) (by omega)
  refine ⟨by simp [initialState], ?_, ?_⟩
  · rw [initialState_lineHeight, hC, hL]
    simp [initialState]
  · intro o t y n hmem
    simp [initialState] at hmem

/-- The layout of paragraphs without a media URL inside the range where
nothing wraps: every paragraph starts, and every text run is drawn, on the grid
of line heights, at a line number between 1 and one more than the number of
lines. -/
theorem drawParagraphs_onGrid (env : Env) (paragraphs : List String)
    (fontSize width height : Int) (hf : 0 ≤ fontSize)
    (hm : ∀ par ∈ paragraphs, env.isMediaURL par = false)
    (hfit : fontSize * 12 * ((lineBudget env fontSize width paragraphs : Int) + 1)
      ≤ maxInt64) :
    (∀ st ∈ paragraphStarts env fontSize width height 0 paragraphs (initialState fontSize),
        st.yPos = st.lineNumber * lineHeight fontSize
          ∧ st.yPos ≤ checkPos fontSize st.lineNumber)
      ∧ (∀ out total y n,
          DrawCall.text out total y n
            ∈ (drawParagraphs env paragraphs fontSize width height).1.drawn →
          y = n * lineHeight fontSize ∧ y ≤ checkPos fontSize n
            ∧ (5 ∣ fontSize → checkPos fontSize n = y)
            ∧ checkPos fontSize n = Int.tdiv (fontSize * n * 12) 10) := by
  rcases eq_or_lt_of_le hf with h0 | hpos
  · subst h0
    have hz : AtZero (initialState 0) := by
      refine ⟨by decide, ?_⟩
      intro o t y n hmem
      simp [initialState] at hmem
    constructor
    · intro st hst
      obtain ⟨_, _, hs⟩ := paragraphStarts_rule
        (zero_rule env height (lineBudget env 0 width paragraphs)) width paragraphs 0
        (initialState 0) 0 hm (by omega) hz st hst
      rw [hs.1, lineHeight_zero, checkPos_zero]
      simp
    · intro out total y n hmem
      have h := paragraphLoop_rule
        (zero_rule env height (lineBudget env 0 width paragraphs)) width paragraphs 0
        (initialState 0) 0 hm (by omega) hz
      have hd : AtZero (drawParagraphs env paragraphs 0 width height).1 := by
        cases hb : (drawParagraphs env paragraphs 0 width height).2 with
        | false => exact (h.1 hb).choose_spec.2
        | true => exact h.2 hb
      rw [hd.2 out total y n hmem, lineHeight_zero, checkPos_zero]
      simp
  · have hf1 : 1 ≤ fontSize := hpos
    have hrule := grid_rule env fontSize height (lineBudget env fontSize width paragraphs)
      hf1 hfit
    have hinit := initialState_onGrid fontSize (lineBudget env fontSize width paragraphs)
      hf hfit
    constructor
    · intro st hst
      obtain ⟨k, hk, h1, h2, _⟩ := paragraphStarts_rule hrule width paragraphs 0
        (initialState fontSize) 0 hm (by omega) hinit st hst
      have hkK : (k : Int) ≤ (lineBudget env fontSize width paragraphs : Int) := by
        exact_mod_cast (by omega : k ≤ lineBudget env fontSize width paragraphs)
      have hk0 : (0 : Int) ≤ (k : Int) := Int.ofNat_nonneg k
      obtain ⟨_, _, _, hle, _⟩ := grid_point fontSize st.lineNumber _ hf hfit
        (by omega) (by omega)
      exact ⟨h2, by rw [h2]; exact hle⟩
    · intro out total y n hmem
      have h := paragraphLoop_rule hrule width paragraphs 0 (initialState fontSize) 0 hm
        (by omega) hinit
      have hd : DrawnOnGrid fontSize (lineBudget env fontSize width paragraphs)
          (drawParagraphs env paragraphs fontSize width height).1 := by
        cases hb : (drawParagraphs env paragraphs fontSize width height).2 with
        | false => exact (h.1 hb).choose_spec.2.2.2
        | true => exact h.2 hb
      obtain ⟨hn1, hnK, hy⟩ := hd out total y n hmem
      obtain ⟨_, hC, _, hle, _, h5⟩ := grid_point fontSize n _ hf hfit (by omega) (by omega)
      exact ⟨hy, by rw [hy]; exact hle, fun hd5 => by rw [hy]; exact h5 hd5, hC⟩

theorem checked_rule (env : Env) (fontSize height : Int) (K : Nat) (hh : 0 ≤ height)
    (hf : 1 ≤ fontSize) (hfit : fontSize * 12 * ((K : Int) + 1) ≤ maxInt64) :
    LoopRule env fontSize height (fun par => par ≠ "" ∧ env.isMediaURL par = false) K
      (Checked fontSize height) (DrawnWithin fontSize height) where
  blank := fun ha => absurd rfl ha.1
  reset := by
    intro par ha hm
    rw [ha.2] at hm
    exact absurd hm (by simp)
  media := by
    intro par ha hm
    rw [ha.2] at hm
    exact absurd hm (by simp)
  pass := by
    intro k st out total hk hI hc
    obtain ⟨h1, h2, h3, h4⟩ := hI
    obtain ⟨ha, hb⟩ := advance_exact fontSize K k hf hfit hk
    have hkK : (k : Int) + 1 ≤ (K : Int) := by exact_mod_cast hk
    have hk0 : (0 : Int) ≤ (k : Int) := Int.ofNat_nonneg k
    refine ⟨?_, ?_, ?_, ?_⟩
    · show addInt64 st.lineNumber 1 = _
      rw [h1]; exact ha
    · show addInt64 st.yPos (lineHeight fontSize) = addInt64 st.lineNumber 1 * lineHeight fontSize
      rw [h2, h1, ha]; exact hb
    · right
      show checkPos fontSize (addInt64 st.lineNumber 1 - 1) ≤ height
      rw [h1, ha]
      have he : ((k + 1 : Nat) : Int) + 1 - 1 = st.lineNumber := by
        rw [h1]; push_cast; ring
      rw [he]
      clear ha hb
      omega
    · intro o t y n hmem
      simp only [List.mem_append, List.mem_singleton] at hmem
      rcases hmem with hmem | hmem
      · exact h4 o t y n hmem
      · injection hmem with _ _ hy hn
        subst hy
        clear ha hb
        obtain ⟨_, _, hnn, hle, _, _⟩ := grid_point fontSize (st.lineNumber - 1) K (by omega)
          hfit (by omega) (by omega)
        have hsplit : st.lineNumber * lineHeight fontSize
            = (st.lineNumber - 1) * lineHeight fontSize + lineHeight fontSize := by ring
        rw [h2, hsplit]
        rcases h3 with h3 | h3
        · rw [h3]
          simp only [sub_self, zero_mul, zero_add]
          omega
        · omega
  fail := by
    intro k st out total hk hI _ o t y n hmem
    obtain ⟨h1, h2, h3, h4⟩ := hI
    have hkK : (k : Int) + 1 ≤ (K : Int) := by exact_mod_cast hk
    have hk0 : (0 : Int) ≤ (k : Int) := Int.ofNat_nonneg k
    simp only [List.mem_append, List.mem_singleton] at hmem
    rcases hmem with hmem | hmem
    · exact h4 o t y n hmem
    · injection hmem with _ _ hy hn
      subst hy
      obtain ⟨_, _, hnn, hle, _, _⟩ := grid_point fontSize (st.lineNumber - 1) K (by omega)
        hfit (by omega) (by omega)
      have hsplit : st.lineNumber * lineHeight fontSize
          = (st.lineNumber - 1) * lineHeight fontSize + lineHeight fontSize := by ring
      rw [h2, hsplit]
      rcases h3 with h3 | h3
      · rw [h3]
        simp only [sub_self, zero_mul, zero_add]
        omega
      · omega

/-- Text paragraphs only, inside the range where nothing wraps: every text
run is drawn at most one line height below `height`. -/
theorem drawParagraphs_within (env : Env) (paragraphs : List String)
    (fontSize width height : Int) (hh : 0 ≤ height) (hf : 0 ≤ fontSize)
    (hall : ∀ par ∈ paragraphs, par ≠ "" ∧ env.isMediaURL par = false)
    (hfit : fontSize * 12 * ((lineBudget env fontSize width paragraphs : Int) + 1)
      ≤ maxInt64) :
    DrawnWithin fontSize height (drawParagraphs env paragraphs fontSize width height).1 := by
  rcases eq_or_lt_of_le hf with h0 | hpos
  · subst h0
    have hz : AtZero (initialState 0) := by
      refine ⟨by decide, ?_⟩
      intro o t y n hmem
      simp [initialState] at hmem
    have h := paragraphLoop_rule
      (zero_rule env height (lineBudget env 0 width paragraphs)) width paragraphs 0
      (initialState 0) 0 (fun par hp => (hall par hp).2) (by omega) hz
    have hd : AtZero (drawParagraphs env paragraphs 0 width height).1 := by
      cases hb : (drawParagraphs env paragraphs 0 width height).2 with
      | false => exact (h.1 hb).choose_spec.2
      | true => exact h.2 hb
    intro o t y n hmem
    rw [hd.2 o t y n hmem, lineHeight_zero]
    omega
  · have hf1 : 1 ≤ fontSize := hpos
    have hK : (0 : Int) ≤ (lineBudget env fontSize width paragraphs : Int) :=
      Int.ofNat_nonneg _
    obtain ⟨hL, hC, _⟩ := grid_point fontSize 1 _ hf hfit (by omega) (by omega)
    have hinit : Checked fontSize height 0 (initialState fontSize) := by
      refine ⟨by simp [initialState], ?_, Or.inl rfl, ?_⟩
      · rw [initialState_lineHeight, hC, hL]
        simp [initialState]
      · intro o t y' m hm
        simp [initialState] at hm
    have h := paragraphLoop_rule
      (checked_rule env fontSize height (lineBudget env fontSize width paragraphs) hh hf1 hfit)
      width paragraphs 0 (initialState fontSize) 0 hall (by omega) hinit
    cases hb : (drawParagraphs env paragraphs fontSize width height).2 with
    | false => exact (h.1 hb).choose_spec.2.2.2.2
    | true => exact h.2 hb

/-! ## Paragraph layout: the run without the test -/

theorem unchecked_rule (env : Env) (fontSize : Int) (K : Nat) :
    LoopRule env fontSize maxInt64 (fun _ => True) K (fun _ _ => True) (fun _ => False) where
  blank := fun _ _ _ _ _ => trivial
  reset := fun _ _ _ _ _ _ => trivial
  media := fun _ _ _ _ _ _ _ => trivial
  pass := fun _ _ _ _ _ _ _ => trivial
  fail := by
    intro _ st _ _ _ _ hc
    have := checkPos_le_maxInt64 fontSize st.lineNumber
    omega

theorem drawOuts_unchecked (env : Env) (fontSize : Int) (outs : List String)
    (st : LayoutState) (total : Int) :
    (drawOuts env fontSize maxInt64 outs st total).2.2 = false := by
  have h := drawOuts_rule (unchecked_rule env fontSize outs.length) outs st total 0
    (by omega) trivial
  cases hb : (drawOuts env fontSize maxInt64 outs st total).2.2 with
  | false => rfl
  | true => exact (h.2 hb).elim

theorem drawLines_unchecked (env : Env) (fontSize : Int) (lines : List (List String))
    (st : LayoutState) (total : Int) :
    (drawLines env fontSize maxInt64 lines st total).2.2 = false := by
  have h := drawLines_rule (unchecked_rule env fontSize lines.flatten.length) lines st total 0
    (by omega) trivial
  cases hb : (drawLines env fontSize maxInt64 lines st total).2.2 with
  | false => rfl
  | true => exact (h.2 hb).elim

theorem paragraphLoop_unchecked (env : Env) (fontSize width : Int) (paragraphs : List String)
    (i : Nat) (st : LayoutState) :
    (paragraphLoop env fontSize width maxInt64 i paragraphs st).2 = false := by
  have h := paragraphLoop_rule
    (unchecked_rule env fontSize (lineBudget env fontSize width paragraphs)) width paragraphs
    i st 0 (fun _ _ => trivial) (by omega) trivial
  cases hb : (paragraphLoop env fontSize width maxInt64 i paragraphs st).2 with
  | false => rfl
  | true => exact (h.2 hb).elim

theorem drawOuts_extends (env : Env) (fontSize height : Int) (outs : List String)
    (st : LayoutState) (total : Int) :
    Extends st.drawn (drawOuts env fontSize height outs st total).1 := by
  have h := drawOuts_rule (extends_rule env fontSize height outs.length st.drawn) outs st
    total 0 (by omega) ⟨[], by simp⟩
  cases hb : (drawOuts env fontSize height outs st total).2.2 with
  | false => exact h.1 hb
  | true => exact h.2 hb

theorem drawLines_extends (env : Env) (fontSize height : Int) (lines : List (List String))
    (st : LayoutState) (total : Int) :
    Extends st.drawn (drawLines env fontSize height lines st total).1 := by
  have h := drawLines_rule (extends_rule env fontSize height lines.flatten.length st.drawn)
    lines st total 0 (by omega) ⟨[], by simp⟩
  cases hb : (drawLines env fontSize height lines st total).2.2 with
  | false => exact h.1 hb
  | true => exact h.2 hb

theorem paragraphLoop_extends (env : Env) (fontSize width height : Int)
    (paragraphs : List String) (i : Nat) (st : LayoutState) :
    Extends st.drawn (paragraphLoop env fontSize width height i paragraphs st).1 := by
  have h := paragraphLoop_rule
    (extends_rule env fontSize height (lineBudget env fontSize width paragraphs) st.drawn)
    width paragraphs i st 0 (fun _ _ => trivial) (by omega) ⟨[], by simp⟩
  cases hb : (paragraphLoop env fontSize width height i paragraphs st).2 with
  | false => exact (h.1 hb).choose_spec.2
  | true => exact h.2 hb

/-! ## Paragraph layout: the test cuts the run after the first failing call -/

theorem throughFirstFail_of_pass (fontSize height : Int) :
    ∀ l : List DrawCall, (∀ c ∈ l, c.fails fontSize height = false) →
      throughFirstFail fontSize height l = l := by
  intro l
  induction l with
  | nil => intro _; rfl
  | cons c rest ih =>
    intro h
    have hc : c.fails fontSize height = false := h c (by simp)
    simp only [throughFirstFail, hc, Bool.false_eq_true, if_false]
    rw [ih (fun d hd => h d (by simp [hd]))]

theorem throughFirstFail_append_pass (fontSize height : Int) :
    ∀ l m : List DrawCall, (∀ c ∈ l, c.fails fontSize height = false) →
      throughFirstFail fontSize height (l ++ m) = l ++ throughFirstFail fontSize height m := by
  intro l
  induction l with
  | nil => intro m _; rfl
  | cons c rest ih =>
    intro m h
    have hc : c.fails fontSize height = false := h c (by simp)
    show throughFirstFail fontSize height (c :: (rest ++ m)) = _
    simp only [throughFirstFail, hc, Bool.false_eq_true, if_false]
    rw [ih m (fun d hd => h d (by simp [hd]))]
    rfl

theorem throughFirstFail_append_fail (fontSize height : Int) :
    ∀ l m : List DrawCall, l.any (fun c => c.fails fontSize height) = true →
      throughFirstFail fontSize height (l ++ m) = throughFirstFail fontSize height l := by
  intro l
  induction l with
  | nil => intro m h; simp at h
  | cons c rest ih =>
    intro m h
    show throughFirstFail fontSize height (c :: (rest ++ m)) = _
    cases hc : c.fails fontSize height with
    | true => simp only [throughFirstFail, hc, if_true]
    | false =>
      simp only [List.any_cons, hc, Bool.false_or] at h
      simp only [throughFirstFail, hc, Bool.false_eq_true, if_false]
      rw [ih m h]

theorem any_fails_false_iff (fontSize height : Int) (l : List DrawCall) :
    l.any (fun c => c.fails fontSize height) = false ↔ ∀ c ∈ l, c.fails fontSize height = false := by
  simp

theorem cutOf_refl (fontSize height : Int) (st : LayoutState)
    (hp : ∀ c ∈ st.drawn, c.fails fontSize height = false) :
    CutOf fontSize height (st, false) st :=
  ⟨(throughFirstFail_of_pass fontSize height st.drawn hp).symm,
   ((any_fails_false_iff fontSize height st.drawn).2 hp).symm, fun _ => rfl⟩

theorem cutOf_extend (fontSize height : Int) (rc : LayoutState × Bool) (ru ru' : LayoutState)
    (h : CutOf fontSize height rc ru) (hov : rc.2 = true) (he : Extends ru.drawn ru') :
    CutOf fontSize height rc ru' := by
  obtain ⟨more, hm⟩ := he
  obtain ⟨h1, h2, _⟩ := h
  have hany : ru.drawn.any (fun c => c.fails fontSize height) = true := by rw [← h2, hov]
  refine ⟨?_, ?_, fun hf => by rw [hov] at hf; simp at hf⟩
  · rw [hm, throughFirstFail_append_fail fontSize height _ _ hany]
    exact h1
  · rw [hm, List.any_append, hany, hov]
    rfl

theorem cutOf_pass (fontSize height : Int) (rc : LayoutState × Bool) (ru : LayoutState)
    (h : CutOf fontSize height rc ru) (hov : rc.2 = false) :
    rc.1 = ru ∧ ∀ c ∈ ru.drawn, c.fails fontSize height = false := by
  obtain ⟨_, h2, h3⟩ := h
  exact ⟨h3 hov, (any_fails_false_iff fontSize height ru.drawn).1 (by rw [← h2, hov])⟩

theorem drawOuts_cut (env : Env) (fontSize height : Int) :
    ∀ (outs : List String) (st : LayoutState) (total : Int),
      (∀ c ∈ st.drawn, c.fails fontSize height = false) →
      CutOf fontSize height
          ((drawOuts env fontSize height outs st total).1,
           (drawOuts env fontSize height outs st total).2.2)
          (drawOuts env fontSize maxInt64 outs st total).1
        ∧ ((drawOuts env fontSize height outs st total).2.2 = false →
            (drawOuts env fontSize height outs st total).2.1
              = (drawOuts env fontSize maxInt64 outs st total).2.1) := by
  intro outs
  induction outs with
  | nil =>
    intro st total hp
    simp only [drawOuts]
    exact ⟨cutOf_refl fontSize height st hp, by simp⟩
  | cons out rest ih =>
    intro st total hp
    have hmax : ¬ checkPos fontSize st.lineNumber > maxInt64 := by
      have := checkPos_le_maxInt64 fontSize st.lineNumber
      omega
    by_cases hc : checkPos fontSize st.lineNumber > height
    · simp only [drawOuts, hc, hmax, if_true, if_false]
      refine ⟨?_, fun hf => by simp at hf⟩
      obtain ⟨more, hm⟩ := drawOuts_extends env fontSize maxInt64 rest
        { lineNumber := addInt64 st.lineNumber 1,
          yPos := addInt64 st.yPos (lineHeight fontSize),
          drawn := st.drawn ++ [DrawCall.text out total st.yPos st.lineNumber] }
        (addInt64 total (env.charsWritten out))
      have hfail : (DrawCall.text out total st.yPos st.lineNumber).fails fontSize height
          = true := by
        simp only [DrawCall.fails, decide_eq_true_eq]
        exact hc
      refine ⟨?_, ?_, fun hf => by simp at hf⟩
      · rw [hm]
        show st.drawn ++ [DrawCall.text out total st.yPos st.lineNumber] = _
        rw [List.append_assoc, throughFirstFail_append_pass fontSize height _ _ hp]
        simp only [List.singleton_append, throughFirstFail, hfail, if_true]
      · rw [hm]
        show true = _
        simp only [List.any_append, List.any_cons, hfail, Bool.true_or, Bool.or_true]
    · simp only [drawOuts, hc, hmax, if_false]
      apply ih
      intro c hmem
      simp only [List.mem_append, List.mem_singleton] at hmem
      rcases hmem with hmem | hmem
      · exact hp c hmem
      · subst hmem
        simp only [DrawCall.fails, decide_eq_false_iff_not]
        exact hc

theorem drawLines_cut (env : Env) (fontSize height : Int) :
    ∀ (lines : List (List String)) (st : LayoutState) (total : Int),
      (∀ c ∈ st.drawn, c.fails fontSize height = false) →
      CutOf fontSize height
          ((drawLines env fontSize height lines st total).1,
           (drawLines env fontSize height lines st total).2.2)
          (drawLines env fontSize maxInt64 lines st total).1 := by
  intro lines
  induction lines with
  | nil =>
    intro st total hp
    simp only [drawLines]
    exact cutOf_refl fontSize height st hp
  | cons line rest ih =>
    intro st total hp
    obtain ⟨hcut, htot⟩ := drawOuts_cut env fontSize height line st total hp
    have hu := drawOuts_unchecked env fontSize line st total
    rcases hru : drawOuts env fontSize maxInt64 line st total with ⟨su, tu, bu⟩
    rw [hru] at hcut htot hu
    simp only at hu
    subst hu
    rcases hrc : drawOuts env fontSize height line st total with ⟨sc, tc, bc⟩
    rw [hrc] at hcut htot
    cases bc with
    | true =>
      simp only [drawLines, hrc, hru]
      exact cutOf_extend fontSize height _ _ _ hcut rfl
        (drawLines_extends env fontSize maxInt64 rest su tu)
    | false =>
      obtain ⟨hs, hpass⟩ := cutOf_pass fontSize height _ _ hcut rfl
      have ht := htot rfl
      simp only at hs ht
      subst hs; subst ht
      simp only [drawLines, hrc, hru]
      exact ih sc tc hpass

theorem processParagraph_cut (env : Env) (fontSize width height : Int) (i : Nat)
    (paragraph : String) (rest : List String) (st : LayoutState)
    (hp : ∀ c ∈ st.drawn, c.fails fontSize height = false) :
    CutOf fontSize height (processParagraph env fontSize width height i paragraph rest st)
        (processParagraph env fontSize width maxInt64 i paragraph rest st).1
      ∧ (processParagraph env fontSize width maxInt64 i paragraph rest st).2 = false := by
  unfold processParagraph
  by_cases hb : paragraph = ""
  · subst hb
    simp only [if_true]
    split
    · exact ⟨cutOf_refl fontSize height st hp, by simp⟩
    · exact ⟨cutOf_refl fontSize height _ hp, by simp⟩
  · simp only [hb, if_false]
    have hp0 : ∀ c ∈ (if i = 0 then { st with yPos := 0 } else st).drawn,
        c.fails fontSize height = false := by
      by_cases hi : i = 0
      · simp only [hi, if_true]; exact hp
      · simp only [hi, if_false]; exact hp
    by_cases hm : env.isMediaURL paragraph = true
    · simp only [hm, if_true]
      by_cases hn : env.drawMediaAt paragraph (if i = 0 then { st with yPos := 0 } else st).yPos
          ≠ -1
      · simp only [hn, if_true, ne_eq, not_false_eq_true]
        refine ⟨cutOf_refl fontSize height _ ?_, by simp⟩
        intro c hmem
        simp only [List.mem_append, List.mem_singleton] at hmem
        rcases hmem with hmem | hmem
        · exact hp0 c hmem
        · subst hmem
          rfl
      · simp only [hn, if_false, ne_eq, not_true_eq_false]
        exact ⟨drawLines_cut env fontSize height _ _ 0 hp0,
          drawLines_unchecked env fontSize _ _ 0⟩
    · simp only [hm, if_false]
      exact ⟨drawLines_cut env fontSize height _ _ 0 hp,
        drawLines_unchecked env fontSize _ _ 0⟩

theorem paragraphLoop_cut (env : Env) (fontSize width height : Int) :
    ∀ (paragraphs : List String) (i : Nat) (st : LayoutState),
      (∀ c ∈ st.drawn, c.fails fontSize height = false) →
      CutOf fontSize height (paragraphLoop env fontSize width height i paragraphs st)
        (paragraphLoop env fontSize width maxInt64 i paragraphs st).1 := by
  intro paragraphs
  induction paragraphs with
  | nil =>
    intro i st hp
    simp only [paragraphLoop]
    exact cutOf_refl fontSize height st hp
  | cons par rest ih =>
    intro i st hp
    obtain ⟨hcut, hu⟩ := processParagraph_cut env fontSize width height i par rest st hp
    rcases hru : processParagraph env fontSize width maxInt64 i par rest st with ⟨su, bu⟩
    rw [hru] at hcut hu
    simp only at hu
    subst hu
    rcases hrc : processParagraph env fontSize width height i par rest st with ⟨sc, bc⟩
    rw [hrc] at hcut
    cases bc with
    | true =>
      simp only [paragraphLoop, hrc, hru]
      exact cutOf_extend fontSize height _ _ _ hcut rfl
        (paragraphLoop_extends env fontSize width maxInt64 rest (i + 1) su)
    | false =>
      obtain ⟨hs, hpass⟩ := cutOf_pass fontSize height _ _ hcut rfl
      simp only at hs
      subst hs
      simp only [paragraphLoop, hrc, hru]
      exact ih (i + 1) sc hpass

/-! ## Paragraph layout: what the run without the test draws -/

theorem textOuts_append : ∀ l m : List DrawCall, textOuts (l ++ m) = textOuts l ++ textOuts m := by
  intro l
  induction l with
  | nil => intro m; rfl
  | cons c rest ih =>
    intro m
    cases c with
    | text o t y n =>
      show textOuts (DrawCall.text o t y n :: (rest ++ m)) = _
      simp only [textOuts, ih, List.cons_append]
    | media p y =>
      show textOuts (DrawCall.media p y :: (rest ++ m)) = _
      simp only [textOuts, ih]

theorem drawOuts_textOuts (env : Env) (fontSize : Int) :
    ∀ (outs : List String) (st : LayoutState) (total : Int),
      textOuts (drawOuts env fontSize maxInt64 outs st total).1.drawn
        = textOuts st.drawn ++ outs := by
  intro outs
  induction outs with
  | nil => intro st total; simp [drawOuts]
  | cons out rest ih =>
    intro st total
    have hmax : ¬ checkPos fontSize st.lineNumber > maxInt64 := by
      have := checkPos_le_maxInt64 fontSize st.lineNumber
      omega
    simp only [drawOuts, hmax, if_false]
    rw [ih]
    simp [textOuts_append, textOuts]

theorem drawLines_textOuts (env : Env) (fontSize : Int) :
    ∀ (lines : List (List String)) (st : LayoutState) (total : Int),
      textOuts (drawLines env fontSize maxInt64 lines st total).1.drawn
        = textOuts st.drawn ++ lines.flatten := by
  intro lines
  induction lines with
  | nil => intro st total; simp [drawLines]
  | cons line rest ih =>
    intro st total
    have h1 := drawOuts_textOuts env fontSize line st total
    have hu := drawOuts_unchecked env fontSize line st total
    rcases hru : drawOuts env fontSize maxInt64 line st total with ⟨su, tu, bu⟩
    rw [hru] at h1 hu
    simp only at hu h1
    subst hu
    simp only [drawLines, hru]
    rw [ih, h1]
    simp [List.flatten_cons]

theorem paragraphLoop_textOuts (env : Env) (fontSize width : Int) :
    ∀ (paragraphs : List String) (i : Nat) (st : LayoutState),
      (∀ par ∈ paragraphs, env.isMediaURL par = false) →
      textOuts (paragraphLoop env fontSize width maxInt64 i paragraphs st).1.drawn
        = textOuts st.drawn ++ allRuns env fontSize width paragraphs := by
  intro paragraphs
  induction paragraphs with
  | nil => intro i st _; simp [paragraphLoop, allRuns]
  | cons par rest ih =>
    intro i st hm
    have hrest : ∀ q ∈ rest, env.isMediaURL q = false := fun q hq => hm q (by simp [hq])
    have hpar : env.isMediaURL par = false := hm par (by simp)
    have h1 : (processParagraph env fontSize width maxInt64 i par rest st).2 = false
        ∧ textOuts (processParagraph env fontSize width maxInt64 i par rest st).1.drawn
            = textOuts st.drawn
              ++ (if par = "" then [] else (env.wrap par fontSize width).flatten) := by
      unfold processParagraph
      by_cases hb : par = ""
      · subst hb
        simp only [if_true]
        split
        · simp
        · simp
      · simp only [hb, hpar, if_false, Bool.false_eq_true]
        exact ⟨drawLines_unchecked env fontSize _ _ 0, drawLines_textOuts env fontSize _ _ 0⟩
    rcases hru : processParagraph env fontSize width maxInt64 i par rest st with ⟨su, bu⟩
    rw [hru] at h1
    obtain ⟨hu, ht⟩ := h1
    simp only at hu ht
    subst hu
    simp only [paragraphLoop, hru]
    rw [ih (i + 1) su hrest, ht]
    simp [allRuns]

/-! ## Paragraph layout: one step -/

/-- C10: an empty paragraph draws nothing and never ends the loop; when the
next paragraph exists and is a media URL the cursor is unchanged, otherwise
`yPos` grows by exactly `fontSize*12/10` and `lineNumber` by exactly 1. The
sums are those of Go `int`: they are the exact sums whenever these lie in the
range of `int`, and `fontSize*12/10` is the exact quotient whenever
`fontSize*12` does. -/
theorem blank_paragraph_effect (env : Env) (fontSize width height : Int) (i : Nat)
    (rest : List String) (st : LayoutState) :
    (processParagraph env fontSize width height i "" rest st).2 = false
      ∧ (processParagraph env fontSize width height i "" rest st).1.drawn = st.drawn
      ∧ ((∃ next tail, rest = next :: tail ∧ env.isMediaURL next = true) →
          (processParagraph env fontSize width height i "" rest st).1.yPos = st.yPos
            ∧ (processParagraph env fontSize width height i "" rest st).1.lineNumber
                = st.lineNumber)
      ∧ (¬ (∃ next tail, rest = next :: tail ∧ env.isMediaURL next = true) →
          (processParagraph env fontSize width height i "" rest st).1.yPos
              = addInt64 st.yPos (lineHeight fontSize)
            ∧ (processParagraph env fontSize width height i "" rest st).1.lineNumber
                = addInt64 st.lineNumber 1
            ∧ (inInt64 (st.yPos + lineHeight fontSize) →
                (processParagraph env fontSize width height i "" rest st).1.yPos
                  = st.yPos + lineHeight fontSize)
            ∧ (inInt64 (st.lineNumber + 1) →
                (processParagraph env fontSize width height i "" rest st).1.lineNumber
                  = st.lineNumber + 1))
      ∧ (inInt64 (fontSize * 12) → lineHeight fontSize = Int.tdiv (fontSize * 12) 10)
      ∧ paragraphLoop env fontSize width height i ("" :: rest) st
          = paragraphLoop env fontSize width height (i + 1) rest
              (processParagraph env fontSize width height i "" rest st).1 := by
  have hL : inInt64 (fontSize * 12) → lineHeight fontSize = Int.tdiv (fontSize * 12) 10 := by
    intro h
    unfold lineHeight mulInt64
    rw [wrapInt64_of_inInt64 _ h]
  have hadv : ∀ a b : Int, inInt64 (a + b) → addInt64 a b = a + b :=
    fun a b h => wrapInt64_of_inInt64 _ h
  have hloop : ∀ r : LayoutState × Bool,
      processParagraph env fontSize width height i "" rest st = r → r.2 = false →
      paragraphLoop env fontSize width height i ("" :: rest) st
        = paragraphLoop env fontSize width height (i + 1) rest r.1 := by
    rintro ⟨s1, b⟩ hr hb
    simp only at hb
    subst hb
    simp only [paragraphLoop, hr]
  by_cases hnext : ∃ next tail, rest = next :: tail ∧ env.isMediaURL next = true
  · have hp : processParagraph env fontSize width height i "" rest st = (st, false) := by
      obtain ⟨next, tail, hr, hn⟩ := hnext
      subst hr
      simp [processParagraph, hn]
    refine ⟨by rw [hp], by rw [hp], fun _ => by rw [hp]; exact ⟨rfl, rfl⟩,
      fun h => absurd hnext h, hL, ?_⟩
    rw [hloop _ hp rfl, hp]
  · have hp : processParagraph env fontSize width height i "" rest st
        = ({ st with lineNumber := addInt64 st.lineNumber 1,
                     yPos := addInt64 st.yPos (lineHeight fontSize) }, false) := by
      cases rest with
      | nil => simp [processParagraph]
      | cons next tail =>
        have hn : env.isMediaURL next = false := by
          cases hb : env.isMediaURL next with
          | false => rfl
          | true => exact absurd ⟨next, tail, rfl, hb⟩ hnext
        simp [processParagraph, hn]
    refine ⟨by rw [hp], by rw [hp], fun h => absurd h hnext, fun _ => ?_, hL, ?_⟩
    · rw [hp]
      exact ⟨rfl, rfl, hadv _ _, hadv _ _⟩
    · rw [hloop _ hp rfl, hp]

/-! ## Paragraph layout: the overflow test -/

/-- C6 fails as stated: with font size 25 and height 10 the first line has
`fontSize*1*12/10 = 30 > 10`, and `drawParagraphs` still draws it (at
`yPos` 30) before it returns with overflow. -/
theorem overflowing_line_is_drawn :
    drawParagraphs sampleEnv ["a"] 25 650 10
        = ({ lineNumber := 1, yPos := 30, drawn := [DrawCall.text "a" 0 30 1] }, true)
      ∧ checkPos 25 1 = 30 ∧ Int.tdiv (25 * 1 * 12) 10 > 10 := by
  refine ⟨by rfl, by rfl, by decide⟩

/-- C6 as amended: the test of line 338 follows the draw. Every run that is
reached is drawn whatever the test says (the calls of `drawOuts` begin with
the call for its first run), and the calls `drawParagraphs` makes are those of
the run without the test (the run with `height` the largest `int`, which never
returns with overflow), up to and including the first text run whose line
number `n` has `fontSize*n*12/10 > height`; overflow is returned exactly when
there is such a run, and without one the two runs end in the same state. So
when overflow is returned the last call drew a run that fails the test and
every earlier call passed it, and a drawn run that fails the test is always
the last call. Without media URLs the run without the test draws every run of
every wrapped line of every paragraph that is not blank, in order. -/
theorem overflow_check_follows_draw (env : Env) (paragraphs : List String)
    (fontSize width height : Int) :
    (∀ (st : LayoutState) (out : String) (rest : List String) (total : Int),
        Extends (st.drawn ++ [DrawCall.text out total st.yPos st.lineNumber])
          (drawOuts env fontSize height (out :: rest) st total).1)
      ∧ (drawParagraphs env paragraphs fontSize width maxInt64).2 = false
      ∧ (drawParagraphs env paragraphs fontSize width height).1.drawn
          = throughFirstFail fontSize height
              (drawParagraphs env paragraphs fontSize width maxInt64).1.drawn
      ∧ (drawParagraphs env paragraphs fontSize width height).2
          = (drawParagraphs env paragraphs fontSize width maxInt64).1.drawn.any
              (fun c => c.fails fontSize height)
      ∧ ((drawParagraphs env paragraphs fontSize width height).2 = false →
          (drawParagraphs env paragraphs fontSize width height).1
            = (drawParagraphs env paragraphs fontSize width maxInt64).1)
      ∧ ((drawParagraphs env paragraphs fontSize width height).2 = true →
          ∃ pre out total y n,
            (drawParagraphs env paragraphs fontSize width height).1.drawn
                = pre ++ [DrawCall.text out total y n]
              ∧ checkPos fontSize n > height
              ∧ ∀ o t y' m, DrawCall.text o t y' m ∈ pre → checkPos fontSize m ≤ height)
      ∧ (∀ pre post out total y n,
          (drawParagraphs env paragraphs fontSize width height).1.drawn
              = pre ++ DrawCall.text out total y n :: post →
          checkPos fontSize n > height →
          post = [] ∧ (drawParagraphs env paragraphs fontSize width height).2 = true)
      ∧ ((∀ par ∈ paragraphs, env.isMediaURL par = false) →
          textOuts (drawParagraphs env paragraphs fontSize width maxInt64).1.drawn
            = allRuns env fontSize width paragraphs) := by
  have hout := drawParagraphs_outcome env paragraphs fontSize width height
  have hcut := paragraphLoop_cut env fontSize width height paragraphs 0 (initialState fontSize)
    (by intro c hc; simp [initialState] at hc)
  refine ⟨?_, paragraphLoop_unchecked env fontSize width paragraphs 0 (initialState fontSize),
    hcut.1, hcut.2.1, hcut.2.2, ?_, ?_, ?_⟩
  · intro st out rest total
    by_cases hc : checkPos fontSize st.lineNumber > height
    · simp only [drawOuts, hc, if_true]
      exact ⟨[], by simp⟩
    · simp only [drawOuts, hc, if_false]
      exact drawOuts_extends env fontSize height rest _ _
  · intro hov
    obtain ⟨pre, out, total, y, n, hd, hpre, hn⟩ := hout.2 hov
    exact ⟨pre, out, total, y, n, hd, hn, fun o t y' m hmem => hpre _ hmem⟩
  · intro pre post out total y n hd hn
    cases hb : (drawParagraphs env paragraphs fontSize width height).2 with
    | false =>
      have hs : checkPos fontSize n ≤ height :=
        hout.1 hb (DrawCall.text out total y n) (by rw [hd]; simp)
      omega
    | true =>
      obtain ⟨pre', out', total', y', n', hd', hpre', _⟩ := hout.2 hb
      refine ⟨?_, rfl⟩
      rcases List.eq_nil_or_concat post with hp | ⟨front, last, hp⟩
      · exact hp
      · exfalso
        rw [hd, hp] at hd'
        have he : (pre ++ DrawCall.text out total y n :: front) ++ [last]
            = pre' ++ [DrawCall.text out' total' y' n'] := by
          rw [← hd']; simp
        have hpre_eq := (List.append_inj' he rfl).1
        have hs : checkPos fontSize n ≤ height :=
          hpre' (DrawCall.text out total y n) (by rw [← hpre_eq]; simp)
        omega
  · intro hm
    have h := paragraphLoop_textOuts env fontSize width paragraphs 0 (initialState fontSize) hm
    simpa [initialState, textOuts] using h

/-- Witness for C6 as amended: at font size 25 and height 40 the run without
the test draws three lines, and the run with the test is cut after the second,
the first whose line number fails the test (`25*2*12/10 = 60 > 40`). -/
theorem overflow_check_follows_draw_witness :
    (drawParagraphs sampleEnv ["a", "b", "c"] 25 650 maxInt64).1.drawn
        = [DrawCall.text "a" 0 30 1, DrawCall.text "b" 0 60 2, DrawCall.text "c" 0 90 3]
      ∧ (drawParagraphs sampleEnv ["a", "b", "c"] 25 650 40).1.drawn
          = throughFirstFail 25 40
              (drawParagraphs sampleEnv ["a", "b", "c"] 25 650 maxInt64).1.drawn
      ∧ (drawParagraphs sampleEnv ["a", "b", "c"] 25 650 40).1.drawn
          = [DrawCall.text "a" 0 30 1, DrawCall.text "b" 0 60 2]
      ∧ (drawParagraphs sampleEnv ["a", "b", "c"] 25 650 40).2 = true :=
  ⟨by rfl, (overflow_check_follows_draw sampleEnv ["a", "b", "c"] 25 650 40).2.2.1, by rfl,
   by rfl⟩

/-- C8 fails as stated, in both directions: after a picture 600 high a line is
drawn at `yPos` 600 in a region 435 high and no overflow is returned; with
font size 18 and height 106 the fifth line is drawn at `yPos` 105, no call
exceeds 106, and overflow is returned (`18*5*12/10 = 108`); and at font size
800000000000000000, where `fontSize*12` leaves the range of `int`, two lines
are drawn at negative positions and overflow is returned. -/
theorem overflow_not_iff_yPos :
    (drawParagraphs sampleEnv ["http://pic", "b"] 25 650 435
        = ({ lineNumber := 2, yPos := 630,
             drawn := [DrawCall.media "http://pic" 0, DrawCall.text "b" 0 600 1] }, false)
      ∧ (600 : Int) > 435)
      ∧ ((drawParagraphs sampleEnv ["a", "b", "c", "d", "e", "f"] 18 650 106).2 = true
      ∧ ∀ c ∈ (drawParagraphs sampleEnv ["a", "b", "c", "d", "e", "f"] 18 650 106).1.drawn,
          c.yPos ≤ 106)
      ∧ drawParagraphs sampleEnv ["a", "b", "c"] 800000000000000000 650 435
          = ({ lineNumber := 2, yPos := -1769348814741910322,
               drawn := [DrawCall.text "a" 0 (-884674407370955161) 1,
                         DrawCall.text "b" 0 (-1769348814741910322) 2] }, true) := by
  refine ⟨⟨by rfl, by decide⟩, ⟨by rfl, ?_⟩, by rfl⟩
  have h : (drawParagraphs sampleEnv ["a", "b", "c", "d", "e", "f"] 18 650 106).1.drawn
      = [DrawCall.text "a" 0 21 1, DrawCall.text "b" 0 42 2, DrawCall.text "c" 0 63 3,
         DrawCall.text "d" 0 84 4, DrawCall.text "e" 0 105 5] := by rfl
  rw [h]
  decide

/-- C8 as amended: `drawParagraphs` returns overflow exactly when some text
run it drew has a line number `n` with `fontSize*n*12/10 > height`. For
paragraphs without a media URL, `fontSize ≥ 0` and
`fontSize*12*(lines+1)` within the range of `int` (`lines` the number of blank
paragraphs and wrapped runs), the quotients are exact, every run is drawn at
`yPos = n * (fontSize*12/10)`, which is at most `fontSize*n*12/10`, so a run
drawn at a `yPos` beyond `height` forces overflow; and when `fontSize` is also
a multiple of 5 overflow is returned exactly when some run was drawn at a
`yPos` beyond `height`. -/
theorem overflow_iff_line_number (env : Env) (paragraphs : List String)
    (fontSize width height : Int) :
    ((drawParagraphs env paragraphs fontSize width height).2 = true ↔
        ∃ out total y n,
          DrawCall.text out total y n
              ∈ (drawParagraphs env paragraphs fontSize width height).1.drawn
            ∧ checkPos fontSize n > height)
      ∧ ((∀ par ∈ paragraphs, env.isMediaURL par = false) → 0 ≤ fontSize →
          fontSize * 12 * ((lineBudget env fontSize width paragraphs : Int) + 1) ≤ maxInt64 →
          lineHeight fontSize = Int.tdiv (fontSize * 12) 10
          ∧ (∀ out total y n,
              DrawCall.text out total y n
                ∈ (drawParagraphs env paragraphs fontSize width height).1.drawn →
              y = n * lineHeight fontSize
                ∧ checkPos fontSize n = Int.tdiv (fontSize * n * 12) 10
                ∧ y ≤ checkPos fontSize n)
          ∧ ((∃ out total y n,
              DrawCall.text out total y n
                  ∈ (drawParagraphs env paragraphs fontSize width height).1.drawn
                ∧ y > height) →
              (drawParagraphs env paragraphs fontSize width height).2 = true)
          ∧ (5 ∣ fontSize →
              ((drawParagraphs env paragraphs fontSize width height).2 = true ↔
                ∃ out total y n,
                  DrawCall.text out total y n
                      ∈ (drawParagraphs env paragraphs fontSize width height).1.drawn
                    ∧ y > height))) := by
  have hout := drawParagraphs_outcome env paragraphs fontSize width height
  have hiff : (drawParagraphs env paragraphs fontSize width height).2 = true ↔
      ∃ out total y n,
        DrawCall.text out total y n
            ∈ (drawParagraphs env paragraphs fontSize width height).1.drawn
          ∧ checkPos fontSize n > height := by
    constructor
    · intro hov
      obtain ⟨pre, out, total, y, n, hd, _, hn⟩ := hout.2 hov
      exact ⟨out, total, y, n, by rw [hd]; simp, hn⟩
    · rintro ⟨out, total, y, n, hmem, hn⟩
      cases hb : (drawParagraphs env paragraphs fontSize width height).2 with
      | true => rfl
      | false =>
        have hs : checkPos fontSize n ≤ height := hout.1 hb _ hmem
        omega
  refine ⟨hiff, ?_⟩
  intro hm hf hfit
  have hgrid := (drawParagraphs_onGrid env paragraphs fontSize width height hf hm hfit).2
  have hK : (0 : Int) ≤ (lineBudget env fontSize width paragraphs : Int) := Int.ofNat_nonneg _
  refine ⟨(grid_point fontSize 1 _ hf hfit (by omega) (by omega)).1, ?_, ?_, ?_⟩
  · intro out total y n hmem
    obtain ⟨h1, h2, h3, h4⟩ := hgrid out total y n hmem
    exact ⟨h1, h4, h2⟩
  · rintro ⟨out, total, y, n, hmem, hy⟩
    obtain ⟨_, hle, _⟩ := hgrid out total y n hmem
    exact hiff.2 ⟨out, total, y, n, hmem, by omega⟩
  · intro h5
    rw [hiff]
    constructor
    · rintro ⟨out, total, y, n, hmem, hn⟩
      obtain ⟨_, _, he, _⟩ := hgrid out total y n hmem
      exact ⟨out, total, y, n, hmem, by rw [← he h5]; exact hn⟩
    · rintro ⟨out, total, y, n, hmem, hy⟩
      obtain ⟨_, _, he, _⟩ := hgrid out total y n hmem
      exact ⟨out, total, y, n, hmem, by rw [he h5]; exact hy⟩

/-- Witness for C8 as amended: two text paragraphs at size 25 in a region 40
high; the second line is drawn at `yPos` 60, so overflow is returned. -/
theorem overflow_iff_line_number_witness :
    (∀ par ∈ ["a", "b"], sampleEnv.isMediaURL par = false) ∧ (5 : Int) ∣ 25
      ∧ (25 : Int) * 12 * ((lineBudget sampleEnv 25 650 ["a", "b"] : Int) + 1) ≤ maxInt64
      ∧ (drawParagraphs sampleEnv ["a", "b"] 25 650 40).2 = true :=
  ⟨by decide, ⟨5, rfl⟩, by decide,
   (((overflow_iff_line_number sampleEnv ["a", "b"] 25 650 40).2 (by decide) (by decide)
      (by decide)).2.2.2 ⟨5, rfl⟩).2 ⟨"b", 0, 60, 2, by decide, by decide⟩⟩

/-! ## Paragraph layout: how far below the region a line is drawn -/

/-- C7 fails as stated: after a picture 600 high the next line is drawn at
`yPos` 600 in a region 435 high, and after one blank paragraph a line is
drawn at `yPos` 90 in a region 30 high; the line height is 30 in both. The
bound also fails for a negative height, where the first line is still drawn,
and at font size `2^61`, where `fontSize*12` leaves the range of `int`: of
eleven text paragraphs in a region 435 high the last is drawn at `yPos`
8301034833169298236 and no overflow is returned. -/
theorem drawn_line_beyond_one_line_height :
    ((drawParagraphs sampleEnv ["http://pic", "b"] 25 650 435).1.drawn
        = [DrawCall.media "http://pic" 0, DrawCall.text "b" 0 600 1]
      ∧ (600 : Int) > 435 + lineHeight 25)
      ∧ ((drawParagraphs sampleEnv ["a", "", "b"] 25 650 30).1.drawn
        = [DrawCall.text "a" 0 30 1, DrawCall.text "b" 0 90 3]
      ∧ (90 : Int) > 30 + lineHeight 25)
      ∧ ((drawParagraphs sampleEnv ["a"] 25 650 (-100)).1.drawn = [DrawCall.text "a" 0 30 1]
      ∧ (30 : Int) > -100 + lineHeight 25)
      ∧ (DrawCall.text "k" 0 8301034833169298236 11
          ∈ (drawParagraphs sampleEnv ["a", "b", "c", "d", "e", "f", "g", "h", "i", "j", "k"]
              2305843009213693952 650 435).1.drawn
      ∧ (drawParagraphs sampleEnv ["a", "b", "c", "d", "e", "f", "g", "h", "i", "j", "k"]
              2305843009213693952 650 435).2 = false
      ∧ (8301034833169298236 : Int) > 435 + lineHeight 2305843009213693952) := by
  refine ⟨⟨by rfl, by decide⟩, ⟨by rfl, by decide⟩, ⟨by rfl, by decide⟩, by decide, by rfl,
    by decide⟩

theorem processParagraph_append (env : Env) (fontSize width height : Int) (i : Nat)
    (paragraph : String) (rest extra : List String) (st : LayoutState)
    (h : paragraph ≠ "" ∨ rest ≠ []) :
    processParagraph env fontSize width height i paragraph (rest ++ extra) st
      = processParagraph env fontSize width height i paragraph rest st := by
  by_cases hp : paragraph = ""
  · cases rest with
    | nil => simp [hp] at h
    | cons next tail => simp [processParagraph, hp]
  · simp [processParagraph, hp]

theorem paragraphLoop_append_of_overflow (env : Env) (fontSize width height : Int) :
    ∀ (paragraphs : List String) (i : Nat) (st : LayoutState) (extra : List String),
      (paragraphLoop env fontSize width height i paragraphs st).2 = true →
      paragraphLoop env fontSize width height i (paragraphs ++ extra) st
        = paragraphLoop env fontSize width height i paragraphs st := by
  intro paragraphs
  induction paragraphs with
  | nil =>
    intro i st extra hov
    simp [paragraphLoop] at hov
  | cons par rest ih =>
    intro i st extra hov
    by_cases h : par ≠ "" ∨ rest ≠ []
    · have hpp := processParagraph_append env fontSize width height i par rest extra st h
      rcases hr : processParagraph env fontSize width height i par rest st with ⟨st1, b⟩
      rw [hr] at hpp
      cases b with
      | true =>
        show paragraphLoop env fontSize width height i (par :: (rest ++ extra)) st = _
        simp only [paragraphLoop, hpp, hr]
      | false =>
        simp only [paragraphLoop, hr] at hov
        show paragraphLoop env fontSize width height i (par :: (rest ++ extra)) st = _
        simp only [paragraphLoop, hpp, hr]
        exact ih (i + 1) st1 extra hov
    · have hp : par = "" := by
        by_contra hne
        exact h (Or.inl hne)
      have hrest : rest = [] := by
        by_contra hne
        exact h (Or.inr hne)
      subst hp; subst hrest
      simp [paragraphLoop, processParagraph] at hov

/-- C7 as amended: once `drawParagraphs` returns with overflow nothing after
that point is processed (paragraphs appended to the sequence change neither
the drawing nor the flag), for every mix of paragraphs; and when no paragraph
is blank or a media URL, `height ≥ 0`, `fontSize ≥ 0` and
`fontSize*12*(lines+1)` is within the range of `int` (`lines` the number of
wrapped runs), the line height is the exact quotient `fontSize*12/10` and
every text run is drawn at a `yPos` of at most `height + fontSize*12/10`. -/
theorem drawn_lines_within_one_line_height (env : Env) (paragraphs : List String)
    (fontSize width height : Int) :
    (∀ extra : List String,
        (drawParagraphs env paragraphs fontSize width height).2 = true →
        drawParagraphs env (paragraphs ++ extra) fontSize width height
          = drawParagraphs env paragraphs fontSize width height)
      ∧ ((∀ par ∈ paragraphs, par ≠ "" ∧ env.isMediaURL par = false) → 0 ≤ height →
          0 ≤ fontSize →
          fontSize * 12 * ((lineBudget env fontSize width paragraphs : Int) + 1) ≤ maxInt64 →
          lineHeight fontSize = Int.tdiv (fontSize * 12) 10
          ∧ ∀ out total y n,
            DrawCall.text out total y n
              ∈ (drawParagraphs env paragraphs fontSize width height).1.drawn →
            y ≤ height + lineHeight fontSize) := by
  constructor
  · intro extra hov
    exact paragraphLoop_append_of_overflow env fontSize width height paragraphs 0
      (initialState fontSize) extra hov
  · intro hall hh hf hfit
    have hK : (0 : Int) ≤ (lineBudget env fontSize width paragraphs : Int) :=
      Int.ofNat_nonneg _
    exact ⟨(grid_point fontSize 1 _ hf hfit (by omega) (by omega)).1,
      drawParagraphs_within env paragraphs fontSize width height hh hf hall hfit⟩

/-- Witness for C7 as amended: three text paragraphs at size 25 in a region
40 high overflow at the second line, drawn at `yPos` 60, within `40 + 30`. -/
theorem drawn_lines_within_one_line_height_witness :
    (drawParagraphs sampleEnv ["a", "b", "c"] 25 650 40).1.drawn
        = [DrawCall.text "a" 0 30 1, DrawCall.text "b" 0 60 2]
      ∧ (25 : Int) * 12 * ((lineBudget sampleEnv 25 650 ["a", "b", "c"] : Int) + 1) ≤ maxInt64
      ∧ (60 : Int) ≤ 40 + lineHeight 25
      ∧ drawParagraphs sampleEnv (["a", "b"] ++ ["c", "d"]) 25 650 40
          = drawParagraphs sampleEnv ["a", "b"] 25 650 40 :=
  ⟨by rfl, by decide,
   ((drawn_lines_within_one_line_height sampleEnv ["a", "b", "c"] 25 650 40).2
      (by decide) (by decide) (by decide) (by decide)).2 "b" 0 60 2 (by decide),
   (drawn_lines_within_one_line_height sampleEnv ["a", "b"] 25 650 40).1 ["c", "d"] (by rfl)⟩

/-! ## Paragraph layout: a media paragraph that cannot be drawn -/

theorem failed_media_later (env : Env) (fontSize width height : Int) (i : Nat)
    (paragraph : String) (rest : List String) (st : LayoutState)
    (hp : paragraph ≠ "") (hm : env.isMediaURL paragraph = true) (hi : i ≠ 0)
    (hf : env.drawMediaAt paragraph st.yPos = -1) :
    processParagraph env fontSize width height i paragraph rest st
      = drawText env fontSize width height paragraph st := by
  simp [processParagraph, hp, hm, hi, hf]

theorem failed_media_first (env : Env) (fontSize width height : Int)
    (paragraph : String) (rest : List String) (st : LayoutState)
    (hp : paragraph ≠ "") (hm : env.isMediaURL paragraph = true)
    (hf : env.drawMediaAt paragraph 0 = -1) :
    processParagraph env fontSize width height 0 paragraph rest st
      = drawText env fontSize width height paragraph { st with yPos := 0 } := by
  simp [processParagraph, hp, hm, hf]

/-- C9 at its failing input: a first paragraph that is a media URL whose
drawing fails. The text of the paragraph is drawn at `yPos` 0 and the cursor
ends at `yPos` 30, while the text path from the same starting cursor draws it
at `yPos` 30 and ends at `yPos` 60: the assignment `yPos = 0` made for the
first paragraph before the attempt is not undone when the attempt fails. -/
theorem failed_first_media_keeps_reset :
    sampleEnv.isMediaURL "http://pic!" = true
      ∧ sampleEnv.drawMediaAt "http://pic!" 0 = -1
      ∧ processParagraph sampleEnv 25 650 435 0 "http://pic!" [] (initialState 25)
          = ({ lineNumber := 2, yPos := 30,
               drawn := [DrawCall.text "http://pic!" 0 0 1] }, false)
      ∧ drawText sampleEnv 25 650 435 "http://pic!" (initialState 25)
          = ({ lineNumber := 2, yPos := 60,
               drawn := [DrawCall.text "http://pic!" 0 30 1] }, false) := by
  refine ⟨by decide, by decide, by rfl, by rfl⟩

/-! ## Paragraph layout: the cursor stays on the grid of line heights -/

/-- C21 fails as stated: at font size `3*2^60`, which is not negative, and
without media, the product `fontSize*2*12` leaves the range of `int`. After a
blank paragraph the line of the second paragraph is drawn at `yPos`
922337203685477580, twice the line height, while the quantity
`fontSize*2*12/10` compared with the height is -922337203685477580. -/
theorem cursor_beyond_tested_quantity :
    (0 : Int) ≤ 3458764513820540928
      ∧ (∀ par ∈ ["", "b"], sampleEnv.isMediaURL par = false)
      ∧ drawParagraphs sampleEnv ["", "b"] 3458764513820540928 650 435
          = ({ lineNumber := 3, yPos := 1383505805528216370,
               drawn := [DrawCall.text "b" 0 922337203685477580 2] }, false)
      ∧ lineHeight 3458764513820540928 = 461168601842738790
      ∧ checkPos 3458764513820540928 2 = -922337203685477580
      ∧ ¬ ((922337203685477580 : Int) ≤ checkPos 3458764513820540928 2) := by
  refine ⟨by decide, by decide, by rfl, by rfl, by rfl, by decide⟩

/-- C21 as amended: in `drawParagraphs` with `fontSize ≥ 0`, no media URL
among the paragraphs and `fontSize*12*(lines+1)` within the range of `int`
(`lines` the number of blank paragraphs and wrapped runs), the line height and
the tested quantity are the exact quotients, the cursor has
`yPos = lineNumber * (fontSize*12/10)` at the start of every paragraph and at
every line draw, hence `yPos ≤ fontSize*lineNumber*12/10`, the quantity
compared with the height; a drawn line that passes the test, and a blank
paragraph, advance `yPos` by `fontSize*12/10` and `lineNumber` by 1. -/
theorem cursor_on_grid (env : Env) (paragraphs : List String) (fontSize width height : Int)
    (hf : 0 ≤ fontSize) (hm : ∀ par ∈ paragraphs, env.isMediaURL par = false)
    (hfit : fontSize * 12 * ((lineBudget env fontSize width paragraphs : Int) + 1)
      ≤ maxInt64) :
    lineHeight fontSize = Int.tdiv (fontSize * 12) 10
      ∧ (∀ n : Int, 0 ≤ n → n ≤ (lineBudget env fontSize width paragraphs : Int) + 1 →
          checkPos fontSize n = Int.tdiv (fontSize * n * 12) 10)
      ∧ (∀ st ∈ paragraphStarts env fontSize width height 0 paragraphs (initialState fontSize),
          st.yPos = st.lineNumber * lineHeight fontSize
            ∧ st.yPos ≤ checkPos fontSize st.lineNumber)
      ∧ (∀ out total y n,
          DrawCall.text out total y n
            ∈ (drawParagraphs env paragraphs fontSize width height).1.drawn →
          y = n * lineHeight fontSize ∧ y ≤ checkPos fontSize n)
      ∧ (∀ (st : LayoutState) (out : String) (total : Int),
          ¬ checkPos fontSize st.lineNumber > height →
          (drawOuts env fontSize height [out] st total).1.yPos
              = addInt64 st.yPos (lineHeight fontSize)
            ∧ (drawOuts env fontSize height [out] st total).1.lineNumber
                = addInt64 st.lineNumber 1)
      ∧ (∀ (i : Nat) (rest : List String) (st : LayoutState),
          (∀ par ∈ rest, env.isMediaURL par = false) →
          (processParagraph env fontSize width height i "" rest st).1.yPos
              = addInt64 st.yPos (lineHeight fontSize)
            ∧ (processParagraph env fontSize width height i "" rest st).1.lineNumber
                = addInt64 st.lineNumber 1) := by
  have hK : (0 : Int) ≤ (lineBudget env fontSize width paragraphs : Int) := Int.ofNat_nonneg _
  obtain ⟨hstarts, hdrawn⟩ :=
    drawParagraphs_onGrid env paragraphs fontSize width height hf hm hfit
  refine ⟨(grid_point fontSize 1 _ hf hfit (by omega) (by omega)).1, ?_, hstarts, ?_, ?_, ?_⟩
  · intro n h0 hn
    exact (grid_point fontSize n _ hf hfit h0 hn).2.1
  · intro out total y n hmem
    obtain ⟨h1, h2, _⟩ := hdrawn out total y n hmem
    exact ⟨h1, h2⟩
  · intro st out total hc
    simp [drawOuts, hc]
  · intro i rest st hrest
    cases rest with
    | nil => simp [processParagraph]
    | cons next tail =>
      have hn : env.isMediaURL next = false := hrest next (by simp)
      simp [processParagraph, hn]

/-- Witness for C21 as amended: four paragraphs, one of them blank, at size 18
in a region 100 high; the cursor starts the paragraphs at `yPos` 21, 42, 63,
84. -/
theorem cursor_on_grid_witness :
    (paragraphStarts sampleEnv 18 650 100 0 ["a", "", "b", "c"] (initialState 18)).map
        (fun st => (st.lineNumber, st.yPos))
      = [(1, 21), (2, 42), (3, 63), (4, 84)]
      ∧ (18 : Int) * 12 * ((lineBudget sampleEnv 18 650 ["a", "", "b", "c"] : Int) + 1)
          ≤ maxInt64
      ∧ ∀ st ∈ paragraphStarts sampleEnv 18 650 100 0 ["a", "", "b", "c"] (initialState 18),
          st.yPos = st.lineNumber * lineHeight 18
            ∧ st.yPos ≤ checkPos 18 st.lineNumber :=
  ⟨by rfl, by decide,
   (cursor_on_grid sampleEnv ["a", "", "b", "c"] 18 650 100 (by decide) (by decide)
      (by decide)).2.2.1⟩

/-! ## Style profile -/

/-- C11: for the Facebook style `drawImage` uses width 700, height
`700*355/680 = 365`, left padding 180, bar scale 0.55 and bar height 38, the
default bar height 70 scaled by the bar scale and truncated, which is
strictly smaller than the default bar height. -/
theorem facebook_geometry :
    (styleGeometry Style.Facebook).width = 700
      ∧ (styleGeometry Style.Facebook).height
          = Int.tdiv ((styleGeometry Style.Facebook).width * 355) 680
      ∧ (styleGeometry Style.Facebook).height = 365
      ∧ (styleGeometry Style.Facebook).paddingLeft = 180
      ∧ (styleGeometry Style.Facebook).barScaleHundredths = 55
      ∧ (styleGeometry Style.Facebook).barHeight = 38
      ∧ (styleGeometry Style.Default).barHeight = 70
      ∧ (styleGeometry Style.Facebook).barHeight < (styleGeometry Style.Default).barHeight
      ∧ (styleGeometry Style.Facebook).barHeight
          = Int.tdiv ((styleGeometry Style.Default).barHeight
              * (styleGeometry Style.Facebook).barScaleHundredths) 100 := by
  refine ⟨by rfl, by rfl, by rfl, by rfl, by rfl, by rfl, by rfl, by decide, by rfl⟩

/-- C12: for every style, recognised or not, the geometry of `drawImage` has
a positive height and bar height with the bar lower than the canvas, and the
text region handed to `drawParagraphs` has positive width and height; a value
that is none of Telegram, Twitter and Facebook gets 700x525, padding 25 and
bar height 70. -/
theorem geometry_positive (ops : FloatOps) (env : Env) (paragraphs : List String)
    (style : Style) :
    0 < (styleGeometry style).height
      ∧ 0 < (styleGeometry style).barHeight
      ∧ (styleGeometry style).barHeight < (styleGeometry style).height
      ∧ 0 < (drawImage ops env paragraphs style).width
      ∧ 0 < (drawImage ops env paragraphs style).height
      ∧ (drawImage ops env paragraphs style).width
          = (styleGeometry style).width - 2 * (styleGeometry style).paddingLeft
      ∧ (drawImage ops env paragraphs style).height
          = (styleGeometry style).height - 20 - (styleGeometry style).barHeight
      ∧ (∀ tag : Nat,
          (styleGeometry (Style.Unrecognised tag)).width = 700
            ∧ (styleGeometry (Style.Unrecognised tag)).height = 525
            ∧ (styleGeometry (Style.Unrecognised tag)).paddingLeft = 25
            ∧ (styleGeometry (Style.Unrecognised tag)).barHeight = 70
            ∧ styleGeometry (Style.Unrecognised tag) = styleGeometry Style.Default) := by
  refine ⟨?_, ?_, ?_, ?_, ?_, ?_, ?_, ?_⟩
  · cases style <;> simp [styleGeometry]
    all_goals decide
  · cases style <;> simp [styleGeometry]
    all_goals decide
  · cases style <;> simp [styleGeometry]
    all_goals decide
  · cases style <;> simp [drawImage, styleGeometry]
  · cases style <;> simp [drawImage, styleGeometry]
    all_goals decide
  · simp only [drawImage]; ring
  · simp only [drawImage]
  · intro tag
    exact ⟨rfl, rfl, rfl, rfl, rfl⟩

/-! ## Structured card: detail rows -/

/-- C13: when `golfData.Date` is not empty the date row of the scorecard is
`Date: ` followed by that date, whatever the time stamp of the event; when it
is empty the row is built from the formatted time stamp. -/
theorem dateText_prefers_tag (golfData : Kind1501Metadata) (shortName formattedDate : String) :
    (golfData.Date ≠ "" →
        (drawGolfScorecardImage golfData shortName formattedDate).dateText
            = "Date: " ++ golfData.Date
          ∧ ∀ otherDate : String,
              (drawGolfScorecardImage golfData shortName otherDate).dateText
                = (drawGolfScorecardImage golfData shortName formattedDate).dateText)
      ∧ (golfData.Date = "" →
        (drawGolfScorecardImage golfData shortName formattedDate).dateText
          = "Date: " ++ formattedDate) := by
  constructor
  · intro h
    simp [drawGolfScorecardImage, h]
  · intro h
    simp [drawGolfScorecardImage, h]

/-- C14: the subtitle of the scorecard is `golfData.CourseName` when that is
not empty and the placeholder `Golf Course` when it is, so it is never the
empty string. -/
theorem courseName_fallback (golfData : Kind1501Metadata) (shortName formattedDate : String) :
    (golfData.CourseName ≠ "" →
        (drawGolfScorecardImage golfData shortName formattedDate).courseName
          = golfData.CourseName)
      ∧ (golfData.CourseName = "" →
        (drawGolfScorecardImage golfData shortName formattedDate).courseName = "Golf Course")
      ∧ (drawGolfScorecardImage golfData shortName formattedDate).courseName ≠ "" := by
  by_cases h : golfData.CourseName = ""
  · simp [drawGolfScorecardImage, h]
  · simp [drawGolfScorecardImage, h]

/-! ## Request path: fake extensions -/

theorem trimSuffix_append (c ext : String) : trimSuffix (c ++ ext) ext = c := by
  have hs : hasSuffix (c ++ ext) ext = true := by
    unfold hasSuffix
    rw [List.isSuffixOf_iff_suffix, String.data_append]
    exact List.suffix_append _ _
  unfold trimSuffix
  rw [if_pos hs]
  apply String.ext
  simp [String.data_append]

theorem trimSuffix_of_not_hasSuffix (s suffix : String) (h : hasSuffix s suffix = false) :
    trimSuffix s suffix = s := by
  unfold trimSuffix
  simp [h]

theorem not_hasSuffix_append (c ext other : String) (hlen : other.data.length ≤ ext.data.length)
    (hne : ¬ other.data <:+ ext.data) : hasSuffix (c ++ ext) other = false := by
  cases h : hasSuffix (c ++ ext) other with
  | false => rfl
  | true =>
    exfalso
    unfold hasSuffix at h
    rw [List.isSuffixOf_iff_suffix, String.data_append] at h
    exact hne (List.suffix_of_suffix_length_le h (List.suffix_append _ _) hlen)

/-- C15: for a content reference `c` that does not itself end in `.png`,
`.jpg` or `.jpeg`, the three successive suffix trims of `renderImage` turn
`c` followed by any one of the three extensions back into `c`, and leave `c`
itself unchanged. -/
theorem trimExtensions_strips (c : String) (hpng : hasSuffix c ".png" = false)
    (hjpg : hasSuffix c ".jpg" = false) (hjpeg : hasSuffix c ".jpeg" = false) :
    (∀ ext ∈ [".png", ".jpg", ".jpeg"], trimExtensions (c ++ ext) = c)
      ∧ trimExtensions c = c := by
  have hc : trimExtensions c = c := by
    simp [trimExtensions, trimSuffix_of_not_hasSuffix, hpng, hjpg, hjpeg]
  refine ⟨?_, hc⟩
  intro ext hext
  simp only [List.mem_cons, List.mem_singleton, List.not_mem_nil, or_false] at hext
  rcases hext with h | h | h
  · subst h
    simp [trimExtensions, trimSuffix_append, trimSuffix_of_not_hasSuffix, hjpg, hjpeg]
  · subst h
    have h1 : hasSuffix (c ++ ".jpg") ".png" = false :=
      not_hasSuffix_append c ".jpg" ".png" (by decide) (by decide)
    simp [trimExtensions, trimSuffix_append, trimSuffix_of_not_hasSuffix, h1, hjpeg]
  · subst h
    have h1 : hasSuffix (c ++ ".jpeg") ".png" = false :=
      not_hasSuffix_append c ".jpeg" ".png" (by decide) (by decide)
    have h2 : hasSuffix (c ++ ".jpeg") ".jpg" = false :=
      not_hasSuffix_append c ".jpeg" ".jpg" (by decide) (by decide)
    simp [trimExtensions, trimSuffix_append, trimSuffix_of_not_hasSuffix, h1, h2]

/-- Witness for C15: the reference `nevent1abc` with and without `.jpeg`. -/
theorem trimExtensions_strips_witness :
    trimExtensions ("nevent1abc" ++ ".jpeg") = "nevent1abc"
      ∧ trimExtensions "nevent1abc" = "nevent1abc" :=
  ⟨(trimExtensions_strips "nevent1abc" (by decide) (by decide) (by decide)).1 ".jpeg"
      (by simp),
   (trimExtensions_strips "nevent1abc" (by decide) (by decide) (by decide)).2⟩

/-! ## Golf round metadata: total par -/

/-- C16 at its failing input: a course snapshot whose `holes` array lists
hole 1 two times, with par 4 and then par 5. `HolePars` keeps the later par,
`[5, 0]` with sum 5, while `TotalPar` has added both and is 9. -/
theorem totalPar_counts_repeated_hole :
    (grabData repeatedHoleUnmarshal { Kind := 1501, Content := "twice", Tags := [] }).map
        (Option.map (fun md => (md.HoleCount, md.HolePars, md.TotalPar)))
      = some (some (2, [5, 0], 9))
      ∧ ([5, 0] : List Int).sum ≠ 9 := by
  constructor
  · rfl
  · decide

/-! ## Round page: hole scores of one event -/

theorem scoreTagLoop_cons (holeCount : Int) (tag : List String) (rest : List (List String))
    (scores : List Int) (total : Int) :
    scoreTagLoop holeCount (tag :: rest) (scores, total)
      = match scoreTagEntry holeCount tag with
        | none => scoreTagLoop holeCount rest (scores, total)
        | some (hole, score) =>
          match setAt scores (hole - 1) score with
          | none => none
          | some scores1 => scoreTagLoop holeCount rest (scores1, addInt64 total score) := by
  unfold scoreTagEntry
  rw [scoreTagLoop]
  by_cases ht : 3 ≤ tag.length ∧ tag.head? = some "score"
  · simp only [ht, and_self, if_true]
    cases h1 : atoi (tag.getD 1 "") with
    | none => simp
    | some hole =>
      cases h2 : atoi (tag.getD 2 "") with
      | none =>
        by_cases hr : hole < 1 ∨ hole > holeCount
        · simp [hr]
        · simp [hr]
      | some score =>
        by_cases hr : hole < 1 ∨ hole > holeCount
        · have hr' : ¬ (1 ≤ hole ∧ hole ≤ holeCount) := by omega
          simp [hr, hr']
        · have hr' : 1 ≤ hole ∧ hole ≤ holeCount := by omega
          simp [hr, hr']
  · simp only [ht, if_false]

theorem scoreTagEntry_range (holeCount : Int) (tag : List String) (hole score : Int)
    (h : scoreTagEntry holeCount tag = some (hole, score)) : 1 ≤ hole ∧ hole ≤ holeCount := by
  unfold scoreTagEntry at h
  split at h
  · split at h
    · split at h
      · simp only [Option.some.injEq, Prod.mk.injEq] at h
        omega
      · simp at h
    · simp at h
  · simp at h

theorem lastScoreFor_cons_none (holeCount : Int) (tag : List String)
    (rest : List (List String)) (h : Int) (hn : scoreTagEntry holeCount tag = none) :
    lastScoreFor holeCount (tag :: rest) h = lastScoreFor holeCount rest h := by
  simp [lastScoreFor, List.filterMap_cons, hn]

theorem lastScoreFor_cons_some (holeCount : Int) (tag : List String)
    (rest : List (List String)) (h hole score : Int)
    (hs : scoreTagEntry holeCount tag = some (hole, score)) :
    lastScoreFor holeCount (tag :: rest) h
      = match lastScoreFor holeCount rest h with
        | some s => some s
        | none => if hole = h then some score else none := by
  simp only [lastScoreFor, List.filterMap_cons, hs]
  generalize List.filterMap (scoreTagEntry holeCount) rest = es
  by_cases hh : hole = h
  · simp only [List.filter_cons, hh, decide_True, if_true, List.getLast?_cons]
    generalize (List.filter (fun e => decide (e.1 = h)) es).getLast? = last
    cases last <;> simp
  · have hf : (false = true) = False := by simp
    simp only [List.filter_cons, hh, decide_False, hf, if_false]
    generalize (List.filter (fun e => decide (e.1 = h)) es).getLast? = last
    cases last <;> simp

theorem getD_set_self (scores : List Int) (i : Nat) (v : Int) (hi : i < scores.length) :
    (scores.set i v).getD i 0 = v := by
  simp [List.getD_eq_getElem?_getD, List.getElem?_set, hi]

theorem getD_set_other (scores : List Int) (i j : Nat) (v : Int) (hij : i ≠ j) :
    (scores.set i v).getD j 0 = scores.getD j 0 := by
  simp [List.getD_eq_getElem?_getD, List.getElem?_set, hij]

theorem scoreTagLoop_spec (holeCount : Int) :
    ∀ (tags : List (List String)) (scores : List Int) (total : Int),
      (scores.length : Int) = holeCount →
      ∃ scores1 total1, scoreTagLoop holeCount tags (scores, total) = some (scores1, total1)
        ∧ scores1.length = scores.length
        ∧ ∀ h : Int, 1 ≤ h → h ≤ holeCount →
            scores1.getD (h - 1).toNat 0
              = (lastScoreFor holeCount tags h).getD (scores.getD (h - 1).toNat 0) := by
  intro tags
  induction tags with
  | nil =>
    intro scores total _
    exact ⟨scores, total, rfl, rfl, fun h _ _ => by simp [lastScoreFor]⟩
  | cons tag rest ih =>
    intro scores total hlen
    rw [scoreTagLoop_cons]
    cases he : scoreTagEntry holeCount tag with
    | none =>
      obtain ⟨scores1, total1, h1, h2, h3⟩ := ih scores total hlen
      refine ⟨scores1, total1, h1, h2, ?_⟩
      intro h hh1 hh2
      rw [lastScoreFor_cons_none holeCount tag rest h he]
      exact h3 h hh1 hh2
    | some entry =>
      obtain ⟨hole, score⟩ := entry
      have hr := scoreTagEntry_range holeCount tag hole score he
      have hset : setAt scores (hole - 1) score = some (scores.set (hole - 1).toNat score) := by
        unfold setAt
        rw [if_pos]
        omega
      simp only [hset]
      obtain ⟨scores1, total1, h1, h2, h3⟩ :=
        ih (scores.set (hole - 1).toNat score) (addInt64 total score) (by simpa using hlen)
      refine ⟨scores1, total1, h1, by simpa using h2, ?_⟩
      intro h hh1 hh2
      rw [lastScoreFor_cons_some holeCount tag rest h hole score he, h3 h hh1 hh2]
      cases lastScoreFor holeCount rest h with
      | some s => simp
      | none =>
        by_cases hh : hole = h
        · subst hh
          have hi : (hole - 1).toNat < scores.length := by omega
          rw [getD_set_self scores _ score hi]
          simp
        · have hij : (hole - 1).toNat ≠ (h - 1).toNat := by omega
          rw [getD_set_other scores _ _ score hij]
          simp [hh]

/-- C19: `parseScoreEvent` always returns, with `HoleScores` of length
`len(holePars)` (18 when `holePars` is empty) in which entry `h-1` is the
score of the last well-formed score tag for hole `h`, and 0 when there is
none; a tag that is not well formed (fewer than three elements, another name,
a hole that does not parse or lies outside `1..holeCount`, a score that does
not parse) leaves the loop state as it is, and no write is out of bounds. -/
theorem parseScoreEvent_holeScores (evt : Event) (player : PlayerData) (holePars : List Int)
    (totalPar : Int) :
    ∃ psd, parseScoreEvent evt player holePars totalPar = some psd
      ∧ psd.HoleScores.length = (if holePars.length = 0 then 18 else holePars.length)
      ∧ (∀ h : Int, 1 ≤ h → h ≤ scoreHoleCount holePars →
          psd.HoleScores.getD (h - 1).toNat 0
            = (lastScoreFor (scoreHoleCount holePars) evt.Tags h).getD 0)
      ∧ (∀ (tag : List String) (rest : List (List String)) (acc : List Int × Int),
          scoreTagEntry (scoreHoleCount holePars) tag = none →
          scoreTagLoop (scoreHoleCount holePars) (tag :: rest) acc
            = scoreTagLoop (scoreHoleCount holePars) rest acc) := by
  have hc : 0 ≤ scoreHoleCount holePars := by
    unfold scoreHoleCount
    split <;> omega
  have hlen : ((List.replicate (scoreHoleCount holePars).toNat (0 : Int)).length : Int)
      = scoreHoleCount holePars := by
    simp [hc]
  obtain ⟨scores1, total1, h1, h2, h3⟩ :=
    scoreTagLoop_spec (scoreHoleCount holePars) evt.Tags _ 0 hlen
  unfold parseScoreEvent
  simp only [h1]
  refine ⟨_, rfl, ?_, ?_, ?_⟩
  · simp only [h2, List.length_replicate]
    unfold scoreHoleCount
    split <;> simp
  · intro h hh1 hh2
    have hi : (h - 1).toNat < (scoreHoleCount holePars).toNat := by omega
    simpa [List.getD_eq_getElem?_getD, hi] using h3 h hh1 hh2
  · intro tag rest acc hn
    obtain ⟨scores, total⟩ := acc
    rw [scoreTagLoop_cons, hn]

/-- Witness for C19: three holes and the sample tags; hole 1 has two score
tags and keeps the later one, the tags for hole 9 and with score `x` are
ignored, hole 2 stays 0. -/
theorem parseScoreEvent_holeScores_witness :
    (parseScoreEvent sampleRecord samplePlayer [4, 4, 3] 11).map (fun psd => psd.HoleScores)
        = some [6, 0, 3]
      ∧ lastScoreFor 3 sampleRecord.Tags 1 = some 6
      ∧ lastScoreFor 3 sampleRecord.Tags 2 = none
      ∧ ∃ psd, parseScoreEvent sampleRecord samplePlayer [4, 4, 3] 11 = some psd
          ∧ psd.HoleScores.length = 3 :=
  ⟨by rfl, by rfl, by rfl,
   (parseScoreEvent_holeScores sampleRecord samplePlayer [4, 4, 3] 11).imp
     (fun _ h => ⟨h.1, h.2.1⟩)⟩

/-! ## Round page: player scores -/

theorem mapGet_mapSet {V : Type} (m : List (String × V)) (k k' : String) (v : V) :
    mapGet (mapSet m k v) k' = if k = k' then some v else mapGet m k' := by
  induction m with
  | nil => simp [mapSet, mapGet]
  | cons entry rest ih =>
    obtain ⟨k0, v0⟩ := entry
    by_cases h0 : k0 = k
    · subst h0
      by_cases h1 : k0 = k'
      · simp [mapSet, mapGet, h1]
      · simp [mapSet, mapGet, h1]
    · by_cases h1 : k0 = k'
      · subst h1
        have h2 : ¬ k = k0 := fun h => h0 h.symm
        simp [mapSet, mapGet, h0, h2]
      · simp [mapSet, mapGet, h0, h1, ih]

theorem byAuthor_fold_some (events : List Event) :
    ∀ (m0 : List (String × Event)) (k : String) (v : Event),
      mapGet (events.foldl (fun m evt => mapSet m evt.PubKey evt) m0) k = some v →
      (v ∈ events ∧ v.PubKey = k) ∨ mapGet m0 k = some v := by
  induction events with
  | nil =>
    intro m0 k v h
    exact Or.inr h
  | cons evt rest ih =>
    intro m0 k v h
    rw [List.foldl_cons] at h
    rcases ih _ k v h with h1 | h1
    · exact Or.inl ⟨List.mem_cons_of_mem _ h1.1, h1.2⟩
    · rw [mapGet_mapSet] at h1
      by_cases hk : evt.PubKey = k
      · rw [if_pos hk] at h1
        have hv : evt = v := Option.some.inj h1
        subst hv
        exact Or.inl ⟨List.mem_cons_self _ _, hk⟩
      · rw [if_neg hk] at h1
        exact Or.inr h1

theorem byAuthor_fold_none (events : List Event) :
    ∀ (m0 : List (String × Event)) (k : String),
      mapGet (events.foldl (fun m evt => mapSet m evt.PubKey evt) m0) k = none →
      (∀ evt ∈ events, evt.PubKey ≠ k) ∧ mapGet m0 k = none := by
  induction events with
  | nil =>
    intro m0 k h
    exact ⟨fun _ hmem => by simp at hmem, h⟩
  | cons evt rest ih =>
    intro m0 k h
    rw [List.foldl_cons] at h
    obtain ⟨h1, h2⟩ := ih _ k h
    rw [mapGet_mapSet] at h2
    by_cases hk : evt.PubKey = k
    · rw [if_pos hk] at h2
      simp at h2
    · rw [if_neg hk] at h2
      refine ⟨?_, h2⟩
      intro e hmem
      rcases List.mem_cons.mp hmem with he | he
      · subst he
        exact hk
      · exact h1 e he

theorem byAuthor_some (events : List Event) (k : String) (v : Event)
    (h : mapGet (byAuthor events) k = some v) : v ∈ events ∧ v.PubKey = k := by
  rcases byAuthor_fold_some events [] k v h with h1 | h1
  · exact h1
  · simp [mapGet] at h1

theorem byAuthor_none (events : List Event) (k : String)
    (h : mapGet (byAuthor events) k = none) : ∀ evt ∈ events, evt.PubKey ≠ k :=
  (byAuthor_fold_none events [] k h).1

theorem profiles_fold_get (env : RoundEnv) (pubkeys : List String) :
    ∀ (m0 : List (String × PlayerData)) (k : String), k ∈ pubkeys →
      mapGet (pubkeys.foldl (fun profiles pk => mapSet profiles pk (playerProfile env pk)) m0) k
        = some (playerProfile env k) := by
  induction pubkeys with
  | nil =>
    intro m0 k h
    simp at h
  | cons pk rest ih =>
    intro m0 k h
    rw [List.foldl_cons]
    by_cases hr : k ∈ rest
    · exact ih _ k hr
    · have hk : k = pk := by
        rcases List.mem_cons.mp h with h1 | h1
        · exact h1
        · exact absurd h1 hr
      subst hk
      have hkeep : ∀ (ks : List String) (m : List (String × PlayerData)), k ∉ ks →
          mapGet (ks.foldl (fun profiles pk => mapSet profiles pk (playerProfile env pk)) m) k
            = mapGet m k := by
        intro ks
        induction ks with
        | nil => intro m _; rfl
        | cons q qs ihq =>
          intro m hq
          rw [List.foldl_cons, ihq _ (fun hmem => hq (List.mem_cons_of_mem _ hmem)),
            mapGet_mapSet]
          have : ¬ q = k := fun h' => hq (by rw [h']; exact List.mem_cons_self _ _)
          rw [if_neg this]
      rw [hkeep rest _ hr, mapGet_mapSet, if_pos rfl]

theorem profiles_get (env : RoundEnv) (pubkeys : List String) (k : String) (h : k ∈ pubkeys) :
    mapGet (fetchPlayerProfiles env pubkeys) k = some (playerProfile env k) :=
  profiles_fold_get env pubkeys [] k h

theorem parseScoreEvent_some (evt : Event) (player : PlayerData) (holePars : List Int)
    (totalPar : Int) :
    ∃ psd, parseScoreEvent evt player holePars totalPar = some psd
      ∧ psd.Player = player ∧ psd.EventId = evt.ID := by
  have hc : 0 ≤ scoreHoleCount holePars := by
    unfold scoreHoleCount
    split <;> omega
  have hlen : ((List.replicate (scoreHoleCount holePars).toNat (0 : Int)).length : Int)
      = scoreHoleCount holePars := by
    simp [hc]
  obtain ⟨scores1, total1, h1, _, _⟩ :=
    scoreTagLoop_spec (scoreHoleCount holePars) evt.Tags _ 0 hlen
  unfold parseScoreEvent
  simp only [h1]
  exact ⟨_, rfl, rfl, rfl⟩

theorem playerScoreLoop_spec (env : RoundEnv) (playerPubkeys : List String)
    (playerRoles : List (String × String)) (records livecards : List Event)
    (holePars : List Int) (totalPar : Int) :
    ∀ (pks : List String) (scores : List PlayerScoreData) (fin : Int),
      (∀ pk ∈ pks, pk ∈ playerPubkeys) →
      (∀ psd ∈ scores, EntryOk records livecards playerPubkeys playerRoles psd) →
      fin = ((scores.filter (fun psd => psd.IsFinal)).length : Int) →
      ∃ added fin1,
        playerScoreLoop (fetchPlayerProfiles env playerPubkeys) playerRoles (byAuthor records)
            (byAuthor livecards) holePars totalPar pks (scores, fin)
          = some (scores ++ added, fin1)
        ∧ (∀ psd ∈ scores ++ added, EntryOk records livecards playerPubkeys playerRoles psd)
        ∧ fin1 = (((scores ++ added).filter (fun psd => psd.IsFinal)).length : Int)
        ∧ ∀ pk ∈ pks, (mapGet playerRoles pk).getD "" ≠ "bot" →
            (∃ rec ∈ records, rec.PubKey = pk) →
            ∃ psd ∈ added, psd.Player.PubkeyHex = pk ∧ psd.IsFinal = true := by
  intro pks
  induction pks with
  | nil =>
    intro scores fin _ hok hfin
    refine ⟨[], fin, by simp [playerScoreLoop], by simpa using hok, by simpa using hfin, ?_⟩
    intro pk hpk
    simp at hpk
  | cons pk rest ih =>
    intro scores fin hsub hok hfin
    have hrest : ∀ q ∈ rest, q ∈ playerPubkeys := fun q hq => hsub q (List.mem_cons_of_mem _ hq)
    have hpk : pk ∈ playerPubkeys := hsub pk (List.mem_cons_self _ _)
    have hprof := profiles_get env playerPubkeys pk hpk
    by_cases hbot : (mapGet playerRoles pk).getD "" = "bot"
    · obtain ⟨added, fin1, h1, h2, h3, h4⟩ := ih scores fin hrest hok hfin
      refine ⟨added, fin1, by simp only [playerScoreLoop, hbot, if_true, h1], h2, h3, ?_⟩
      intro q hq hrole hrec
      rcases List.mem_cons.mp hq with hq1 | hq1
      · subst hq1
        exact absurd hbot hrole
      · exact h4 q hq1 hrole hrec
    · cases hfinal : mapGet (byAuthor records) pk with
      | some finalEvt =>
        obtain ⟨hmem, hauthor⟩ := byAuthor_some records pk finalEvt hfinal
        obtain ⟨psd, hparse, hplayer, hid⟩ :=
          parseScoreEvent_some finalEvt
            { (mapGet (fetchPlayerProfiles env playerPubkeys) pk).getD PlayerData.zero with
              Role := (mapGet playerRoles pk).getD "" } holePars totalPar
        have hentry : EntryOk records livecards playerPubkeys playerRoles
            { psd with IsFinal := true } := by
          refine ⟨?_, ?_, ?_, ?_, ?_⟩
          · simp [hplayer, hprof, playerProfile, hpk]
          · simp [hplayer, hprof, playerProfile]
          · simp [hplayer, hbot]
          · intro _
            exact ⟨finalEvt, hmem, by simp [hplayer, hprof, playerProfile, hauthor], hid⟩
          · intro hf
            simp at hf
        obtain ⟨added, fin1, h1, h2, h3, h4⟩ :=
          ih (scores ++ [{ psd with IsFinal := true }]) (fin + 1) hrest
            (by
              intro e he
              rcases List.mem_append.mp he with he1 | he1
              · exact hok e he1
              · rw [List.mem_singleton.mp he1]
                exact hentry)
            (by simp [hfin])
        refine ⟨{ psd with IsFinal := true } :: added, fin1, ?_, ?_, ?_, ?_⟩
        · simp only [playerScoreLoop, hbot, if_false, hfinal, hparse, h1]
          simp
        · simpa using h2
        · simpa using h3
        · intro q hq hrole hrec
          rcases List.mem_cons.mp hq with hq1 | hq1
          · subst hq1
            exact ⟨_, List.mem_cons_self _ _, by simp [hplayer, hprof, playerProfile], rfl⟩
          · obtain ⟨e, he, hr⟩ := h4 q hq1 hrole hrec
            exact ⟨e, List.mem_cons_of_mem _ he, hr⟩
      | none =>
        have hnone := byAuthor_none records pk hfinal
        cases hlive : mapGet (byAuthor livecards) pk with
        | some liveEvt =>
          obtain ⟨hmem, hauthor⟩ := byAuthor_some livecards pk liveEvt hlive
          obtain ⟨psd, hparse, hplayer, hid⟩ :=
            parseScoreEvent_some liveEvt
              { (mapGet (fetchPlayerProfiles env playerPubkeys) pk).getD PlayerData.zero with
                Role := (mapGet playerRoles pk).getD "" } holePars totalPar
          have hentry : EntryOk records livecards playerPubkeys playerRoles
              { psd with IsFinal := false } := by
            refine ⟨?_, ?_, ?_, ?_, ?_⟩
            · simp [hplayer, hprof, playerProfile, hpk]
            · simp [hplayer, hprof, playerProfile]
            · simp [hplayer, hbot]
            · intro hf
              simp at hf
            · intro _
              refine ⟨?_, liveEvt, hmem, by simp [hplayer, hprof, playerProfile, hauthor], hid⟩
              intro rec hrec
              simpa [hplayer, hprof, playerProfile] using hnone rec hrec
          obtain ⟨added, fin1, h1, h2, h3, h4⟩ :=
            ih (scores ++ [{ psd with IsFinal := false }]) fin hrest
              (by
                intro e he
                rcases List.mem_append.mp he with he1 | he1
                · exact hok e he1
                · rw [List.mem_singleton.mp he1]
                  exact hentry)
              (by simp [hfin])
          refine ⟨{ psd with IsFinal := false } :: added, fin1, ?_, ?_, ?_, ?_⟩
          · simp only [playerScoreLoop, hbot, if_false, hfinal, hlive, hparse, h1]
            simp
          · simpa using h2
          · simpa using h3
          · intro q hq hrole hrec
            rcases List.mem_cons.mp hq with hq1 | hq1
            · subst hq1
              obtain ⟨rec, hrm, hrk⟩ := hrec
              exact absurd hrk (hnone rec hrm)
            · obtain ⟨e, he, hr⟩ := h4 q hq1 hrole hrec
              exact ⟨e, List.mem_cons_of_mem _ he, hr⟩
        | none =>
          obtain ⟨added, fin1, h1, h2, h3, h4⟩ := ih scores fin hrest hok hfin
          refine ⟨added, fin1, ?_, h2, h3, ?_⟩
          · simp only [playerScoreLoop, hbot, if_false, hfinal, hlive, h1]
          · intro q hq hrole hrec
            rcases List.mem_cons.mp hq with hq1 | hq1
            · subst hq1
              obtain ⟨rec, hrm, hrk⟩ := hrec
              exact absurd hrk (hnone rec hrm)
            · exact h4 q hq1 hrole hrec

theorem buildRoundPageData_scores (env : RoundEnv) (event : Event)
    (metadata : Kind1501Metadata) :
    ∃ rpd, buildRoundPageData env event metadata = some rpd
      ∧ (∀ psd ∈ rpd.PlayerScores,
          EntryOk (env.fetchScores event.ID).1 (env.fetchScores event.ID).2
            (taggedPubkeys event) (playerTagLoop event.Tags ([], [])).2 psd)
      ∧ rpd.PlayersFinished
          = (((rpd.PlayerScores.filter (fun psd => psd.IsFinal)).length : Nat) : Int)
      ∧ ∀ pk ∈ taggedPubkeys event, resolvedRole event pk ≠ "bot" →
          (∃ rec ∈ (env.fetchScores event.ID).1, rec.PubKey = pk) →
          ∃ psd ∈ rpd.PlayerScores, psd.Player.PubkeyHex = pk ∧ psd.IsFinal = true := by
  obtain ⟨added, fin1, h1, h2, h3, h4⟩ :=
    playerScoreLoop_spec env (taggedPubkeys event) (playerTagLoop event.Tags ([], [])).2
      (env.fetchScores event.ID).1 (env.fetchScores event.ID).2 metadata.HolePars
      metadata.TotalPar (taggedPubkeys event) [] 0 (fun _ h => h)
      (fun _ h => by simp at h) (by simp)
  simp only [List.nil_append] at h1 h2 h3
  unfold buildRoundPageData
  unfold taggedPubkeys at h1
  simp only [h1]
  exact ⟨_, rfl, h2, h3, h4⟩

/-- C17: `buildRoundPageData` always returns, and final records win over live
scorecards: an entry of `PlayerScores` whose player authored a fetched 1502
record is final and carries the ID of a fetched record by that author,
whatever live scorecards were fetched; an entry is live only when its player
authored no fetched record; and every p-tagged public key whose role is not
`bot` and that authored a fetched record has a final entry. -/
theorem final_preferred_over_live (env : RoundEnv) (event : Event)
    (metadata : Kind1501Metadata) :
    ∃ rpd, buildRoundPageData env event metadata = some rpd
      ∧ (∀ psd ∈ rpd.PlayerScores,
          ((∃ rec ∈ (env.fetchScores event.ID).1, rec.PubKey = psd.Player.PubkeyHex) →
            psd.IsFinal = true
              ∧ ∃ rec ∈ (env.fetchScores event.ID).1,
                  rec.PubKey = psd.Player.PubkeyHex ∧ psd.EventId = rec.ID)
          ∧ (psd.IsFinal = false →
              ∀ rec ∈ (env.fetchScores event.ID).1, rec.PubKey ≠ psd.Player.PubkeyHex))
      ∧ (∀ pk ∈ taggedPubkeys event, resolvedRole event pk ≠ "bot" →
          (∃ rec ∈ (env.fetchScores event.ID).1, rec.PubKey = pk) →
          ∃ psd ∈ rpd.PlayerScores, psd.Player.PubkeyHex = pk ∧ psd.IsFinal = true) := by
  obtain ⟨rpd, hb, hok, _, hcover⟩ := buildRoundPageData_scores env event metadata
  refine ⟨rpd, hb, ?_, hcover⟩
  intro psd hmem
  obtain ⟨_, _, _, hfinal, hlive⟩ := hok psd hmem
  constructor
  · rintro ⟨rec, hrec, hkey⟩
    cases hf : psd.IsFinal with
    | true => exact ⟨rfl, hfinal hf⟩
    | false => exact absurd hkey ((hlive hf).1 rec hrec)
  · intro hf
    exact (hlive hf).1

/-- Witness for C17: in the sample round `alice` has a final record and a
live scorecard and gets the final entry with the ID of the record. -/
theorem final_preferred_over_live_witness :
    (buildRoundPageData sampleRoundEnv sampleInitiation sampleMetadata).map
        (fun rpd => rpd.PlayerScores.map (fun psd => (psd.Player.PubkeyHex, psd.IsFinal,
          psd.EventId)))
      = some [("alice", true, "ev1"), ("bob", false, "live-bob")]
      ∧ ∃ rpd, buildRoundPageData sampleRoundEnv sampleInitiation sampleMetadata = some rpd
          ∧ ∃ psd ∈ rpd.PlayerScores, psd.Player.PubkeyHex = "alice" ∧ psd.IsFinal = true :=
  ⟨by rfl,
   (final_preferred_over_live sampleRoundEnv sampleInitiation sampleMetadata).imp
     (fun _ h => ⟨h.1, h.2.2 "alice" (by decide) (by decide) ⟨sampleRecord, List.Mem.head _, rfl⟩⟩)⟩

/-- C18: bot scores are hidden. No entry of `PlayerScores` has the role
`bot`; every entry belongs to a p-tagged public key whose resolved role is
not `bot`, so a public key resolved to `bot` has no entry; and
`PlayersFinished` is exactly the number of final entries, so such a key adds
nothing to it. -/
theorem bot_scores_hidden (env : RoundEnv) (event : Event) (metadata : Kind1501Metadata) :
    ∃ rpd, buildRoundPageData env event metadata = some rpd
      ∧ (∀ psd ∈ rpd.PlayerScores,
          psd.Player.Role ≠ "bot"
            ∧ psd.Player.PubkeyHex ∈ taggedPubkeys event
            ∧ resolvedRole event psd.Player.PubkeyHex ≠ "bot")
      ∧ (∀ pk : String, resolvedRole event pk = "bot" →
          ∀ psd ∈ rpd.PlayerScores, psd.Player.PubkeyHex ≠ pk)
      ∧ rpd.PlayersFinished
          = (((rpd.PlayerScores.filter (fun psd => psd.IsFinal)).length : Nat) : Int) := by
  obtain ⟨rpd, hb, hok, hfin, _⟩ := buildRoundPageData_scores env event metadata
  have hall : ∀ psd ∈ rpd.PlayerScores,
      psd.Player.Role ≠ "bot"
        ∧ psd.Player.PubkeyHex ∈ taggedPubkeys event
        ∧ resolvedRole event psd.Player.PubkeyHex ≠ "bot" := by
    intro psd hmem
    obtain ⟨h1, h2, h3, _, _⟩ := hok psd hmem
    refine ⟨h3, h1, ?_⟩
    unfold resolvedRole
    rw [← h2]
    exact h3
  refine ⟨rpd, hb, hall, ?_, hfin⟩
  intro pk hbot psd hmem hkey
  have := (hall psd hmem).2.2
  rw [hkey] at this
  exact this hbot

/-- Witness for C18: in the sample round the bot `robo` has a final record
and no entry, and one player has finished. -/
theorem bot_scores_hidden_witness :
    resolvedRole sampleInitiation "robo" = "bot"
      ∧ (buildRoundPageData sampleRoundEnv sampleInitiation sampleMetadata).map
          (fun rpd => (rpd.PlayerScores.map (fun psd => psd.Player.PubkeyHex),
            rpd.PlayersFinished))
        = some (["alice", "bob"], 1)
      ∧ ∃ rpd, buildRoundPageData sampleRoundEnv sampleInitiation sampleMetadata = some rpd
          ∧ ∀ psd ∈ rpd.PlayerScores, psd.Player.PubkeyHex ≠ "robo" :=
  ⟨by decide, by rfl,
   (bot_scores_hidden sampleRoundEnv sampleInitiation sampleMetadata).imp
     (fun _ h => ⟨h.1, h.2.2.1 "robo" (by decide)⟩)⟩

/-! ## Adaptive sizing: counts and the reference power -/

theorem totalRunes_nonneg (paragraphs : List String) : 0 ≤ totalRunes paragraphs := by
  unfold totalRunes
  apply List.sum_nonneg
  intro x hx
  simp only [List.mem_map] at hx
  obtain ⟨par, _, rfl⟩ := hx
  exact Int.ofNat_nonneg _

theorem textFontSize_adaptive (ops : FloatOps) (isMediaURL : String → Bool) (style : Style)
    (paragraphs : List String) (hm : containsMedia isMediaURL paragraphs = false)
    (hl : paragraphs.length < 6) :
    textFontSize ops isMediaURL style paragraphs
      = ops.toInt (ops.ofInt ((styleGeometry style).fontSize
          + addedSize ops (styleGeometry style).height (totalRunes paragraphs)
              paragraphs.length (blankCount paragraphs))) := by
  have hl' : ((paragraphs.length : Int) < 6) := by omega
  simp only [textFontSize, hm, hl', countChars_eq]
  simp

theorem irootBits_lower (k n : Nat) : ∀ (b r : Nat), r ≤ irootBits k n b r := by
  intro b
  induction b with
  | zero => intro r; simp [irootBits]
  | succ b ih =>
    intro r
    rw [irootBits]
    split
    · exact le_trans (Nat.le_add_right _ _) (ih _)
    · exact ih r

theorem irootBits_upper (k n : Nat) : ∀ (b r : Nat), irootBits k n b r < r + 2 ^ b := by
  intro b
  induction b with
  | zero => intro r; simp [irootBits]
  | succ b ih =>
    intro r
    rw [irootBits]
    have hp : 2 ^ (b + 1) = 2 ^ b + 2 ^ b := by ring
    have h0 : 0 < 2 ^ b := Nat.two_pow_pos b
    rw [hp]
    split
    · have := ih (r + 2 ^ b)
      omega
    · have := ih r
      omega

theorem irootBits_mono (k n m : Nat) (hnm : n ≤ m) :
    ∀ (b r : Nat), irootBits k n b r ≤ irootBits k m b r := by
  intro b
  induction b with
  | zero => intro r; simp [irootBits]
  | succ b ih =>
    intro r
    rw [irootBits, irootBits]
    by_cases hn : (r + 2 ^ b) ^ k ≤ n
    · have hm : (r + 2 ^ b) ^ k ≤ m := le_trans hn hnm
      simp only [hn, hm, if_true]
      exact ih _
    · by_cases hm : (r + 2 ^ b) ^ k ≤ m
      · simp only [hn, hm, if_true, if_false]
        have h1 := irootBits_upper k n b r
        have h2 := irootBits_lower k m b (r + 2 ^ b)
        omega
      · simp only [hn, hm, if_false]
        exact ih r

theorem fxPow_nonneg (x y : Int) : 0 ≤ fxPow x y := by
  unfold fxPow
  split
  · exact le_refl 0
  · exact Int.ofNat_nonneg _

theorem fxPow_mono (x y e : Int) (hxy : x ≤ y) : fxPow x e ≤ fxPow y e := by
  by_cases hx : x ≤ 0 ∨ e < 0
  · have h0 : fxPow x e = 0 := by
      unfold fxPow
      rw [if_pos hx]
    rw [h0]
    exact fxPow_nonneg y e
  · have hy : ¬ (y ≤ 0 ∨ e < 0) := by omega
    unfold fxPow
    rw [if_neg hx, if_neg hy]
    simp only [iroot]
    apply Int.ofNat_le.mpr
    apply irootBits_mono
    apply Nat.div_le_div_right
    apply Nat.mul_le_mul_right
    apply Nat.pow_le_pow_left
    exact Int.toNat_le_toNat hxy

theorem tdiv_mono (a b d : Int) (hab : a ≤ b) (hd : 0 < d) : a.tdiv d ≤ b.tdiv d := by
  by_cases ha : 0 ≤ a
  · rw [Int.tdiv_eq_ediv ha (le_of_lt hd), Int.tdiv_eq_ediv (le_trans ha hab) (le_of_lt hd)]
    exact Int.ediv_le_ediv hd hab
  · have ha' : a.tdiv d = -((-a).tdiv d) := by rw [Int.neg_tdiv, neg_neg]
    have h1 : 0 ≤ (-a).tdiv d := Int.tdiv_nonneg (by omega) (le_of_lt hd)
    by_cases hb : 0 ≤ b
    · have h2 : 0 ≤ b.tdiv d := Int.tdiv_nonneg hb (le_of_lt hd)
      omega
    · have hb' : b.tdiv d = -((-b).tdiv d) := by rw [Int.neg_tdiv, neg_neg]
      rw [ha', hb', Int.tdiv_eq_ediv (by omega) (le_of_lt hd),
        Int.tdiv_eq_ediv (by omega) (le_of_lt hd)]
      have := Int.ediv_le_ediv hd (show -b ≤ -a by omega)
      omega

/-! ## Round page: finished players and players -/

/-- C22 at its failing inputs: with the player `alice` listed in two p-tags
and one final record by her, `PlayersFinished` is 2 and `PlayersTotal` is 1;
with a single p-tag of role `marker` and a final record by that key,
`PlayersFinished` is 1 and `PlayersTotal` is 0. Neither round reaches the
state `final`. -/
theorem playersFinished_exceeds_total :
    (buildRoundPageData sampleRoundEnv repeatedTagInitiation sampleMetadata).map
        (fun rpd => (rpd.PlayersFinished, rpd.PlayersTotal, rpd.State))
      = some (2, 1, "live")
      ∧ (buildRoundPageData sampleRoundEnv markerInitiation sampleMetadata).map
        (fun rpd => (rpd.PlayersFinished, rpd.PlayersTotal, rpd.State))
      = some (1, 0, "live") := by
  constructor
  · rfl
  · rfl

/-! ## Golf round metadata: the length of `HolePars` -/

/-- C23 at its failing input: a course snapshot with `hole_count` -1 and a
`holes` array. `HoleCount` is -1, which is not 0 and so is not replaced by the
length of the array, and `make([]int, -1)` faults: `grabData` does not
return. -/
theorem negative_hole_count_faults :
    intOfFloat (-1) 0 = -1
      ∧ makeInts (-1) = none
      ∧ grabData negativeCountUnmarshal { Kind := 1501, Content := "minus", Tags := [] }
          = none := by
  refine ⟨by decide, by decide, by rfl⟩

theorem holesLoop_length (holeCount : Int) :
    ∀ (holes : List Json) (holePars : List Int) (totalPar : Int),
      (holesLoop holeCount holes (holePars, totalPar)).1.length = holePars.length := by
  intro holes
  induction holes with
  | nil => intro holePars totalPar; rfl
  | cons h rest ih =>
    intro holePars totalPar
    cases h with
    | obj hm =>
      simp only [holesLoop]
      split
      · rw [ih]
        simp
      · exact ih _ _
    | null => simp only [holesLoop]; exact ih _ _
    | bool b => simp only [holesLoop]; exact ih _ _
    | num m e => simp only [holesLoop]; exact ih _ _
    | str s => simp only [holesLoop]; exact ih _ _
    | arr items => simp only [holesLoop]; exact ih _ _

/-! ## Relay hints -/

theorem relayLoop_zero (isVirtualRelay : String → Bool) :
    ∀ (relays out : List String),
      relayLoop isVirtualRelay relays (out, 0)
        = (out ++ relays.filter (fun relayUrl => !isVirtualRelay relayUrl), 0) := by
  intro relays
  induction relays with
  | nil => intro out; simp [relayLoop]
  | cons relayUrl rest ih =>
    intro out
    by_cases hv : isVirtualRelay relayUrl = true
    · simp [relayLoop, hv, ih]
    · simp [relayLoop, hv, ih]

theorem relaysForNip19_eq_filter (isVirtualRelay : String → Bool) (relays : List String) :
    relaysForNip19 isVirtualRelay relays
      = relays.filter (fun relayUrl => !isVirtualRelay relayUrl) := by
  simp [relaysForNip19, relayLoop_zero]

/-- C25 at its failing input: four relays, none of them virtual. The counter
`c` stays 0, the loop never breaks, and `relaysForNip19` holds all four. -/
theorem relay_hints_exceed_three :
    relaysForNip19 (fun _ => false) ["wss://a", "wss://b", "wss://c", "wss://d"]
        = ["wss://a", "wss://b", "wss://c", "wss://d"]
      ∧ (relaysForNip19 (fun _ => false) ["wss://a", "wss://b", "wss://c", "wss://d"]).length
          = 4 := by
  constructor
  · rfl
  · rfl

/-! ## Content normalisation -/

/-- C26 at its failing input: the content `a\n\r\r\n\nb`. The first step
leaves `a\n\r\n\nb`, where the runs of newlines have lengths 1 and 2, so the
second step changes nothing; deleting the carriage return in the fourth step
joins the runs into three newlines, and splitting gives two adjacent blank
paragraphs. -/
theorem carriage_return_joins_newlines :
    String.mk (replaceCRLF "a\n\r\r\n\nb".toList) = "a\n\r\n\nb"
      ∧ String.mk (collapseNewlines 0 (replaceCRLF "a\n\r\r\n\nb".toList)) = "a\n\r\n\nb"
      ∧ normalizeContent "a\n\r\r\n\nb" = "a\n\n\nb"
      ∧ splitLines (normalizeContent "a\n\r\r\n\nb") = ["a", "", "", "b"] := by
  refine ⟨by decide, by decide, by decide, by decide⟩

/-! ## Adaptive sizing: bounds on the inputs and on the reference power -/

theorem blankCount_bounds (paragraphs : List String) :
    0 ≤ blankCount paragraphs ∧ blankCount paragraphs ≤ (paragraphs.length : Int) := by
  unfold blankCount
  constructor
  · exact Int.ofNat_nonneg _
  · exact Int.ofNat_le.mpr (List.length_filter_le _ _)

theorem styleGeometry_height (style : Style) :
    (styleGeometry style).height = 525 ∨ (styleGeometry style).height = 366
      ∨ (styleGeometry style).height = 365 := by
  cases style
  · left; rfl
  · left; rfl
  · right; left; rfl
  · right; right; rfl
  · left; rfl

theorem irootBits_max (k n : Nat) :
    ∀ (b r s : Nat), r ≤ s → s < r + 2 ^ b → s ^ k ≤ n → s ≤ irootBits k n b r := by
  intro b
  induction b with
  | zero =>
    intro r s h1 h2 _
    simp only [pow_zero] at h2
    simp only [irootBits]
    omega
  | succ b ih =>
    intro r s h1 h2 h3
    have hp : 2 ^ (b + 1) = 2 ^ b + 2 ^ b := by ring
    rw [hp] at h2
    rw [irootBits]
    by_cases hc : (r + 2 ^ b) ^ k ≤ n
    · rw [if_pos hc]
      by_cases hs : r + 2 ^ b ≤ s
      · exact ih _ s hs (by omega) h3
      · have := irootBits_lower k n b (r + 2 ^ b)
        omega
    · rw [if_neg hc]
      have hs : s < r + 2 ^ b := by
        by_contra hge
        exact hc (le_trans (Nat.pow_le_pow_left (by omega) k) h3)
      exact ih r s h1 hs h3

theorem irootBits_pow_le (k n : Nat) :
    ∀ (b r : Nat), r ^ k ≤ n → (irootBits k n b r) ^ k ≤ n := by
  intro b
  induction b with
  | zero =>
    intro r h
    simpa [irootBits] using h
  | succ b ih =>
    intro r h
    rw [irootBits]
    split
    · exact ih _ (by assumption)
    · exact ih r h

theorem le_iroot (q n s : Nat) (hs : s < 2 ^ 64) (h : s ^ q ≤ n) : s ≤ iroot q n :=
  irootBits_max q n 64 0 s (Nat.zero_le _) (by omega) h

theorem iroot_le (q n bound : Nat) (hq : 0 < q) (h : n ≤ bound ^ q) : iroot q n ≤ bound := by
  have h0 : (0 : Nat) ^ q ≤ n := by
    rw [Nat.zero_pow hq]
    exact Nat.zero_le _
  have h1 : (iroot q n) ^ q ≤ n := irootBits_pow_le q n 64 0 h0
  by_contra hlt
  have h2 : bound ^ q < (iroot q n) ^ q := Nat.pow_lt_pow_left (by omega) (by omega)
  omega

theorem fxScale_pos : 0 < fxScale := by decide

theorem fxPow_one_le (x e : Int) (he : 0 ≤ e) (hx : (fxScale : Int) ≤ x) :
    (fxScale : Int) ≤ fxPow x e := by
  have hS := fxScale_pos
  have hc : ¬ (x ≤ 0 ∨ e < 0) := by omega
  unfold fxPow
  rw [if_neg hc]
  apply Int.ofNat_le.mpr
  apply le_iroot
  · decide
  · have hxn : fxScale ≤ x.toNat := (Int.le_toNat (by omega)).mpr hx
    rw [Nat.le_div_iff_mul_le (Nat.pow_pos hS)]
    rw [Nat.mul_comm]
    exact Nat.mul_le_mul_right _ (Nat.pow_le_pow_left hxn _)

theorem fxPow_le_sq (x e : Int) (k : Nat) (he : e ≤ 2 * (fxScale : Int)) (hk : 1 ≤ k)
    (hx : x ≤ (k : Int) * (fxScale : Int)) :
    fxPow x e ≤ ((k * k * fxScale : Nat) : Int) := by
  have hS := fxScale_pos
  by_cases hc : x ≤ 0 ∨ e < 0
  · unfold fxPow
    rw [if_pos hc]
    exact Int.ofNat_nonneg _
  · unfold fxPow
    rw [if_neg hc]
    apply Int.ofNat_le.mpr
    have hg : Nat.gcd e.toNat fxScale ∣ fxScale := Nat.gcd_dvd_right _ _
    have hgpos : 0 < Nat.gcd e.toNat fxScale := Nat.pos_of_dvd_of_pos hg hS
    have hq : 0 < fxScale / Nat.gcd e.toNat fxScale :=
      Nat.div_pos (Nat.gcd_le_right _ hS) hgpos
    have hpq : e.toNat / Nat.gcd e.toNat fxScale ≤ 2 * (fxScale / Nat.gcd e.toNat fxScale) := by
      rw [← Nat.mul_div_assoc 2 hg]
      apply Nat.div_le_div_right
      omega
    have hxn : x.toNat ≤ k * fxScale := by
      rw [Int.toNat_le]
      push_cast
      exact hx
    apply iroot_le _ _ _ hq
    generalize e.toNat / Nat.gcd e.toNat fxScale = p at hpq
    generalize fxScale / Nat.gcd e.toNat fxScale = q at hpq hq
    apply Nat.div_le_of_le_mul
    have h1 : x.toNat ^ p ≤ k ^ p * fxScale ^ p := by
      rw [← Nat.mul_pow]
      exact Nat.pow_le_pow_left hxn p
    have h2 : k ^ p ≤ (k * k) ^ q := by
      have : (k * k) ^ q = k ^ (2 * q) := by
        rw [Nat.pow_mul, pow_two]
      rw [this]
      exact Nat.pow_le_pow_right hk hpq
    calc x.toNat ^ p * fxScale ^ q
        ≤ (k ^ p * fxScale ^ p) * fxScale ^ q := Nat.mul_le_mul_right _ h1
      _ = fxScale ^ p * (k ^ p * fxScale ^ q) := by ring
      _ ≤ fxScale ^ p * ((k * k) ^ q * fxScale ^ q) :=
          Nat.mul_le_mul_left _ (Nat.mul_le_mul_right _ h2)
      _ = fxScale ^ p * (k * k * fxScale) ^ q := by rw [← Nat.mul_pow]

/-! ## Rounding: the leading bit -/

theorem lgBits_lower (n : Nat) : ∀ (b r : Nat), r ≤ lgBits n b r := by
  intro b
  induction b with
  | zero => intro r; simp [lgBits]
  | succ b ih =>
    intro r
    rw [lgBits]
    split
    · exact le_trans (Nat.le_add_right _ _) (ih _)
    · exact ih r

theorem lgBits_upper (n : Nat) : ∀ (b r : Nat), lgBits n b r < r + 2 ^ b := by
  intro b
  induction b with
  | zero => intro r; simp [lgBits]
  | succ b ih =>
    intro r
    rw [lgBits]
    have hp : 2 ^ (b + 1) = 2 ^ b + 2 ^ b := by ring
    have h0 : 0 < 2 ^ b := Nat.two_pow_pos b
    rw [hp]
    split
    · have := ih (r + 2 ^ b)
      omega
    · have := ih r
      omega

theorem lgBits_pow_le (n : Nat) : ∀ (b r : Nat), 2 ^ r ≤ n → 2 ^ lgBits n b r ≤ n := by
  intro b
  induction b with
  | zero => intro r h; simpa [lgBits] using h
  | succ b ih =>
    intro r h
    rw [lgBits]
    split
    · rename_i hc
      exact ih _ hc
    · exact ih r h

theorem lgBits_max (n : Nat) :
    ∀ (b r t : Nat), r ≤ t → t < r + 2 ^ b → 2 ^ t ≤ n → t ≤ lgBits n b r := by
  intro b
  induction b with
  | zero =>
    intro r t h1 h2 _
    simp only [pow_zero] at h2
    simp only [lgBits]
    omega
  | succ b ih =>
    intro r t h1 h2 h3
    have hp : 2 ^ (b + 1) = 2 ^ b + 2 ^ b := by ring
    rw [hp] at h2
    rw [lgBits]
    split
    · by_cases ht : r + 2 ^ b ≤ t
      · exact ih _ t ht (by omega) h3
      · have := lgBits_lower n b (r + 2 ^ b)
        omega
    · rename_i hc
      have ht : t < r + 2 ^ b := by
        by_contra hge
        have : 2 ^ (r + 2 ^ b) ≤ 2 ^ t := Nat.pow_le_pow_right (by norm_num) (by omega)
        omega
      exact ih r t h1 ht h3

theorem lgBits_zero : ∀ (b r : Nat), lgBits 0 b r = r := by
  intro b
  induction b with
  | zero => intro r; rfl
  | succ b ih =>
    intro r
    rw [lgBits]
    have : ¬ 2 ^ (r + 2 ^ b) ≤ 0 := by
      have := Nat.two_pow_pos (r + 2 ^ b)
      omega
    rw [if_neg this]
    exact ih r

theorem lg_zero : lg 0 = 0 := lgBits_zero 12 0

theorem lg_lt (n : Nat) : lg n < 4096 := by
  have := lgBits_upper n 12 0
  simpa [lg] using this

theorem lg_pow_le (n : Nat) (h : 1 ≤ n) : 2 ^ lg n ≤ n :=
  lgBits_pow_le n 12 0 (by simpa using h)

theorem lg_max (n t : Nat) (ht : t < 4096) (h : 2 ^ t ≤ n) : t ≤ lg n :=
  lgBits_max n 12 0 t (Nat.zero_le t) (by simpa using ht) h

theorem lt_pow_lg (n : Nat) (h : lg n < 4095) : n < 2 ^ (lg n + 1) := by
  by_contra hge
  have := lg_max n (lg n + 1) (by omega) (by omega)
  omega

theorem lg_mono (n m : Nat) (h : n ≤ m) : lg n ≤ lg m := by
  rcases Nat.eq_zero_or_pos n with h0 | hpos
  · subst h0
    rw [lg_zero]
    exact Nat.zero_le _
  · exact lg_max m (lg n) (lg_lt n) (le_trans (lg_pow_le n hpos) h)

/-! ## Rounding: nearest integer, ties to even -/

theorem rne_cases (a d : Nat) :
    (rne a d = a / d ∧ 2 * (a % d) < d)
      ∨ (rne a d = a / d + 1 ∧ d < 2 * (a % d))
      ∨ (rne a d = a / d ∧ 2 * (a % d) = d ∧ (a / d) % 2 = 0)
      ∨ (rne a d = a / d + 1 ∧ 2 * (a % d) = d ∧ (a / d) % 2 = 1) := by
  unfold rne
  by_cases h1 : 2 * (a % d) < d
  · left
    simp [h1]
  · by_cases h2 : d < 2 * (a % d)
    · right; left
      simp [h1, h2]
    · have h3 : 2 * (a % d) = d := by omega
      by_cases h4 : (a / d) % 2 = 0
      · right; right; left
        simp [h1, h2, h4, h3]
      · right; right; right
        have h5 : (a / d) % 2 = 1 := by omega
        simp [h1, h2, h4, h3, h5]

/-- The value `m = rne a d` lies within half a unit of `a/d`, and is even when
it lies exactly half a unit away. -/
theorem rne_spec (a d : Nat) (hd : 0 < d) :
    2 * (rne a d * d) ≤ 2 * a + d
      ∧ 2 * a ≤ 2 * (rne a d * d) + d
      ∧ (2 * (rne a d * d) = 2 * a + d → rne a d % 2 = 0)
      ∧ (2 * a = 2 * (rne a d * d) + d → rne a d % 2 = 0) := by
  have hdm : d * (a / d) + a % d = a := Nat.div_add_mod a d
  have hr : a % d < d := Nat.mod_lt a hd
  have hc : a / d * d = d * (a / d) := Nat.mul_comm _ _
  have hc1 : (a / d + 1) * d = d * (a / d) + d := by rw [Nat.add_mul, hc, Nat.one_mul]
  rcases rne_cases a d with ⟨he, h⟩ | ⟨he, h⟩ | ⟨he, h, hp⟩ | ⟨he, h, hp⟩
  · rw [he, hc]
    refine ⟨by omega, by omega, fun _ => by omega, fun _ => by omega⟩
  · rw [he, hc1]
    refine ⟨by omega, by omega, fun _ => by omega, fun _ => by omega⟩
  · rw [he, hc]
    refine ⟨by omega, by omega, fun _ => hp, fun _ => hp⟩
  · rw [he, hc1]
    refine ⟨by omega, by omega, fun _ => by omega, fun _ => by omega⟩

theorem rne_exact (k d : Nat) (hd : 0 < d) : rne (k * d) d = k := by
  unfold rne
  have h1 : k * d % d = 0 := Nat.mul_mod_left k d
  have h2 : k * d / d = k := Nat.mul_div_cancel k hd
  rw [h1, h2]
  simp [hd]

theorem rne_mono (a d a' d' : Nat) (hd : 0 < d) (hd' : 0 < d') (h : a * d' ≤ a' * d) :
    rne a d ≤ rne a' d' := by
  obtain ⟨h1, _, h3, _⟩ := rne_spec a d hd
  obtain ⟨_, h2', _, h4'⟩ := rne_spec a' d' hd'
  by_contra hlt
  have hm : rne a' d' + 1 ≤ rne a d := by omega
  -- work in the integers
  have hP : (0 : Int) < (d : Int) * (d' : Int) := by positivity
  have e1 : (2 : Int) * ((rne a d : Int) * d) ≤ 2 * a + d := by exact_mod_cast h1
  have e2 : (2 : Int) * a' ≤ 2 * ((rne a' d' : Int) * d') + d' := by exact_mod_cast h2'
  have e3 : (a : Int) * d' ≤ a' * d := by exact_mod_cast h
  have em : (rne a' d' : Int) + 1 ≤ rne a d := by exact_mod_cast hm
  have hd0 : (0 : Int) < d := by exact_mod_cast hd
  have hd0' : (0 : Int) < d' := by exact_mod_cast hd'
  have c1 : (2 : Int) * ((rne a d : Int) * d) * d' ≤ (2 * a + d) * d' :=
    mul_le_mul_of_nonneg_right e1 (le_of_lt hd0')
  have c2 : (2 : Int) * a' * d ≤ (2 * ((rne a' d' : Int) * d') + d') * d :=
    mul_le_mul_of_nonneg_right e2 (le_of_lt hd0)
  have c3 : ((rne a' d' : Int) + 1) * (d * d') ≤ (rne a d : Int) * (d * d') :=
    mul_le_mul_of_nonneg_right em (le_of_lt hP)
  have t1 : (2 : Int) * ((rne a d : Int) * d) = 2 * a + d := by
    apply le_antisymm e1
    by_contra hnot
    have hs : (2 : Int) * ((rne a d : Int) * d) < 2 * a + d := lt_of_not_ge hnot
    have := mul_lt_mul_of_pos_right hs hd0'
    nlinarith
  have t2 : (2 : Int) * a' = 2 * ((rne a' d' : Int) * d') + d' := by
    apply le_antisymm e2
    by_contra hnot
    have hs : (2 : Int) * a' < 2 * ((rne a' d' : Int) * d') + d' := lt_of_not_ge hnot
    have := mul_lt_mul_of_pos_right hs hd0
    nlinarith
  have p1 : rne a d % 2 = 0 := h3 (by exact_mod_cast t1)
  have p2 : rne a' d' % 2 = 0 := h4' (by exact_mod_cast t2)
  have heq : (rne a d : Int) = rne a' d' + 1 := by
    apply le_antisymm _ em
    by_contra hnot
    have hs : (rne a' d' : Int) + 1 + 1 ≤ rne a d := by omega
    have := mul_le_mul_of_nonneg_right hs (le_of_lt hP)
    nlinarith
  have heq' : rne a d = rne a' d' + 1 := by exact_mod_cast heq
  omega

/-! ## Rounding to 53 significant bits -/

theorem div_le_div_cross (a b a' b' : Nat) (hb : 0 < b) (hb' : 0 < b')
    (h : a * b' ≤ a' * b) : a / b ≤ a' / b' := by
  rw [Nat.le_div_iff_mul_le hb']
  have h1 : a / b * b ≤ a := Nat.div_mul_le_self a b
  have h2 : a / b * b' * b ≤ a' * b := by
    calc a / b * b' * b = a / b * b * b' := by ring
      _ ≤ a * b' := Nat.mul_le_mul_right b' h1
      _ ≤ a' * b := h
  exact Nat.le_of_mul_le_mul_right h2 hb

theorem roundUnits_mono (a b a' b' : Nat) (hb : 0 < b) (hb' : 0 < b')
    (h : a * b' ≤ a' * b) : roundUnits a b ≤ roundUnits a' b' := by
  have hf : a / b ≤ a' / b' := div_le_div_cross a b a' b' hb hb' h
  have ht : lg (a / b) ≤ lg (a' / b') := lg_mono _ _ hf
  unfold roundUnits
  generalize hs : lg (a / b) - 52 = s
  generalize hs' : lg (a' / b') - 52 = s'
  have hss : s ≤ s' := by omega
  have hps : 0 < 2 ^ s := Nat.two_pow_pos s
  have hps' : 0 < 2 ^ s' := Nat.two_pow_pos s'
  rcases Nat.eq_or_lt_of_le hss with heq | hlt
  · subst heq
    apply Nat.mul_le_mul_right
    apply rne_mono _ _ _ _ (Nat.mul_pos hb hps) (Nat.mul_pos hb' hps)
    calc a * (b' * 2 ^ s) = a * b' * 2 ^ s := by ring
      _ ≤ a' * b * 2 ^ s := Nat.mul_le_mul_right _ h
      _ = a' * (b * 2 ^ s) := by ring
  · -- the exponents differ: a power of two lies between the two results
    have ht' : 53 ≤ lg (a' / b') := by omega
    have htt : lg (a / b) < lg (a' / b') := by omega
    have hcap : lg (a / b) < 4095 := by
      have := lg_lt (a' / b')
      omega
    have hupper : a / b < 2 ^ (lg (a / b) + 1) := lt_pow_lg _ hcap
    have ha : a < 2 ^ (lg (a / b) + 1) * b := (Nat.div_lt_iff_lt_mul hb).1 hupper
    have hf' : 1 ≤ a' / b' := by
      rcases Nat.eq_zero_or_pos (a' / b') with h0 | hpos
      · rw [h0, lg_zero] at ht'
        omega
      · exact hpos
    have hlow : 2 ^ lg (a' / b') ≤ a' / b' := lg_pow_le _ hf'
    have ha' : 2 ^ lg (a' / b') * b' ≤ a' := (Nat.le_div_iff_mul_le hb').1 hlow
    -- the smaller result is at most `2^(t+1)`
    have hsplit : 2 ^ (lg (a / b) + 1) = 2 ^ (lg (a / b) + 1 - s) * 2 ^ s := by
      have he : lg (a / b) + 1 - s + s = lg (a / b) + 1 := by omega
      rw [← pow_add, he]
    have h1 : rne a (b * 2 ^ s) ≤ 2 ^ (lg (a / b) + 1 - s) := by
      have hex := rne_exact (2 ^ (lg (a / b) + 1 - s)) (b * 2 ^ s) (Nat.mul_pos hb hps)
      rw [← hex]
      apply rne_mono _ _ _ _ (Nat.mul_pos hb hps) (Nat.mul_pos hb hps)
      apply Nat.mul_le_mul_right
      calc a ≤ 2 ^ (lg (a / b) + 1) * b := le_of_lt ha
        _ = 2 ^ (lg (a / b) + 1 - s) * (b * 2 ^ s) := by rw [hsplit]; ring
    -- the larger result is at least `2^t'`
    have hsplit' : 2 ^ lg (a' / b') = 2 ^ 52 * 2 ^ s' := by
      have he : 52 + s' = lg (a' / b') := by omega
      rw [← pow_add, he]
    have h2 : 2 ^ 52 ≤ rne a' (b' * 2 ^ s') := by
      have hex := rne_exact (2 ^ 52) (b' * 2 ^ s') (Nat.mul_pos hb' hps')
      rw [← hex]
      apply rne_mono _ _ _ _ (Nat.mul_pos hb' hps') (Nat.mul_pos hb' hps')
      apply Nat.mul_le_mul_right
      calc 2 ^ 52 * (b' * 2 ^ s') = 2 ^ lg (a' / b') * b' := by rw [hsplit']; ring
        _ ≤ a' := ha'
    calc rne a (b * 2 ^ s) * 2 ^ s ≤ 2 ^ (lg (a / b) + 1 - s) * 2 ^ s :=
          Nat.mul_le_mul_right _ h1
      _ = 2 ^ (lg (a / b) + 1) := hsplit.symm
      _ ≤ 2 ^ lg (a' / b') := Nat.pow_le_pow_right (by norm_num) (by omega)
      _ = 2 ^ 52 * 2 ^ s' := hsplit'
      _ ≤ rne a' (b' * 2 ^ s') * 2 ^ s' := Nat.mul_le_mul_right _ h2

/-- A value with at most 53 significant bits is its own rounding. -/
theorem roundUnits_exact (m e b : Nat) (hm : m < 2 ^ 53) (hb : 0 < b) :
    roundUnits (m * 2 ^ e * b) b = m * 2 ^ e := by
  unfold roundUnits
  rw [Nat.mul_div_cancel _ hb]
  have hs : lg (m * 2 ^ e) - 52 ≤ e := by
    rcases Nat.eq_zero_or_pos (m * 2 ^ e) with h0 | hpos
    · rw [h0, lg_zero]
      omega
    · have h1 := lg_pow_le _ hpos
      have h2 : m * 2 ^ e < 2 ^ 53 * 2 ^ e :=
        Nat.mul_lt_mul_of_pos_right hm (Nat.two_pow_pos e)
      rw [← pow_add] at h2
      have h3 : 2 ^ lg (m * 2 ^ e) < 2 ^ (53 + e) := lt_of_le_of_lt h1 h2
      have h4 : lg (m * 2 ^ e) < 53 + e := (Nat.pow_lt_pow_iff_right (by norm_num)).1 h3
      omega
  generalize lg (m * 2 ^ e) - 52 = s at hs
  have hsplit : 2 ^ e = 2 ^ (e - s) * 2 ^ s := by
    have he : e - s + s = e := by omega
    rw [← pow_add, he]
  have hval : m * 2 ^ e * b = (m * 2 ^ (e - s)) * (b * 2 ^ s) := by
    rw [hsplit]; ring
  rw [hval, rne_exact _ _ (Nat.mul_pos hb (Nat.two_pow_pos s)), hsplit]
  ring

theorem roundUnits_zero (b : Nat) : roundUnits 0 b = 0 := by
  unfold roundUnits
  simp [lg_zero, rne]

/-! ## `float64`: values that are not negative -/

set_option exponentiation.threshold 5000

theorem f64Unit_pos : 0 < f64Unit := by
  unfold f64Unit
  exact Nat.two_pow_pos _

theorem f64Top_pos : 0 < f64Top := by
  unfold f64Top
  exact Nat.two_pow_pos _

theorem f64Top_eq : f64Top = 1 * 2 ^ 2098 * 1 := by
  unfold f64Top; ring

theorem unit_mul_lt_top (c : Nat) (hc : c < 2 ^ 53) : c * f64Unit < f64Top := by
  unfold f64Unit f64Top
  calc c * 2 ^ 1074 < 2 ^ 53 * 2 ^ 1074 := Nat.mul_lt_mul_of_pos_right hc (Nat.two_pow_pos _)
    _ = 2 ^ (53 + 1074) := by rw [← pow_add]
    _ ≤ 2 ^ 2098 := Nat.pow_le_pow_right (by norm_num) (by norm_num)

theorem nonNeg_cases (x : F64) (h : x.NonNeg) :
    x = F64.inf false ∨ (∃ n, x = F64.fin false n) ∨ x = F64.fin true 0 := by
  unfold F64.NonNeg at h
  cases x with
  | nan => simp [F64.le] at h
  | inf s =>
    cases s with
    | false => left; rfl
    | true => simp [F64.le] at h
  | fin s n =>
    cases s with
    | false => right; left; exact ⟨n, rfl⟩
    | true =>
      right; right
      simp only [F64.le, decide_eq_true_eq, if_true, Bool.false_eq_true, if_false] at h
      have : n = 0 := by omega
      rw [this]

theorem nonNeg_inf : (F64.inf false).NonNeg := by
  unfold F64.NonNeg; rfl

theorem nonNeg_fin (n : Nat) : (F64.fin false n).NonNeg := by
  unfold F64.NonNeg
  simp [F64.le]

theorem nonNeg_negZero : (F64.fin true 0).NonNeg := by
  unfold F64.NonNeg; rfl

theorem roundNE_shape (s : Bool) (a b : Nat) :
    (roundNE s a b = F64.fin s (roundUnits a b) ∧ roundUnits a b < f64Top)
      ∨ (roundNE s a b = F64.inf s ∧ f64Top ≤ roundUnits a b) := by
  unfold roundNE
  by_cases h : roundUnits a b < f64Top
  · left; simp [h]
  · right; simp [h]; omega

theorem sat_roundNE (s : Bool) (a b : Nat) :
    (roundNE s a b).sat = min (roundUnits a b) f64Top ∧ (roundNE s a b).inRange := by
  rcases roundNE_shape s a b with ⟨he, h⟩ | ⟨he, h⟩
  · rw [he]
    exact ⟨rfl, h⟩
  · rw [he]
    refine ⟨?_, trivial⟩
    show f64Top = min (roundUnits a b) f64Top
    omega

theorem nonNeg_roundNE (a b : Nat) : (roundNE false a b).NonNeg := by
  rcases roundNE_shape false a b with ⟨he, _⟩ | ⟨he, _⟩
  · rw [he]; exact nonNeg_fin _
  · rw [he]; exact nonNeg_inf

theorem roundNE_zero (s : Bool) (b : Nat) : roundNE s 0 b = F64.fin s 0 := by
  unfold roundNE
  rw [roundUnits_zero]
  simp [f64Top_pos]

theorem roundUnits_top_le (a : Nat) (h : f64Top ≤ a) : f64Top ≤ roundUnits a 1 := by
  have hex : roundUnits (1 * 2 ^ 2098 * 1) 1 = 1 * 2 ^ 2098 :=
    roundUnits_exact 1 2098 1 (by norm_num) (by norm_num)
  have hm := roundUnits_mono (1 * 2 ^ 2098 * 1) 1 a 1 (by norm_num) (by norm_num)
    (by
      have : f64Top = 1 * 2 ^ 2098 * 1 := f64Top_eq
      omega)
  rw [f64Top_eq]
  omega

/-- Rounding a sum of capped magnitudes and capping the result. -/
theorem cap_round_mono (v w : Nat) (h : v ≤ w) :
    min (roundUnits v 1) f64Top ≤ min (roundUnits w 1) f64Top := by
  have := roundUnits_mono v 1 w 1 (by norm_num) (by norm_num) (by omega)
  omega

theorem cap_round_cap (a b : Nat) :
    min (roundUnits (a + b) 1) f64Top
      = min (roundUnits (min a f64Top + min b f64Top) 1) f64Top := by
  by_cases ha : a < f64Top
  · by_cases hb : b < f64Top
    · rw [Nat.min_eq_left (le_of_lt ha), Nat.min_eq_left (le_of_lt hb)]
    · have h1 := roundUnits_top_le (a + b) (by omega)
      have h2 := roundUnits_top_le (min a f64Top + min b f64Top) (by omega)
      omega
  · have h1 := roundUnits_top_le (a + b) (by omega)
    have h2 := roundUnits_top_le (min a f64Top + min b f64Top) (by omega)
    omega

/-- The sum of two values that are not negative: it is not negative, it is a
`float64`, and its magnitude is the rounded sum of the magnitudes. -/
theorem add_nonNeg (x y : F64) (hx : x.NonNeg) (hy : y.NonNeg) :
    (F64.add x y).NonNeg ∧ (F64.add x y).inRange
      ∧ (F64.add x y).sat = min (roundUnits (x.sat + y.sat) 1) f64Top := by
  have hinf : ∀ v : Nat, f64Top = min (roundUnits (f64Top + v) 1) f64Top := by
    intro v
    have := roundUnits_top_le (f64Top + v) (by omega)
    omega
  have hinf' : ∀ v : Nat, f64Top = min (roundUnits (v + f64Top) 1) f64Top := by
    intro v
    have := roundUnits_top_le (v + f64Top) (by omega)
    omega
  have hfin : ∀ a b : Nat, (roundNE false (a + b) 1).NonNeg ∧ (roundNE false (a + b) 1).inRange
      ∧ (roundNE false (a + b) 1).sat
        = min (roundUnits (min a f64Top + min b f64Top) 1) f64Top := by
    intro a b
    obtain ⟨h1, h2⟩ := sat_roundNE false (a + b) 1
    exact ⟨nonNeg_roundNE _ _, h2, by rw [h1, cap_round_cap]⟩
  rcases nonNeg_cases x hx with rfl | ⟨a, rfl⟩ | rfl
  · rcases nonNeg_cases y hy with rfl | ⟨b, rfl⟩ | rfl
    · exact ⟨nonNeg_inf, trivial, hinf _⟩
    · exact ⟨nonNeg_inf, trivial, hinf _⟩
    · exact ⟨nonNeg_inf, trivial, hinf _⟩
  · rcases nonNeg_cases y hy with rfl | ⟨b, rfl⟩ | rfl
    · exact ⟨nonNeg_inf, trivial, hinf' _⟩
    · have he : F64.add (F64.fin false a) (F64.fin false b) = roundNE false (a + b) 1 := by
        simp [F64.add]
      rw [he]
      exact hfin a b
    · have he : F64.add (F64.fin false a) (F64.fin true 0) = roundNE false (a + 0) 1 := by
        by_cases ha : a = 0
        · subst ha
          simp [F64.add, roundNE_zero]
        · have hpos : 0 < a := Nat.pos_of_ne_zero ha
          simp [F64.add, ha, hpos]
      rw [he]
      exact hfin a 0
  · rcases nonNeg_cases y hy with rfl | ⟨b, rfl⟩ | rfl
    · exact ⟨nonNeg_inf, trivial, hinf' _⟩
    · have he : F64.add (F64.fin true 0) (F64.fin false b) = roundNE false (0 + b) 1 := by
        by_cases hb : b = 0
        · subst hb
          simp [F64.add, roundNE_zero]
        · have hne : ¬ (0 = b) := fun h => hb h.symm
          simp [F64.add, hne]
      rw [he]
      exact hfin 0 b
    · have he : F64.add (F64.fin true 0) (F64.fin true 0) = F64.fin true 0 := by
        simp [F64.add, roundNE_zero]
      rw [he]
      refine ⟨nonNeg_negZero, f64Top_pos, ?_⟩
      show min 0 f64Top = min (roundUnits (min 0 f64Top + min 0 f64Top) 1) f64Top
      simp [roundUnits_zero]

theorem sat_zero (s : Bool) : (F64.fin s 0).sat = 0 := by
  show min 0 f64Top = 0
  simp

/-- From an order between values to an order between magnitudes. -/
theorem sat_of_le (x y : F64) (hx : x.NonNeg) (h : F64.le x y = true) :
    y.NonNeg ∧ x.sat ≤ y.sat := by
  rcases nonNeg_cases x hx with rfl | ⟨a, rfl⟩ | rfl
  · cases y with
    | nan => simp [F64.le] at h
    | inf t =>
      cases t with
      | false => exact ⟨nonNeg_inf, le_refl _⟩
      | true => simp [F64.le] at h
    | fin t b => simp [F64.le] at h
  · cases y with
    | nan => simp [F64.le] at h
    | inf t =>
      cases t with
      | false => exact ⟨nonNeg_inf, Nat.min_le_right _ _⟩
      | true => simp [F64.le] at h
    | fin t b =>
      cases t with
      | false =>
        simp only [F64.le, decide_eq_true_eq, Bool.false_eq_true, if_false] at h
        have hab : a ≤ b := by exact_mod_cast h
        refine ⟨nonNeg_fin _, ?_⟩
        show min a f64Top ≤ min b f64Top
        omega
      | true =>
        simp only [F64.le, decide_eq_true_eq, Bool.false_eq_true, if_false, if_true] at h
        have ha : a = 0 := by omega
        have hb : b = 0 := by omega
        subst ha; subst hb
        exact ⟨nonNeg_negZero, le_refl _⟩
  · cases y with
    | nan => simp [F64.le] at h
    | inf t =>
      cases t with
      | false => exact ⟨nonNeg_inf, by rw [sat_zero]; exact Nat.zero_le _⟩
      | true => simp [F64.le] at h
    | fin t b =>
      cases t with
      | false => exact ⟨nonNeg_fin _, by rw [sat_zero]; exact Nat.zero_le _⟩
      | true =>
        simp only [F64.le, decide_eq_true_eq, if_true] at h
        have hb : b = 0 := by omega
        subst hb
        exact ⟨nonNeg_negZero, le_refl _⟩

/-- From a magnitude to an order: a value that is not negative, of magnitude
at least `k` units, is at least `k` units. -/
theorem le_of_sat (k : Nat) (x : F64) (hx : x.NonNeg) (h : k ≤ x.sat) (hk : 0 < k) :
    F64.le (F64.fin false k) x = true := by
  rcases nonNeg_cases x hx with rfl | ⟨a, rfl⟩ | rfl
  · rfl
  · have hka : k ≤ a := by
      have : min a f64Top ≤ a := Nat.min_le_left _ _
      exact le_trans h this
    simp only [F64.le, decide_eq_true_eq, Bool.false_eq_true, if_false]
    exact_mod_cast hka
  · rw [sat_zero] at h
    omega

/-- A value that is not negative and at most `k` units, `k` below `2^1024`, is
finite with a magnitude of at most `k`. -/
theorem fin_of_le (x : F64) (k : Nat) (hx : x.NonNeg) (h : F64.le x (F64.fin false k) = true) :
    ∃ s n, x = F64.fin s n ∧ n ≤ k ∧ (s = false ∨ n = 0) := by
  rcases nonNeg_cases x hx with rfl | ⟨a, rfl⟩ | rfl
  · simp [F64.le] at h
  · simp only [F64.le, decide_eq_true_eq, Bool.false_eq_true, if_false] at h
    exact ⟨false, a, rfl, by exact_mod_cast h, Or.inl rfl⟩
  · exact ⟨true, 0, rfl, Nat.zero_le _, Or.inr rfl⟩

/-! ## `float64`: quotient, product and conversions of values that are not negative -/

theorem f64Unit_eq : f64Unit = 2 ^ 1074 := rfl

theorem roundUnits_units (c : Nat) (hc : c < 2 ^ 53) (b : Nat) (hb : 0 < b) :
    roundUnits (c * f64Unit * b) b = c * f64Unit := by
  rw [f64Unit_eq]
  exact roundUnits_exact c 1074 b hc hb

theorem roundNE_units (c : Nat) (hc : c < 2 ^ 53) (b : Nat) (hb : 0 < b) :
    roundNE false (c * f64Unit * b) b = F64.fin false (c * f64Unit) := by
  unfold roundNE
  rw [roundUnits_units c hc b hb, if_pos (unit_mul_lt_top c hc)]

/-- The conversion of an integer `0 ≤ k < 2^53` is exact. -/
theorem ofInt_small (k : Nat) (hk : k < 2 ^ 53) :
    F64.ofInt (k : Int) = F64.fin false (k * f64Unit) := by
  unfold F64.ofInt
  have h1 : decide ((k : Int) < 0) = false := by simp
  have h2 : (k : Int).natAbs = k := Int.natAbs_ofNat k
  rw [h1, h2]
  have := roundNE_units k hk 1 (by norm_num)
  rwa [Nat.mul_one] at this

/-- A constant that is an integer `n < 2^53` is exact. -/
theorem lit_small (n : Nat) (hn : n < 2 ^ 53) : F64.lit n 1 = F64.fin false (n * f64Unit) := by
  unfold F64.lit
  rw [if_neg (by norm_num)]
  have := roundNE_units n hn 1 (by norm_num)
  rwa [Nat.mul_one] at this

theorem nonNeg_lit (n d : Nat) (hd : 0 < d) : (F64.lit n d).NonNeg := by
  unfold F64.lit
  rw [if_neg (by omega)]
  exact nonNeg_roundNE _ _

theorem nonNeg_ofInt (k : Int) (hk : 0 ≤ k) : (F64.ofInt k).NonNeg := by
  unfold F64.ofInt
  have h1 : decide (k < 0) = false := by simp; omega
  rw [h1]
  exact nonNeg_roundNE _ _

/-- The conversion of an integer `k ≥ c`, for `0 ≤ c < 2^53`, has a magnitude of
at least `c`. -/
theorem sat_ofInt_ge (c : Nat) (hc : c < 2 ^ 53) (k : Int) (hk : (c : Int) ≤ k) :
    c * f64Unit ≤ (F64.ofInt k).sat := by
  have hk0 : 0 ≤ k := le_trans (Int.ofNat_nonneg c) hk
  unfold F64.ofInt
  have h1 : decide (k < 0) = false := by simp; omega
  rw [h1, (sat_roundNE false _ 1).1]
  have hck : c ≤ k.natAbs := by omega
  have hm := roundUnits_mono (c * f64Unit * 1) 1 (k.natAbs * f64Unit) 1 (by norm_num)
    (by norm_num) (by
      simp only [Nat.mul_one]
      exact Nat.mul_le_mul_right _ hck)
  rw [roundUnits_units c hc 1 (by norm_num)] at hm
  have := unit_mul_lt_top c hc
  omega

/-- `c / L` for an integer constant `0 ≤ c < 2^53` and a `float64` `L ≥ 1`: the
quotient is finite, not negative and at most `c`; it is 0 for `L = +Inf` and
the rounded quotient of the magnitudes otherwise. -/
theorem div_by_ge_one (c : Nat) (hc : c < 2 ^ 53) (L : F64) (hL : L.NonNeg)
    (hr : L.inRange) (hU : f64Unit ≤ L.sat) :
    (L = F64.inf false ∧ F64.div (F64.fin false (c * f64Unit)) L = F64.fin false 0)
      ∨ (∃ n, L = F64.fin false n ∧ f64Unit ≤ n ∧ L.sat = n
          ∧ F64.div (F64.fin false (c * f64Unit)) L
              = F64.fin false (roundUnits (c * f64Unit * f64Unit) n)
          ∧ roundUnits (c * f64Unit * f64Unit) n ≤ c * f64Unit) := by
  have hUpos := f64Unit_pos
  rcases nonNeg_cases L hL with rfl | ⟨n, rfl⟩ | rfl
  · left
    exact ⟨rfl, rfl⟩
  · right
    have hn : n < f64Top := hr
    have hsat : (F64.fin false n).sat = n := by
      show min n f64Top = n
      omega
    rw [hsat] at hU
    have hn0 : n ≠ 0 := by omega
    have hbound : roundUnits (c * f64Unit * f64Unit) n ≤ c * f64Unit := by
      have hm := roundUnits_mono (c * f64Unit * f64Unit) n (c * f64Unit * f64Unit) f64Unit
        (by omega) hUpos (Nat.mul_le_mul_left _ hU)
      rwa [roundUnits_units c hc f64Unit hUpos] at hm
    refine ⟨n, rfl, hU, hsat, ?_, hbound⟩
    have hlt : roundUnits (c * f64Unit * f64Unit) n < f64Top :=
      lt_of_le_of_lt hbound (unit_mul_lt_top c hc)
    simp only [F64.div, hn0, if_false, bne_self_eq_false, roundNE, hlt, if_true]
  · rw [sat_zero] at hU
    omega

/-- The product of a finite value that is not negative and at most `A` with a
value that is not negative and at most `B`: it is the rounded product of the
magnitudes, finite, not negative and at most `A * B`. -/
theorem mul_bounded (A B d z : Nat) (s : Bool) (hAB : A * B < 2 ^ 53) (hd : d ≤ A * f64Unit)
    (hz : z ≤ B * f64Unit) (hs : s = false ∨ z = 0) :
    ∃ σ, F64.mul (F64.fin false d) (F64.fin s z) = F64.fin σ (roundUnits (d * z) f64Unit)
      ∧ roundUnits (d * z) f64Unit ≤ A * B * f64Unit
      ∧ (σ = false ∨ roundUnits (d * z) f64Unit = 0) := by
  have hUpos := f64Unit_pos
  have hbound : roundUnits (d * z) f64Unit ≤ A * B * f64Unit := by
    have hm := roundUnits_mono (d * z) f64Unit (A * B * f64Unit * f64Unit) f64Unit hUpos hUpos
      (by
        apply Nat.mul_le_mul_right
        calc d * z ≤ A * f64Unit * (B * f64Unit) := Nat.mul_le_mul hd hz
          _ = A * B * f64Unit * f64Unit := by ring)
    rwa [roundUnits_units (A * B) hAB f64Unit hUpos] at hm
  have hlt : roundUnits (d * z) f64Unit < f64Top :=
    lt_of_le_of_lt hbound (unit_mul_lt_top (A * B) hAB)
  refine ⟨(false != s), ?_, hbound, ?_⟩
  · simp only [F64.mul, roundNE, hlt, if_true]
  · rcases hs with hs | hs
    · left; rw [hs]; rfl
    · right; rw [hs, Nat.mul_zero, roundUnits_zero]

/-- The conversion to `int` of a finite value that is not negative and in
range: the whole units of its magnitude. -/
theorem toInt_fin (u : F64 → Int) (σ : Bool) (r : Nat) (hσ : σ = false ∨ r = 0)
    (hr : ((r / f64Unit : Nat) : Int) ≤ maxInt64) :
    F64.toInt u (F64.fin σ r) = ((r / f64Unit : Nat) : Int) := by
  have h0 : (0 : Int) ≤ ((r / f64Unit : Nat) : Int) := Int.ofNat_nonneg _
  rcases hσ with hσ | hσ
  · subst hσ
    have hin : inInt64 ((r / f64Unit : Nat) : Int) := ⟨by unfold minInt64; omega, hr⟩
    simp only [F64.toInt, Bool.false_eq_true, if_false, hin, if_true]
  · subst hσ
    have hin0 : inInt64 (0 : Int) := by decide
    cases σ with
    | false => simp [F64.toInt, hin0]
    | true => simp [F64.toInt, hin0]

theorem roundNE_le (a b a' b' : Nat) (h : roundUnits a b ≤ roundUnits a' b') :
    F64.le (roundNE false a b) (roundNE false a' b') = true := by
  rcases roundNE_shape false a b with ⟨he, h1⟩ | ⟨he, h1⟩
  · rcases roundNE_shape false a' b' with ⟨he', h1'⟩ | ⟨he', h1'⟩
    · rw [he, he']
      simp only [F64.le, decide_eq_true_eq, Bool.false_eq_true, if_false]
      exact_mod_cast h
    · rw [he, he']
      rfl
  · rcases roundNE_shape false a' b' with ⟨he', h1'⟩ | ⟨he', h1'⟩
    · omega
    · rw [he, he']
      rfl

/-! ## Adaptive sizing in `float64` -/

theorem zoomBase_range (h b : Int) (hh : h = 525 ∨ h = 366 ∨ h = 365) (hb0 : 0 ≤ b)
    (hb5 : b ≤ 5) :
    F64.lt (F64.fin false 0)
        (F64.sub (F64.div (F64.ofInt h) (F64.lit 366 1))
          (F64.div (F64.ofInt (b + 1)) (F64.lit 10 1))) = true
      ∧ F64.le (F64.sub (F64.div (F64.ofInt h) (F64.lit 366 1))
          (F64.div (F64.ofInt (b + 1)) (F64.lit 10 1))) (F64.ofInt 2) = true
      ∧ (F64.sub (F64.div (F64.ofInt h) (F64.lit 366 1))
          (F64.div (F64.ofInt (b + 1)) (F64.lit 10 1))).NonNeg := by
  rcases hh with rfl | rfl | rfl <;> interval_cases b <;> decide

theorem cap_round_ge (c : Nat) (hc : c < 2 ^ 53) (v : Nat) (h : c * f64Unit ≤ v) :
    c * f64Unit ≤ min (roundUnits v 1) f64Top := by
  have hm := roundUnits_mono (c * f64Unit * 1) 1 v 1 (by norm_num) (by norm_num)
    (by simp only [Nat.mul_one]; exact h)
  rw [roundUnits_units c hc 1 (by norm_num)] at hm
  have := unit_mul_lt_top c hc
  omega

/-- The magnitude of `largeness` as a function of the magnitudes of its three
terms. -/
theorem largeness_sat (m : MathEnv) (laws : PowLaws m.pow) (n np b : Int) (k : Nat)
    (hn : 0 ≤ n) (hb : 0 ≤ b) (hk : (k : Int) = np - b) (hk5 : k < 2 ^ 53) :
    (largeness (f64Ops m) n np b).NonNeg ∧ (largeness (f64Ops m) n np b).inRange
      ∧ (largeness (f64Ops m) n np b).sat
        = min (roundUnits
            (min (roundUnits ((m.pow (F64.ofInt n) (F64.lit 60 100)).sat + k * f64Unit) 1)
                f64Top
              + (m.pow (F64.ofInt b) (F64.lit 7 10)).sat) 1) f64Top := by
  have hP : (m.pow (F64.ofInt n) (F64.lit 60 100)).NonNeg :=
    laws.pow_nonNeg _ 60 100 (by norm_num) (by norm_num) (nonNeg_ofInt n hn)
  have hQ : (m.pow (F64.ofInt b) (F64.lit 7 10)).NonNeg :=
    laws.pow_nonNeg _ 7 10 (by norm_num) (by norm_num) (nonNeg_ofInt b hb)
  have hM : m.pow (F64.ofInt (np - b)) (F64.lit 1 1) = F64.fin false (k * f64Unit) := by
    rw [laws.pow_one, ← hk, ofInt_small k hk5]
  have hMs : (F64.fin false (k * f64Unit)).sat = k * f64Unit := by
    show min (k * f64Unit) f64Top = k * f64Unit
    have := unit_mul_lt_top k hk5
    omega
  have hL : largeness (f64Ops m) n np b
      = F64.add (F64.add (m.pow (F64.ofInt n) (F64.lit 60 100))
            (m.pow (F64.ofInt (np - b)) (F64.lit 1 1)))
          (m.pow (F64.ofInt b) (F64.lit 7 10)) := rfl
  rw [hL, hM]
  obtain ⟨h1, _, h3⟩ := add_nonNeg _ _ hP (nonNeg_fin (k * f64Unit))
  obtain ⟨g1, g2, g3⟩ := add_nonNeg _ _ h1 hQ
  refine ⟨g1, g2, ?_⟩
  rw [g3, h3, hMs]

/-- `largeness ≥ c` for an integer `c < 2^53` as soon as one of its three
terms is. -/
theorem largeness_ge (m : MathEnv) (laws : PowLaws m.pow) (n np b : Int) (k c : Nat)
    (hn : 0 ≤ n) (hb : 0 ≤ b) (hk : (k : Int) = np - b) (hk5 : k < 2 ^ 53) (hc : c < 2 ^ 53)
    (h : c * f64Unit ≤ (m.pow (F64.ofInt n) (F64.lit 60 100)).sat ∨ c ≤ k
      ∨ c * f64Unit ≤ (m.pow (F64.ofInt b) (F64.lit 7 10)).sat) :
    c * f64Unit ≤ (largeness (f64Ops m) n np b).sat := by
  rw [(largeness_sat m laws n np b k hn hb hk hk5).2.2]
  apply cap_round_ge c hc
  rcases h with h | h | h
  · have := cap_round_ge c hc
      ((m.pow (F64.ofInt n) (F64.lit 60 100)).sat + k * f64Unit) (by omega)
    omega
  · have hck : c * f64Unit ≤ k * f64Unit := Nat.mul_le_mul_right _ h
    have := cap_round_ge c hc
      ((m.pow (F64.ofInt n) (F64.lit 60 100)).sat + k * f64Unit) (by omega)
    omega
  · omega

theorem sat_fin_units (c : Nat) (hc : c < 2 ^ 53) (s : Bool) :
    (F64.fin s (c * f64Unit)).sat = c * f64Unit := by
  show min (c * f64Unit) f64Top = c * f64Unit
  have := unit_mul_lt_top c hc
  omega

/-- `largeness ≥ 1` when there is at least one paragraph and the counts are
those of at most `2^53` paragraphs. -/
theorem largeness_ge_one (m : MathEnv) (laws : PowLaws m.pow) (n np b : Int) (k : Nat)
    (hn : 0 ≤ n) (hb : 0 ≤ b) (hk : (k : Int) = np - b) (hk5 : k < 2 ^ 53) (hnp : 1 ≤ np) :
    1 * f64Unit ≤ (largeness (f64Ops m) n np b).sat := by
  apply largeness_ge m laws n np b k 1 hn hb hk hk5 (by norm_num)
  by_cases hk1 : 1 ≤ k
  · right; left; exact hk1
  · right; right
    have hb1 : 1 ≤ b := by omega
    have hle := laws.pow_ge_one b hb1
    have h1 : (F64.ofInt 1).NonNeg := nonNeg_ofInt 1 (by norm_num)
    have h2 := (sat_of_le _ _ h1 hle).2
    have h3 : F64.ofInt 1 = F64.fin false (1 * f64Unit) := ofInt_small 1 (by norm_num)
    rw [h3, sat_fin_units 1 (by norm_num)] at h2
    exact h2

/-- `200 / L` for `1 ≤ La ≤ Lb`: both quotients are finite and not negative,
the second is at most the first, and the first at most 200. -/
theorem div200_anti (La Lb : F64) (ha : La.NonNeg) (hb : Lb.NonNeg) (hra : La.inRange)
    (hrb : Lb.inRange) (hU : 1 * f64Unit ≤ La.sat) (hab : La.sat ≤ Lb.sat) :
    ∃ da db, F64.div (F64.lit 200 1) La = F64.fin false da
      ∧ F64.div (F64.lit 200 1) Lb = F64.fin false db ∧ db ≤ da ∧ da ≤ 200 * f64Unit
      ∧ (La = Lb → da = db)
      ∧ (∀ c : Nat, 0 < c → c * f64Unit ≤ Lb.sat →
          db ≤ roundUnits (200 * f64Unit * f64Unit) (c * f64Unit)) := by
  have hUpos := f64Unit_pos
  have hlit : F64.lit 200 1 = F64.fin false (200 * f64Unit) := lit_small 200 (by norm_num)
  rw [hlit]
  rw [Nat.one_mul] at hU
  rcases div_by_ge_one 200 (by norm_num) La ha hra hU with
    ⟨hai, had⟩ | ⟨na, hae, hna, hsa, had, hbda⟩
  · rcases div_by_ge_one 200 (by norm_num) Lb hb hrb (le_trans hU hab) with
      ⟨hbi, hbd⟩ | ⟨nb, hbe, hnb, hsb, hbd, hbdb⟩
    · exact ⟨0, 0, had, hbd, le_refl _, Nat.zero_le _, fun _ => rfl,
        fun _ _ _ => Nat.zero_le _⟩
    · exfalso
      rw [hai] at hab
      have h1 : (F64.inf false).sat = f64Top := rfl
      have h2 : nb < f64Top := by
        rw [hbe] at hrb
        exact hrb
      omega
  · rcases div_by_ge_one 200 (by norm_num) Lb hb hrb (le_trans hU hab) with
      ⟨hbi, hbd⟩ | ⟨nb, hbe, hnb, hsb, hbd, hbdb⟩
    · refine ⟨_, 0, had, hbd, Nat.zero_le _, hbda, ?_, fun _ _ _ => Nat.zero_le _⟩
      intro he
      rw [hae, hbi] at he
      exact absurd he (by simp)
    · refine ⟨_, _, had, hbd, ?_, hbda, ?_, ?_⟩
      · apply roundUnits_mono _ _ _ _ (by omega) (by omega)
        apply Nat.mul_le_mul_left
        omega
      · intro he
        rw [hae, hbe] at he
        injection he with _ hn
        rw [hn]
      · intro c hcpos hc
        apply roundUnits_mono _ _ _ _ (by omega) (Nat.mul_pos hcpos hUpos)
        apply Nat.mul_le_mul_left
        omega

/-- The size bonus `int(D * Z)` for a finite quotient `0 ≤ D ≤ 200` and a zoom
`0 ≤ Z ≤ 4`: the whole units of the rounded product, between 0 and 800. -/
theorem bonus_eval (u : F64 → Int) (d z : Nat) (s : Bool) (hd : d ≤ 200 * f64Unit)
    (hz : z ≤ 4 * f64Unit) (hs : s = false ∨ z = 0) :
    F64.toInt u (F64.mul (F64.fin false d) (F64.fin s z))
        = ((roundUnits (d * z) f64Unit / f64Unit : Nat) : Int)
      ∧ roundUnits (d * z) f64Unit / f64Unit ≤ 800 := by
  have hUpos := f64Unit_pos
  obtain ⟨σ, he, hbound, hσ⟩ := mul_bounded 200 4 d z s (by norm_num) hd hz hs
  have h800 : roundUnits (d * z) f64Unit / f64Unit ≤ 800 := by
    rw [Nat.div_le_iff_le_mul_add_pred hUpos]
    have : 200 * 4 * f64Unit = 800 * f64Unit := by ring
    omega
  refine ⟨?_, h800⟩
  rw [he]
  apply toInt_fin u σ _ hσ
  have : ((roundUnits (d * z) f64Unit / f64Unit : Nat) : Int) ≤ 800 := by exact_mod_cast h800
  unfold maxInt64
  omega

/-- The zoom is finite, not negative and at most 4. -/
theorem zoom_shape (m : MathEnv) (laws : PowLaws m.pow) (h b : Int)
    (hh : h = 525 ∨ h = 366 ∨ h = 365) (hb0 : 0 ≤ b) (hb5 : b ≤ 5) :
    ∃ s z, zoomOf (f64Ops m) h b = F64.fin s z ∧ z ≤ 4 * f64Unit ∧ (s = false ∨ z = 0) := by
  obtain ⟨_, h2, h3⟩ := zoomBase_range h b hh hb0 hb5
  have hz : zoomOf (f64Ops m) h b
      = m.pow (F64.sub (F64.div (F64.ofInt h) (F64.lit 366 1))
          (F64.div (F64.ofInt (b + 1)) (F64.lit 10 1))) (F64.lit 12 10) := rfl
  have hnn := laws.pow_nonNeg _ 12 10 (by norm_num) (by norm_num) h3
  have hle := laws.pow_le_four _ h3 h2
  have h4 : F64.ofInt 4 = F64.fin false (4 * f64Unit) := ofInt_small 4 (by norm_num)
  rw [h4] at hle
  rw [hz]
  exact fin_of_le _ _ hnn hle

/-- The size bonus in `float64`: a whole number between 0 and 800 that does not
grow with the number of characters. -/
theorem addedSize_f64 (m : MathEnv) (laws : PowLaws m.pow) (h n n' np b : Int)
    (hh : h = 525 ∨ h = 366 ∨ h = 365) (hn : 0 ≤ n) (hnn : n ≤ n') (hb : 0 ≤ b)
    (hbn : b ≤ np) (hnp : 1 ≤ np) (hnp5 : np ≤ 5) :
    0 ≤ addedSize (f64Ops m) h n np b ∧ addedSize (f64Ops m) h n np b ≤ 800
      ∧ addedSize (f64Ops m) h n' np b ≤ addedSize (f64Ops m) h n np b := by
  have hUpos := f64Unit_pos
  obtain ⟨k, hk⟩ : ∃ k : Nat, (k : Int) = np - b := ⟨(np - b).toNat, by omega⟩
  have hk5 : k < 2 ^ 53 := by
    have : k ≤ 5 := by omega
    omega
  have hb5 : b ≤ 5 := by omega
  have hn' : 0 ≤ n' := le_trans hn hnn
  obtain ⟨s, z, hZ, hz4, hs⟩ := zoom_shape m laws h b hh hb hb5
  obtain ⟨a1, a2, a3⟩ := largeness_sat m laws n np b k hn hb hk hk5
  obtain ⟨b1, b2, b3⟩ := largeness_sat m laws n' np b k hn' hb hk hk5
  have a4 := largeness_ge_one m laws n np b k hn hb hk hk5 hnp
  have b4 := largeness_ge_one m laws n' np b k hn' hb hk hk5 hnp
  have hadd : ∀ x : Int, addedSize (f64Ops m) h x np b
      = F64.toInt m.intOfUnrepresentable
          (F64.mul (F64.div (F64.lit 200 1) (largeness (f64Ops m) x np b))
            (zoomOf (f64Ops m) h b)) := fun _ => rfl
  -- the bonus at `n`
  obtain ⟨d, _, hD, _, _, hd200, _, _⟩ := div200_anti _ _ a1 a1 a2 a2 a4 (le_refl _)
  obtain ⟨e1, e2⟩ := bonus_eval m.intOfUnrepresentable d z s hd200 hz4 hs
  have hval : addedSize (f64Ops m) h n np b
      = ((roundUnits (d * z) f64Unit / f64Unit : Nat) : Int) := by
    rw [hadd, hD, hZ, e1]
  have h0 : 0 ≤ addedSize (f64Ops m) h n np b := by
    rw [hval]; exact Int.ofNat_nonneg _
  have h800 : addedSize (f64Ops m) h n np b ≤ 800 := by
    rw [hval]; exact_mod_cast e2
  refine ⟨h0, h800, ?_⟩
  by_cases hbig : n' ≤ 4294967296
  · -- `largeness` does not shrink from `n` to `n'`
    have hP : (m.pow (F64.ofInt n) (F64.lit 60 100)).NonNeg :=
      laws.pow_nonNeg _ 60 100 (by norm_num) (by norm_num) (nonNeg_ofInt n hn)
    have hPP := (sat_of_le _ _ hP (laws.pow_mono n n' hn hnn hbig)).2
    have hLL : (largeness (f64Ops m) n np b).sat ≤ (largeness (f64Ops m) n' np b).sat := by
      rw [a3, b3]
      apply cap_round_mono
      have := cap_round_mono
        ((m.pow (F64.ofInt n) (F64.lit 60 100)).sat + k * f64Unit)
        ((m.pow (F64.ofInt n') (F64.lit 60 100)).sat + k * f64Unit) (by omega)
      omega
    obtain ⟨da, db, hDa, hDb, hdba, hda200, _, _⟩ := div200_anti _ _ a1 b1 a2 b2 a4 hLL
    obtain ⟨f1, _⟩ := bonus_eval m.intOfUnrepresentable da z s hda200 hz4 hs
    obtain ⟨g1, _⟩ := bonus_eval m.intOfUnrepresentable db z s (le_trans hdba hda200) hz4 hs
    rw [hadd n', hadd n, hDa, hDb, hZ, f1, g1]
    have hm := roundUnits_mono (db * z) f64Unit (da * z) f64Unit hUpos hUpos
      (Nat.mul_le_mul_right _ (Nat.mul_le_mul_right _ hdba))
    exact_mod_cast Nat.div_le_div_right hm
  · -- beyond `2^32` characters the bonus is 0
    have hlarge := laws.pow_large n' (by omega)
    have h1024 : F64.ofInt 1024 = F64.fin false (1024 * f64Unit) := ofInt_small 1024 (by norm_num)
    have hs1 := (sat_of_le _ _ (nonNeg_ofInt 1024 (by norm_num)) hlarge).2
    rw [h1024, sat_fin_units 1024 (by norm_num)] at hs1
    have hL1024 := largeness_ge m laws n' np b k 1024 hn' hb hk hk5 (by norm_num) (Or.inl hs1)
    obtain ⟨da, db, _, hDb, hdba, hda200, _, hdbc⟩ :=
      div200_anti _ _ b1 b1 b2 b2 b4 (le_refl _)
    have hdb200 : db ≤ 200 * f64Unit := le_trans hdba hda200
    have hdb := hdbc 1024 (by norm_num) hL1024
    have hex : roundUnits (200 * f64Unit * f64Unit) (1024 * f64Unit) = 25 * 2 ^ 1067 := by
      have hval : 200 * f64Unit * f64Unit = 25 * 2 ^ 1067 * (1024 * f64Unit) := by
        rw [f64Unit_eq]; ring
      rw [hval]
      exact roundUnits_exact 25 1067 _ (by norm_num) (Nat.mul_pos (by norm_num) hUpos)
    rw [hex] at hdb
    obtain ⟨g1, _⟩ := bonus_eval m.intOfUnrepresentable db z s hdb200 hz4 hs
    have hprod : roundUnits (db * z) f64Unit ≤ 100 * 2 ^ 1067 := by
      have hm := roundUnits_mono (db * z) f64Unit (100 * 2 ^ 1067 * f64Unit) f64Unit hUpos hUpos
        (by
          apply Nat.mul_le_mul_right
          calc db * z ≤ 25 * 2 ^ 1067 * (4 * f64Unit) := Nat.mul_le_mul hdb hz4
            _ = 100 * 2 ^ 1067 * f64Unit := by ring)
      rwa [roundUnits_exact 100 1067 _ (by norm_num) hUpos] at hm
    have hzero : roundUnits (db * z) f64Unit / f64Unit = 0 := by
      apply Nat.div_eq_of_lt
      have : (100 * 2 ^ 1067 : Nat) < f64Unit := by
        rw [f64Unit_eq]
        norm_num
      omega
    rw [hadd n', hDb, hZ, g1, hzero]
    exact h0

/-! ## The reference implementation of `math.Pow` -/

theorem lit_fin (n d : Nat) (hd : 0 < d) (h : roundUnits (n * f64Unit) d < f64Top) :
    F64.lit n d = F64.fin false (roundUnits (n * f64Unit) d) := by
  unfold F64.lit roundNE
  rw [if_neg (by omega), if_pos h]

theorem lit_exponents :
    (F64.lit 60 100 ≠ F64.lit 1 1 ∧ F64.lit 7 10 ≠ F64.lit 1 1 ∧ F64.lit 12 10 ≠ F64.lit 1 1)
      ∧ (F64.lit 60 100 = F64.fin false (roundUnits (60 * f64Unit) 100)
        ∧ toFxNearest (roundUnits (60 * f64Unit) 100) = 600000000000)
      ∧ (F64.lit 7 10 = F64.fin false (roundUnits (7 * f64Unit) 10)
        ∧ toFxNearest (roundUnits (7 * f64Unit) 10) = 700000000000)
      ∧ (F64.lit 12 10 = F64.fin false (roundUnits (12 * f64Unit) 10)
        ∧ toFxNearest (roundUnits (12 * f64Unit) 10) = 1200000000000) := by
  refine ⟨⟨by decide, by decide, by decide⟩, ⟨lit_fin 60 100 (by norm_num) (by decide), by rfl⟩,
    ⟨lit_fin 7 10 (by norm_num) (by decide), by rfl⟩,
    ⟨lit_fin 12 10 (by norm_num) (by decide), by rfl⟩⟩

/-- The reference power of a finite base and a finite exponent other than 1,
neither of them negative. -/
theorem refPow_fin (s : Bool) (n e : Nat) (hs : s = false ∨ n = 0)
    (hy : F64.fin false e ≠ F64.lit 1 1) :
    refPow (F64.fin s n) (F64.fin false e) = ofFx (fxPow (toFx n) (toFxNearest e)) := by
  have hx : (F64.fin s n).NonNeg := by
    rcases hs with hs | hs
    · rw [hs]; exact nonNeg_fin n
    · rw [hs]
      cases s with
      | false => exact nonNeg_fin 0
      | true => exact nonNeg_negZero
  unfold refPow
  rw [if_neg hy, if_pos ⟨hx, nonNeg_fin e⟩]

theorem refPow_inf (e : Nat) (hy : F64.fin false e ≠ F64.lit 1 1) :
    refPow (F64.inf false) (F64.fin false e) = F64.inf false := by
  unfold refPow
  rw [if_neg hy, if_pos ⟨nonNeg_inf, nonNeg_fin e⟩]

theorem toFx_mono (a b : Nat) (h : a ≤ b) : toFx a ≤ toFx b := by
  unfold toFx
  exact_mod_cast Nat.div_le_div_right (Nat.mul_le_mul_right _ h)

theorem toFx_units (c : Nat) : toFx (c * f64Unit) = ((c * fxScale : Nat) : Int) := by
  unfold toFx
  have : c * f64Unit * fxScale = c * fxScale * f64Unit := by ring
  rw [this, Nat.mul_div_cancel _ f64Unit_pos]

/-- The conversion of a fixed-point decimal is monotone, and exact on the
integers below `2^53`. -/
theorem ofFx_le (v w : Int) (h : v ≤ w) : F64.le (ofFx v) (ofFx w) = true := by
  unfold ofFx
  apply roundNE_le
  apply roundUnits_mono _ _ _ _ fxScale_pos fxScale_pos
  apply Nat.mul_le_mul_right
  exact Nat.mul_le_mul_right _ (Int.toNat_le_toNat h)

theorem ofFx_units (c : Nat) (hc : c < 2 ^ 53) :
    ofFx ((c * fxScale : Nat) : Int) = F64.fin false (c * f64Unit) := by
  unfold ofFx
  rw [Int.toNat_ofNat]
  have : c * fxScale * f64Unit = c * f64Unit * fxScale := by ring
  rw [this]
  exact roundNE_units c hc fxScale fxScale_pos

theorem ofInt_shape (n : Int) (hn : 0 ≤ n) :
    F64.ofInt n = F64.inf false
      ∨ ∃ r, F64.ofInt n = F64.fin false r ∧ (F64.ofInt n).sat = r := by
  unfold F64.ofInt
  have h1 : decide (n < 0) = false := by simp; omega
  rw [h1]
  rcases roundNE_shape false (n.natAbs * f64Unit) 1 with ⟨he, h⟩ | ⟨he, _⟩
  · right
    refine ⟨_, he, ?_⟩
    rw [he]
    show min _ f64Top = _
    omega
  · left
    exact he

theorem refPow_laws : PowLaws refPow where
  pow_one := by
    intro x
    unfold refPow
    rw [if_pos rfl]
  pow_nonNeg := by
    intro x n d _ hd hx
    unfold refPow
    by_cases hy : F64.lit n d = F64.lit 1 1
    · rw [if_pos hy]
      exact hx
    · rw [if_neg hy, if_pos ⟨hx, nonNeg_lit n d hd⟩]
      split
      · exact nonNeg_roundNE _ _
      · exact nonNeg_inf
  pow_ge_one := by
    intro n hn
    obtain ⟨⟨_, h7, _⟩, _, ⟨he, hfx⟩, _⟩ := lit_exponents
    have h1 : F64.ofInt 1 = F64.fin false (1 * f64Unit) := ofInt_small 1 (by norm_num)
    rw [he] at h7 ⊢
    rw [h1]
    rcases ofInt_shape n (by omega) with hinf | ⟨r, hr, hsat⟩
    · rw [hinf, refPow_inf _ h7]
      rfl
    · have hge := sat_ofInt_ge 1 (by norm_num) n (by exact_mod_cast hn)
      rw [hsat] at hge
      rw [hr, refPow_fin false r _ (Or.inl rfl) h7, hfx]
      have hx : (fxScale : Int) ≤ toFx r := by
        have := toFx_mono _ _ hge
        rw [toFx_units] at this
        simpa using this
      have hp := fxPow_one_le (toFx r) 700000000000 (by norm_num) hx
      have hle := ofFx_le _ _ hp
      have hu := ofFx_units 1 (by norm_num)
      rw [Nat.one_mul] at hu
      rw [hu] at hle
      rw [Nat.one_mul]
      exact hle
  pow_le_four := by
    intro z hz hle
    obtain ⟨⟨_, _, h12⟩, _, _, ⟨he, hfx⟩⟩ := lit_exponents
    have h2 : F64.ofInt 2 = F64.fin false (2 * f64Unit) := ofInt_small 2 (by norm_num)
    have h4 : F64.ofInt 4 = F64.fin false (4 * f64Unit) := ofInt_small 4 (by norm_num)
    rw [h2] at hle
    obtain ⟨s, n, hzs, hn, hs⟩ := fin_of_le z _ hz hle
    rw [he] at h12 ⊢
    rw [hzs, refPow_fin s n _ hs h12, hfx, h4]
    have hx : toFx n ≤ ((2 : Nat) : Int) * (fxScale : Int) := by
      have := toFx_mono _ _ hn
      rw [toFx_units] at this
      exact_mod_cast this
    have hp := fxPow_le_sq (toFx n) 1200000000000 2 (by decide) (by norm_num) hx
    have hle' := ofFx_le _ _ hp
    have hu := ofFx_units 4 (by norm_num)
    have h22 : (2 * 2 * fxScale : Nat) = 4 * fxScale := by ring
    rw [h22, hu] at hle'
    exact hle'
  pow_mono := by
    intro a b ha hab hb
    obtain ⟨⟨h6, _, _⟩, ⟨he, hfx⟩, _, _⟩ := lit_exponents
    obtain ⟨a', rfl⟩ := Int.eq_ofNat_of_zero_le ha
    obtain ⟨b', rfl⟩ := Int.eq_ofNat_of_zero_le (le_trans ha hab)
    have hab' : a' ≤ b' := by exact_mod_cast hab
    have hb' : b' < 2 ^ 53 := by
      have : (b' : Int) ≤ 4294967296 := hb
      have : b' ≤ 4294967296 := by exact_mod_cast this
      omega
    rw [he] at h6 ⊢
    rw [ofInt_small a' (by omega), ofInt_small b' hb',
      refPow_fin false _ _ (Or.inl rfl) h6, refPow_fin false _ _ (Or.inl rfl) h6]
    apply ofFx_le
    apply fxPow_mono
    apply toFx_mono
    exact Nat.mul_le_mul_right _ hab'
  pow_large := by
    intro n hn
    obtain ⟨⟨h6, _, _⟩, ⟨he, hfx⟩, _, _⟩ := lit_exponents
    have h1024 : F64.ofInt 1024 = F64.fin false (1024 * f64Unit) := ofInt_small 1024 (by norm_num)
    rw [he] at h6 ⊢
    rw [h1024]
    rcases ofInt_shape n (by omega) with hinf | ⟨r, hr, hsat⟩
    · rw [hinf, refPow_inf _ h6]
      rfl
    · have hge := sat_ofInt_ge 4294967296 (by norm_num) n (by exact_mod_cast hn)
      rw [hsat] at hge
      rw [hr, refPow_fin false r _ (Or.inl rfl) h6, hfx]
      have hx : toFx (4294967296 * f64Unit) ≤ toFx r := toFx_mono _ _ hge
      rw [toFx_units] at hx
      have hp := fxPow_mono _ _ 600000000000 hx
      have hval : ((1024 * fxScale : Nat) : Int)
          ≤ fxPow ((4294967296 * fxScale : Nat) : Int) 600000000000 := by decide
      have hle := ofFx_le _ _ (le_trans hval hp)
      rw [ofFx_units 1024 (by norm_num)] at hle
      exact hle

/-! ## Adaptive sizing: the formula is well defined -/

theorem toInt_ofInt_small (u : F64 → Int) (k : Nat) (hk : k < 2 ^ 53) :
    F64.toInt u (F64.ofInt (k : Int)) = (k : Int) := by
  rw [ofInt_small k hk, toInt_fin u false _ (Or.inl rfl)]
  · rw [Nat.mul_div_cancel _ f64Unit_pos]
  · rw [Nat.mul_div_cancel _ f64Unit_pos]
    have : (k : Int) < 2 ^ 53 := by exact_mod_cast hk
    unfold maxInt64
    omega

/-- The font size of the adaptive branch in `float64`: the base font size
plus the size bonus. -/
theorem fontSize_f64 (m : MathEnv) (laws : PowLaws m.pow) (env : Env) (style : Style)
    (paragraphs : List String) (hne : paragraphs ≠ [])
    (hmedia : containsMedia env.isMediaURL paragraphs = false) (hlen : paragraphs.length < 6) :
    (drawImage (f64Ops m) env paragraphs style).fontSize
      = (styleGeometry style).fontSize
        + addedSize (f64Ops m) (styleGeometry style).height (totalRunes paragraphs)
            paragraphs.length (blankCount paragraphs) := by
  have hn := totalRunes_nonneg paragraphs
  obtain ⟨hb0, hbn⟩ := blankCount_bounds paragraphs
  have hnp : 1 ≤ (paragraphs.length : Int) := by
    cases paragraphs with
    | nil => exact absurd rfl hne
    | cons p rest => simp
  have hfs := styleGeometry_fontSize style
  have hbase : 18 ≤ (styleGeometry style).fontSize ∧ (styleGeometry style).fontSize ≤ 25 := by
    rw [hfs]
    split <;> omega
  obtain ⟨ha0, ha800, _⟩ := addedSize_f64 m laws (styleGeometry style).height
    (totalRunes paragraphs) (totalRunes paragraphs) paragraphs.length (blankCount paragraphs)
    (styleGeometry_height style) hn (le_refl _) hb0 hbn hnp (by omega)
  simp only [drawImage]
  rw [textFontSize_adaptive (f64Ops m) env.isMediaURL style paragraphs hmedia hlen]
  obtain ⟨k, hk⟩ : ∃ k : Nat, (k : Int) = (styleGeometry style).fontSize
      + addedSize (f64Ops m) (styleGeometry style).height (totalRunes paragraphs)
          paragraphs.length (blankCount paragraphs) := ⟨_, Int.toNat_of_nonneg (by omega)⟩
  rw [← hk]
  have hk53 : k < 2 ^ 53 := by
    have : (k : Int) ≤ 825 := by omega
    have : k ≤ 825 := by exact_mod_cast this
    omega
  exact toInt_ofInt_small m.intOfUnrepresentable k hk53

/-- C24: in the adaptive branch of `drawImage`, computed in `float64`, for
every style and every non-empty list of fewer than six paragraphs without
media, the sizing formula is well defined: `largeness ≥ 1`, so `200/largeness`
is a finite quotient that is not negative; the base of the power in `zoom` is
strictly positive, in exact arithmetic (`366*(blankLines+1) < 10*height`) and
as computed; the size bonus is an integer between 0 and 800; and the font size
is the base font size plus the bonus, so at least the base font size.
`math.Pow` is any function with the properties `PowLaws`. -/
theorem sizing_well_defined (m : MathEnv) (laws : PowLaws m.pow) (env : Env) (style : Style)
    (paragraphs : List String) (hne : paragraphs ≠ [])
    (hmedia : containsMedia env.isMediaURL paragraphs = false) (hlen : paragraphs.length < 6) :
    F64.le (F64.ofInt 1)
        (largeness (f64Ops m) (totalRunes paragraphs) paragraphs.length
          (blankCount paragraphs)) = true
      ∧ (∃ d, F64.div (F64.lit 200 1)
          (largeness (f64Ops m) (totalRunes paragraphs) paragraphs.length
            (blankCount paragraphs)) = F64.fin false d)
      ∧ 366 * (blankCount paragraphs + 1) < 10 * (styleGeometry style).height
      ∧ F64.lt (F64.ofInt 0)
          (zoomBase (f64Ops m) (styleGeometry style).height (blankCount paragraphs)) = true
      ∧ 0 ≤ addedSize (f64Ops m) (styleGeometry style).height (totalRunes paragraphs)
              paragraphs.length (blankCount paragraphs)
      ∧ addedSize (f64Ops m) (styleGeometry style).height (totalRunes paragraphs)
              paragraphs.length (blankCount paragraphs) ≤ 800
      ∧ (drawImage (f64Ops m) env paragraphs style).fontSize
          = (styleGeometry style).fontSize
            + addedSize (f64Ops m) (styleGeometry style).height (totalRunes paragraphs)
                paragraphs.length (blankCount paragraphs)
      ∧ (styleGeometry style).fontSize ≤ (drawImage (f64Ops m) env paragraphs style).fontSize := by
  have hn := totalRunes_nonneg paragraphs
  obtain ⟨hb0, hbn⟩ := blankCount_bounds paragraphs
  have hnp : 1 ≤ (paragraphs.length : Int) := by
    cases paragraphs with
    | nil => exact absurd rfl hne
    | cons p rest => simp
  have hb5 : blankCount paragraphs ≤ 5 := by omega
  have hH := styleGeometry_height style
  obtain ⟨k, hk⟩ : ∃ k : Nat, (k : Int) = (paragraphs.length : Int) - blankCount paragraphs :=
    ⟨_, Int.toNat_of_nonneg (by omega)⟩
  have hk5 : k < 2 ^ 53 := by
    have : k ≤ 5 := by omega
    omega
  obtain ⟨l1, l2, _⟩ := largeness_sat m laws (totalRunes paragraphs) paragraphs.length
    (blankCount paragraphs) k hn hb0 hk hk5
  have l4 := largeness_ge_one m laws (totalRunes paragraphs) paragraphs.length
    (blankCount paragraphs) k hn hb0 hk hk5 hnp
  obtain ⟨ha0, ha800, _⟩ := addedSize_f64 m laws (styleGeometry style).height
    (totalRunes paragraphs) (totalRunes paragraphs) paragraphs.length (blankCount paragraphs)
    hH hn (le_refl _) hb0 hbn hnp (by omega)
  have hsize := fontSize_f64 m laws env style paragraphs hne hmedia hlen
  have h1 : F64.ofInt 1 = F64.fin false (1 * f64Unit) := ofInt_small 1 (by norm_num)
  have h0 : F64.ofInt 0 = F64.fin false 0 := by
    have := ofInt_small 0 (by norm_num)
    rwa [Nat.zero_mul] at this
  obtain ⟨d, _, hD, _⟩ := div200_anti _ _ l1 l1 l2 l2 l4 (le_refl _)
  refine ⟨?_, ⟨d, hD⟩, by omega, ?_, ha0, ha800, hsize, by rw [hsize]; omega⟩
  · rw [h1]
    exact le_of_sat _ _ l1 l4 (Nat.mul_pos (by norm_num) f64Unit_pos)
  · rw [h0]
    exact (zoomBase_range (styleGeometry style).height (blankCount paragraphs) hH hb0 hb5).1

/-- Witness for C24 with the reference power: the paragraphs `a` and an empty
one in the Facebook style get the bonus 50 and the font size 68. -/
theorem sizing_well_defined_witness :
    addedSize (f64Ops refMath) (styleGeometry Style.Facebook).height (totalRunes ["a", ""])
        (["a", ""] : List String).length (blankCount ["a", ""]) = 50
      ∧ (drawImage (f64Ops refMath) sampleEnv ["a", ""] Style.Facebook).fontSize = 68
      ∧ (styleGeometry Style.Facebook).fontSize
          ≤ (drawImage (f64Ops refMath) sampleEnv ["a", ""] Style.Facebook).fontSize :=
  ⟨by rfl, by rfl,
   (sizing_well_defined refMath refPow_laws sampleEnv Style.Facebook ["a", ""] (by decide)
      (by decide) (by decide)).2.2.2.2.2.2.2⟩

/-! ## Adaptive sizing: more characters, smaller font -/

/-- C20: in the adaptive branch of `drawImage`, computed in `float64`, for a
fixed style, paragraph count and blank count, more characters never give a
larger font size. `math.Pow` is any function with the properties `PowLaws`. -/
theorem fontSize_antitone_in_nchars (m : MathEnv) (laws : PowLaws m.pow) (env : Env)
    (style : Style) (fewer more : List String)
    (hfewer : containsMedia env.isMediaURL fewer = false)
    (hmore : containsMedia env.isMediaURL more = false)
    (hlen : fewer.length < 6) (hcount : more.length = fewer.length)
    (hblank : blankCount more = blankCount fewer)
    (hchars : totalRunes fewer ≤ totalRunes more) :
    (drawImage (f64Ops m) env more style).fontSize
      ≤ (drawImage (f64Ops m) env fewer style).fontSize := by
  by_cases hne : fewer = []
  · subst hne
    have hm : more = [] := List.length_eq_zero.mp (by simpa using hcount)
    rw [hm]
  · have hne' : more ≠ [] := by
      intro hm
      rw [hm] at hcount
      exact hne (List.length_eq_zero.mp (by simpa using hcount.symm))
    have hn := totalRunes_nonneg fewer
    obtain ⟨hb0, hbn⟩ := blankCount_bounds fewer
    have hnp : 1 ≤ (fewer.length : Int) := by
      cases fewer with
      | nil => exact absurd rfl hne
      | cons p rest => simp
    obtain ⟨_, _, hanti⟩ := addedSize_f64 m laws (styleGeometry style).height
      (totalRunes fewer) (totalRunes more) fewer.length (blankCount fewer)
      (styleGeometry_height style) hn hchars hb0 hbn hnp (by omega)
    rw [fontSize_f64 m laws env style fewer hne hfewer hlen,
      fontSize_f64 m laws env style more hne' hmore (by omega), hcount, hblank]
    omega

/-- Witness for C20 with the reference power: in the default style the
paragraph `ab` gets size 137 and the paragraph `a` size 166. -/
theorem fontSize_antitone_in_nchars_witness :
    (drawImage (f64Ops refMath) sampleEnv ["ab"] Style.Default).fontSize = 137
      ∧ (drawImage (f64Ops refMath) sampleEnv ["a"] Style.Default).fontSize = 166
      ∧ (drawImage (f64Ops refMath) sampleEnv ["ab"] Style.Default).fontSize
          ≤ (drawImage (f64Ops refMath) sampleEnv ["a"] Style.Default).fontSize :=
  ⟨by rfl, by rfl,
   fontSize_antitone_in_nchars refMath refPow_laws sampleEnv Style.Default ["a"] ["ab"]
     (by decide) (by decide) (by decide) (by decide) (by decide) (by decide)⟩

end Gambit
